import Mathlib

/-!
Verification of the persistent hash map (HAMT) implemented in
`src/persistent_map.py` of the pypersistent repository.

The Python classes `BitmapNode`, `CollisionNode` and `PersistentMap` are
embedded shallowly.  A `BitmapNode`'s flat Python array stores two cells per
occupied bitmap slot: a slot is either a key/value entry `(key, val)` or a
child pair `(None, node)`, discriminated by `None` in the key position.
Slot i of the Lean list corresponds to Python array cells 2*i and 2*i+1, and
the tagged type `Slot` plays the role of the `None` discriminator (keys are
drawn from an arbitrary type `kt`, so no key collides with the discriminator;
the untyped representation where a host key `None` does collide with the
discriminator is modelled separately below for the safety claim).

Python object identity (`is`) on nodes is captured by the result types
`AssocRes`/`DissocRes`: the Python methods return `self` only on the
short-circuit paths (`AssocRes.same` / `DissocRes.same`); every other path
allocates a fresh object.  Python `is` on stored values is modelled by
equality on the value type `vt` (the code never compares values with `==`;
identity is the only comparison applied to values by `assoc`).

The host hash function is a parameter `hashf : kt → Int`; `hash_value`
(absolute value of the host hash) is translated as `hashValue`.
-/

namespace PyPersist

/-- Python `popcount(n) = bin(n).count('1')` for nonnegative `n`. -/
def popcount (n : Nat) : Nat :=
  if n = 0 then 0 else n % 2 + popcount (n / 2)
decreasing_by exact Nat.div_lt_self (Nat.pos_of_ne_zero (by assumption)) (by omega)

/-- Python `hash_value(key)`: `h if h >= 0 else -h` for the host hash `h`. -/
def hashValue {kt : Type} (hashf : kt → Int) (k : kt) : Nat :=
  (hashf k).natAbs

mutual
/-- The HAMT node type: Python classes `BitmapNode` (bitmap plus packed slot
array) and `CollisionNode` (a full hash `hsh` plus a flat list of pairs). -/
inductive Node (kt vt : Type) : Type where
  | bitmapNode (bitmap : Nat) (array : List (Slot kt vt))
  | collisionNode (hsh : Nat) (array : List (kt × vt))

/-- One occupied slot of a `BitmapNode`: Python cells `(key, val)` for an
entry and `(None, node)` for a child. -/
inductive Slot (kt vt : Type) : Type where
  | entry (k : kt) (v : vt)
  | child (node : Node kt vt)
end

variable {kt vt : Type}

/-- Linear scan of a `CollisionNode` array (the loop in `CollisionNode.get`). -/
def collGet [DecidableEq kt] : List (kt × vt) → kt → Option vt
  | [], _ => none
  | (k, v) :: rest, key => if k = key then some v else collGet rest key

mutual
/-- `BitmapNode.get` / `CollisionNode.get`.  `none` models the `not_found`
sentinel.  The packed-index array access `array[idx*2]`, `array[idx*2+1]` is
realized by the index walk `slotsGet`. -/
def Node.get [DecidableEq kt] : Node kt vt → Nat → Nat → kt → Option vt
  | .bitmapNode bm arr, shift, keyHash, key =>
    let bitPos := 1 <<< ((keyHash >>> shift) &&& 31)
    if bm &&& bitPos = 0 then none
    else slotsGet arr (popcount (bm &&& (bitPos - 1))) shift keyHash key
  | .collisionNode _ arr, _, _, key => collGet arr key
termination_by n => sizeOf n
decreasing_by all_goals (simp; try omega)

/-- Dispatch of `BitmapNode.get` on the slot at packed index `idx`: recurse
into a child, compare keys on an entry.  Walking off the end is Python's
`IndexError`, impossible for well-formed nodes; it is mapped to `none`. -/
def slotsGet [DecidableEq kt] : List (Slot kt vt) → Nat → Nat → Nat → kt → Option vt
  | [], _, _, _, _ => none
  | .child c :: _, 0, shift, keyHash, key => c.get (shift + 5) keyHash key
  | .entry k v :: _, 0, _, _, key => if k = key then some v else none
  | _ :: rest, idx + 1, shift, keyHash, key => slotsGet rest idx shift keyHash key
termination_by arr => sizeOf arr
decreasing_by all_goals (simp; try omega)
end

/-- Result of a node-level `assoc`: `same` is Python `return self` (the only
paths on which the returned object is identical to the receiver); `node n`
is a freshly constructed node. -/
inductive AssocRes (kt vt : Type) : Type where
  | same
  | node (n : Node kt vt)

/-- The object a Python caller receives from `assoc` (`self` on the
short-circuit paths). -/
def AssocRes.result (self : Node kt vt) : AssocRes kt vt → Node kt vt
  | .same => self
  | .node n => n

/-- `BitmapNode._create_node`: builds the subtree holding two colliding
entries, recursing until the 5-bit fragments diverge, or building a
`CollisionNode` once `shift >= 64`. -/
def createNode (hashf : kt → Int) (shift : Nat) (k1 : kt) (v1 : vt)
    (k2hash : Nat) (k2 : kt) (v2 : vt) : Node kt vt :=
  let k1hash := hashValue hashf k1
  if 64 ≤ shift then
    .collisionNode k1hash [(k1, v1), (k2, v2)]
  else
    let idx1 := (k1hash >>> shift) &&& 31
    let idx2 := (k2hash >>> shift) &&& 31
    if idx1 = idx2 then
      .bitmapNode (1 <<< idx1) [.child (createNode hashf (shift + 5) k1 v1 k2hash k2 v2)]
    else if idx1 < idx2 then
      .bitmapNode ((1 <<< idx1) ||| (1 <<< idx2)) [.entry k1 v1, .entry k2 v2]
    else
      .bitmapNode ((1 <<< idx1) ||| (1 <<< idx2)) [.entry k2 v2, .entry k1 v1]
termination_by 69 - shift

/-- The loop of `CollisionNode.assoc`: `none` means the scan hit an identical
stored value and the node returns `self`; `some arr` is the fresh array
(value replaced at the first matching key, or the pair appended). -/
def collAssoc [DecidableEq kt] [DecidableEq vt] :
    List (kt × vt) → kt → vt → Option (List (kt × vt))
  | [], key, v => some [(key, v)]
  | (k, v') :: rest, key, v =>
    if k = key then
      if v' = v then none else some ((k, v) :: rest)
    else
      (collAssoc rest key v).map (fun r => (k, v') :: r)

mutual
/-- `BitmapNode.assoc` / `CollisionNode.assoc`.  The Python array surgery on
the occupied-slot path (`new_array = array[:]` followed by the in-place
update of slot `idx`, i.e. `List.set`) is realized by the index walk
`slotsAssoc`, whose `none` outcome is the `return self` short circuit; the
empty-slot insertion `array[:idx*2] + [key, val] + array[idx*2:]` is
`take idx ++ [entry] ++ drop idx`. -/
def Node.assoc [DecidableEq kt] [DecidableEq vt] (hashf : kt → Int) :
    Node kt vt → Nat → Nat → kt → vt → AssocRes kt vt
  | .bitmapNode bm arr, shift, keyHash, key, val =>
    let bitPos := 1 <<< ((keyHash >>> shift) &&& 31)
    let idx := popcount (bm &&& (bitPos - 1))
    if bm &&& bitPos ≠ 0 then
      match slotsAssoc hashf arr idx shift keyHash key val with
      | none => .same
      | some arr' => .node (.bitmapNode bm arr')
    else
      .node (.bitmapNode (bm ||| bitPos) (arr.take idx ++ [.entry key val] ++ arr.drop idx))
  | .collisionNode ch arr, _, _, key, val =>
    match collAssoc arr key val with
    | none => .same
    | some arr' => .node (.collisionNode ch arr')
termination_by n => sizeOf n
decreasing_by all_goals (simp; try omega)

/-- The occupied-slot branch of `BitmapNode.assoc`, acting on the slot at
packed index `idx`: recurse into a child, replace the value or promote on an
entry.  `none` propagates `return self`; walking off the end (`IndexError`
in Python, unreachable for well-formed nodes) also yields `none`. -/
def slotsAssoc [DecidableEq kt] [DecidableEq vt] (hashf : kt → Int) :
    List (Slot kt vt) → Nat → Nat → Nat → kt → vt → Option (List (Slot kt vt))
  | [], _, _, _, _, _ => none
  | .child c :: rest, 0, shift, keyHash, key, val =>
    (match c.assoc hashf (shift + 5) keyHash key val with
     | .same => none
     | .node c' => some (.child c' :: rest))
  | .entry k v' :: rest, 0, shift, keyHash, key, val =>
    if k = key then
      if v' = val then none else some (.entry k val :: rest)
    else
      some (.child (createNode hashf (shift + 5) k v' keyHash key val) :: rest)
  | s :: rest, idx + 1, shift, keyHash, key, val =>
    (slotsAssoc hashf rest idx shift keyHash key val).map (fun r => s :: r)
termination_by arr => sizeOf arr
decreasing_by all_goals (simp; try omega)
end

/-- Result of a node-level `dissoc`: `same` is Python `return self`, `empty`
is Python `return None`, `node n` is a fresh node. -/
inductive DissocRes (kt vt : Type) : Type where
  | same
  | empty
  | node (n : Node kt vt)

/-- The loop of `CollisionNode.dissoc`: `none` means the key was not found
(the node returns `self`); `some arr` removes the first matching pair. -/
def collDissoc [DecidableEq kt] : List (kt × vt) → kt → Option (List (kt × vt))
  | [], _ => none
  | (k, v) :: rest, key =>
    if k = key then some rest
    else (collDissoc rest key).map (fun r => (k, v) :: r)

/-- Outcome of the occupied-slot branch of `BitmapNode.dissoc` on the slot
list: `same` propagates `return self`; `removed arr` is the array with the
slot deleted (`array[:idx*2] + array[idx*2+2:]`); `replaced arr` is the
array with the child swapped for the shrunken child. -/
inductive SlotsDissocRes (kt vt : Type) : Type where
  | same
  | removed (arr : List (Slot kt vt))
  | replaced (arr : List (Slot kt vt))

mutual
/-- `BitmapNode.dissoc` / `CollisionNode.dissoc`.  `bm ^^^ bitPos` equals the
Python `bitmap & ~bit_pos` because the bit is known to be set on that path. -/
def Node.dissoc [DecidableEq kt] : Node kt vt → Nat → Nat → kt → DissocRes kt vt
  | .bitmapNode bm arr, shift, keyHash, key =>
    let bitPos := 1 <<< ((keyHash >>> shift) &&& 31)
    if bm &&& bitPos = 0 then .same
    else
      match slotsDissoc arr (popcount (bm &&& (bitPos - 1))) shift keyHash key with
      | .same => .same
      | .removed arr' =>
        if popcount bm = 1 then .empty
        else .node (.bitmapNode (bm ^^^ bitPos) arr')
      | .replaced arr' => .node (.bitmapNode bm arr')
  | .collisionNode ch arr, _, _, key =>
    match collDissoc arr key with
    | none => .same
    | some [] => .empty
    | some arr' => .node (.collisionNode ch arr')
termination_by n => sizeOf n
decreasing_by all_goals (simp; try omega)

/-- The occupied-slot branch of `BitmapNode.dissoc` on the slot at packed
index `idx`.  Walking off the end (Python `IndexError`, unreachable for
well-formed nodes) yields `same`. -/
def slotsDissoc [DecidableEq kt] :
    List (Slot kt vt) → Nat → Nat → Nat → kt → SlotsDissocRes kt vt
  | [], _, _, _, _ => .same
  | .child c :: rest, 0, shift, keyHash, key =>
    (match c.dissoc (shift + 5) keyHash key with
     | .same => .same
     | .empty => .removed rest
     | .node c' => .replaced (.child c' :: rest))
  | .entry k _ :: rest, 0, _, _, key =>
    if k = key then .removed rest else .same
  | s :: rest, idx + 1, shift, keyHash, key =>
    (match slotsDissoc rest idx shift keyHash key with
     | .same => .same
     | .removed r => .removed (s :: r)
     | .replaced r => .replaced (s :: r))
termination_by arr => sizeOf arr
decreasing_by all_goals (simp; try omega)
end

mutual
/-- `BitmapNode.iterate` / `CollisionNode.iterate`: the key/value pairs in
iteration order. -/
def Node.toList : Node kt vt → List (kt × vt)
  | .bitmapNode _ arr => slotsToList arr
  | .collisionNode _ arr => arr

/-- Iteration over the slots of a `BitmapNode` in array order. -/
def slotsToList : List (Slot kt vt) → List (kt × vt)
  | [] => []
  | .entry k v :: rest => (k, v) :: slotsToList rest
  | .child c :: rest => c.toList ++ slotsToList rest
end

/-- The Python class `PersistentMap`: fields `_root` and `_count`. -/
structure PersistentMap (kt vt : Type) : Type where
  root : Option (Node kt vt)
  count : Nat

/-- `PersistentMap()`. -/
def PersistentMap.empty (kt vt : Type) : PersistentMap kt vt := ⟨none, 0⟩

variable {kt vt : Type}

/-- `PersistentMap.get(key, _NOT_FOUND)`: `some v` when the key is found,
`none` for the `_NOT_FOUND` sentinel.  This is the lookup the Python code
performs internally for `get`, `__contains__`, `__getitem__`, `assoc` and
`dissoc`. -/
def PersistentMap.lookup [DecidableEq kt] (hashf : kt → Int)
    (m : PersistentMap kt vt) (key : kt) : Option vt :=
  match m.root with
  | none => none
  | some r => r.get 0 (hashValue hashf key) key

/-- `PersistentMap.get(key, default)`. -/
def PersistentMap.get [DecidableEq kt] (hashf : kt → Int)
    (m : PersistentMap kt vt) (key : kt) (default : vt) : vt :=
  (m.lookup hashf key).getD default

/-- `key in m` (`PersistentMap.__contains__`). -/
def PersistentMap.contains [DecidableEq kt] (hashf : kt → Int)
    (m : PersistentMap kt vt) (key : kt) : Bool :=
  (m.lookup hashf key).isSome

/-- `PersistentMap.__getitem__`: `none` models the raised `KeyError`. -/
def PersistentMap.getItem [DecidableEq kt] (hashf : kt → Int)
    (m : PersistentMap kt vt) (key : kt) : Option vt :=
  m.lookup hashf key

/-- `PersistentMap.assoc`. -/
def PersistentMap.assoc [DecidableEq kt] [DecidableEq vt] (hashf : kt → Int)
    (m : PersistentMap kt vt) (key : kt) (val : vt) : PersistentMap kt vt :=
  let keyHash := hashValue hashf key
  match m.root with
  | none =>
    ⟨some (((Node.bitmapNode 0 []).assoc hashf 0 keyHash key val).result
      (Node.bitmapNode 0 [])), 1⟩
  | some r =>
    let oldVal := r.get 0 keyHash key
    match r.assoc hashf 0 keyHash key val with
    | .same => m
    | .node newRoot =>
      ⟨some newRoot, if oldVal.isSome then m.count else m.count + 1⟩

/-- `PersistentMap.dissoc`. -/
def PersistentMap.dissoc [DecidableEq kt] (hashf : kt → Int)
    (m : PersistentMap kt vt) (key : kt) : PersistentMap kt vt :=
  match m.root with
  | none => m
  | some r =>
    let keyHash := hashValue hashf key
    if (r.get 0 keyHash key).isSome then
      match r.dissoc 0 keyHash key with
      | .same => ⟨some r, m.count - 1⟩
      | .empty => ⟨none, m.count - 1⟩
      | .node newRoot => ⟨some newRoot, m.count - 1⟩
    else m

/-- `PersistentMap.items()`. -/
def PersistentMap.toList (m : PersistentMap kt vt) : List (kt × vt) :=
  match m.root with
  | none => []
  | some r => r.toList

/-- `PersistentMap.__eq__`: equal lengths and every pair of `self` present
with the same value in `other`. -/
def PersistentMap.mapEq [DecidableEq kt] [DecidableEq vt] (hashf : kt → Int)
    (m other : PersistentMap kt vt) : Bool :=
  m.count = other.count &&
    m.toList.all (fun p =>
      other.contains hashf p.1 && (other.lookup hashf p.1 == some p.2))

/-- The maps producible through the public constructors and operations:
`PersistentMap()` followed by any sequence of `assoc`/`dissoc`. -/
inductive Reachable [DecidableEq kt] [DecidableEq vt] (hashf : kt → Int) :
    PersistentMap kt vt → Prop where
  | empty : Reachable hashf (PersistentMap.empty kt vt)
  | assoc {m : PersistentMap kt vt} (key : kt) (val : vt) :
      Reachable hashf m → Reachable hashf (m.assoc hashf key val)
  | dissoc {m : PersistentMap kt vt} (key : kt) :
      Reachable hashf m → Reachable hashf (m.dissoc hashf key)

mutual
/-- Number of levels of the tree (a lone node has depth 1). -/
def Node.depth : Node kt vt → Nat
  | .bitmapNode _ arr => 1 + slotsDepth arr
  | .collisionNode _ _ => 1
termination_by n => sizeOf n
decreasing_by all_goals (simp; try omega)

/-- Maximum depth over the children in a slot list. -/
def slotsDepth : List (Slot kt vt) → Nat
  | [] => 0
  | .entry _ _ :: rest => slotsDepth rest
  | .child c :: rest => max c.depth (slotsDepth rest)
termination_by arr => sizeOf arr
decreasing_by all_goals (simp; try omega)
end

/-- `d` nested single-child bitmap levels (bit 0 set at each level) around
`inner`: the shape the code builds for keys whose hash fragments all
collide at 0. -/
def nestChain : Nat → Node kt vt → Node kt vt
  | 0, inner => inner
  | d + 1, inner => .bitmapNode 1 [.child (nestChain d inner)]

/-- A node holding exactly one entry (the shape the spec says `dissoc` must
hoist into the parent slot). -/
def Node.isSingleEntry : Node kt vt → Bool
  | .bitmapNode _ [.entry _ _] => true
  | .collisionNode _ [_] => true
  | _ => false

mutual
/-- The spec's invariant 6 (no single-child indirection): no child slot
anywhere in the tree holds a node that has collapsed to a single entry. -/
def Node.noSingleEntryChild : Node kt vt → Bool
  | .bitmapNode _ arr => slotsNoSingleEntryChild arr
  | .collisionNode _ _ => true
termination_by n => sizeOf n
decreasing_by all_goals (simp; try omega)

/-- Slot-list part of `Node.noSingleEntryChild`. -/
def slotsNoSingleEntryChild : List (Slot kt vt) → Bool
  | [] => true
  | .entry _ _ :: rest => slotsNoSingleEntryChild rest
  | .child c :: rest =>
    !c.isSingleEntry && c.noSingleEntryChild && slotsNoSingleEntryChild rest
termination_by arr => sizeOf arr
decreasing_by all_goals (simp; try omega)
end

mutual
/-- Collision-node placement as the code actually maintains it: every
`CollisionNode` sits at shift 65 (13 bitmap levels below the root) and its
keys all agree on the 65 hash bits consumed on the path to it. -/
def collInv (hashf : kt → Int) : Node kt vt → Nat → Bool
  | .bitmapNode _ arr, shift => slotsCollInv hashf arr shift
  | .collisionNode _ arr, shift =>
    (shift == 65) && arr.all (fun p => arr.all (fun q =>
      hashValue hashf p.1 % 2 ^ 65 == hashValue hashf q.1 % 2 ^ 65))
termination_by n => sizeOf n
decreasing_by all_goals (simp; try omega)

/-- Slot-list part of `collInv`. -/
def slotsCollInv (hashf : kt → Int) : List (Slot kt vt) → Nat → Bool
  | [], _ => true
  | .entry _ _ :: rest, shift => slotsCollInv hashf rest shift
  | .child c :: rest, shift => collInv hashf c (shift + 5) && slotsCollInv hashf rest shift
termination_by arr => sizeOf arr
decreasing_by all_goals (simp; try omega)
end

mutual
/-- Well-formedness of a node rooted at `shift` (0, 5, …, 60 for bitmap
nodes, 65 for collision nodes): the packed array has one slot per set bitmap
bit, and the subtree holds exactly keys whose hash is congruent to `pre`
modulo `2 ^ shift`, the slot for bitmap bit `f` further fixing the next
five hash bits to `f`.  This is the invariant every tree reachable through
`assoc`/`dissoc` satisfies. -/
inductive NodeWF (hashf : kt → Int) : Node kt vt → Nat → Nat → Prop where
  | bitmap {bm : Nat} {arr : List (Slot kt vt)} {shift pre : Nat} :
      shift ≤ 60 → shift % 5 = 0 → pre < 2 ^ shift → bm < 2 ^ 32 → bm ≠ 0 →
      arr.length = popcount bm →
      (∀ f, f < 32 → bm.testBit f →
        OptSlotWF hashf arr[popcount (bm % 2 ^ f)]? (shift + 5) (pre + f * 2 ^ shift)) →
      NodeWF hashf (.bitmapNode bm arr) shift pre
  | collision {ch : Nat} {arr : List (kt × vt)} {shift pre : Nat} :
      shift = 65 → pre < 2 ^ 65 →
      (∀ p ∈ arr, hashValue hashf p.1 % 2 ^ 65 = pre) →
      (arr.map Prod.fst).Nodup → arr ≠ [] →
      NodeWF hashf (.collisionNode ch arr) shift pre

/-- Well-formedness of the contents of a slot whose keys are fixed to `pre`
modulo `2 ^ shift5`. -/
inductive SlotWF (hashf : kt → Int) : Slot kt vt → Nat → Nat → Prop where
  | entry {k : kt} {v : vt} {shift5 pre : Nat} :
      hashValue hashf k % 2 ^ shift5 = pre → SlotWF hashf (.entry k v) shift5 pre
  | child {c : Node kt vt} {shift5 pre : Nat} :
      NodeWF hashf c shift5 pre → SlotWF hashf (.child c) shift5 pre

/-- `SlotWF` lifted to the optional result of a packed-array access: the
access must be in range and the slot well formed. -/
inductive OptSlotWF (hashf : kt → Int) : Option (Slot kt vt) → Nat → Nat → Prop where
  | some {s : Slot kt vt} {shift5 pre : Nat} :
      SlotWF hashf s shift5 pre → OptSlotWF hashf (some s) shift5 pre
end

/-- Map-level invariant: an absent root forces count 0; otherwise the root
is well formed and `_count` is the number of stored pairs. -/
def MapWF (hashf : kt → Int) (m : PersistentMap kt vt) : Prop :=
  match m.root with
  | none => m.count = 0
  | some r => NodeWF hashf r 0 0 ∧ m.count = r.toList.length

/-!
## Heap-level embedding

For the structural-sharing claim the same Python methods are embedded once
more with allocation made explicit.  A heap is a list of node records; a
child slot holds the address (list index) of the child.  Python's
`new_array = self.array[:]` / `BitmapNode(...)` pattern only ever writes
into freshly allocated objects, which the embedding renders as: every
operation returns a heap that *extends* its input heap (`hp ++ t`), never a
heap with an existing cell changed.  All functions take explicit fuel (the
recursion is over heap addresses, which no structural measure bounds). -/

/-- Heap-level slot of a `BitmapNode`: a child holds an address. -/
inductive HSlot (kt vt : Type) : Type where
  | entry (k : kt) (v : vt)
  | child (addr : Nat)

/-- Heap-level node record. -/
inductive HNode (kt vt : Type) : Type where
  | bitmapNode (bitmap : Nat) (array : List (HSlot kt vt))
  | collisionNode (hsh : Nat) (array : List (kt × vt))

/-- The heap: address `a` denotes `hp[a]`; allocation appends. -/
abbrev Heap (kt vt : Type) : Type := List (HNode kt vt)

/-- All child addresses of a node are below `bound`. -/
def HNode.closedBelow (bound : Nat) : HNode kt vt → Bool
  | .bitmapNode _ arr =>
    arr.all (fun s => match s with | .child a => decide (a < bound) | .entry _ _ => true)
  | .collisionNode _ _ => true

/-- Every child pointer in the heap is a valid address. -/
def heapClosed (hp : Heap kt vt) : Bool :=
  hp.all (HNode.closedBelow hp.length)

/-- Heap-level `BitmapNode.get`/`CollisionNode.get` (fuelled). -/
def hGet [DecidableEq kt] : Nat → Heap kt vt → Nat → Nat → Nat → kt → Option vt
  | 0, _, _, _, _, _ => none
  | fuel + 1, hp, a, shift, keyHash, key =>
    match hp[a]? with
    | none => none
    | some (.collisionNode _ arr) => collGet arr key
    | some (.bitmapNode bm arr) =>
      let bitPos := 1 <<< ((keyHash >>> shift) &&& 31)
      if bm &&& bitPos = 0 then none
      else
        match arr[popcount (bm &&& (bitPos - 1))]? with
        | some (.child c) => hGet fuel hp c (shift + 5) keyHash key
        | some (.entry k v) => if k = key then some v else none
        | none => none

mutual
/-- Heap-level iteration (`BitmapNode.iterate`, fuelled). -/
def hToList : Nat → Heap kt vt → Nat → List (kt × vt)
  | 0, _, _ => []
  | fuel + 1, hp, a =>
    match hp[a]? with
    | none => []
    | some (.collisionNode _ arr) => arr
    | some (.bitmapNode _ arr) => hSlotsToList fuel hp arr
termination_by fuel _ _ => (fuel, 0)
decreasing_by all_goals (simp [Prod.lex_def]; try omega)

/-- Slot-list part of `hToList`. -/
def hSlotsToList : Nat → Heap kt vt → List (HSlot kt vt) → List (kt × vt)
  | _, _, [] => []
  | fuel, hp, .entry k v :: rest => (k, v) :: hSlotsToList fuel hp rest
  | fuel, hp, .child c :: rest => hToList fuel hp c ++ hSlotsToList fuel hp rest
termination_by fuel _ arr => (fuel, 1 + sizeOf arr)
decreasing_by all_goals (simp [Prod.lex_def]; try omega)
end

/-- Result of a heap-level `assoc`/`dissoc`: `same` is `return self`,
`empty` is `return None`, `addr a` a freshly allocated node, `fail` fuel
exhaustion (no Python counterpart; never reached with ample fuel). -/
inductive HRes : Type where
  | same
  | empty
  | addr (a : Nat)
  | fail

/-- Heap-level `BitmapNode._create_node`: children are allocated before the
node that points to them. -/
def hCreateNode (hashf : kt → Int) (shift : Nat) (hp : Heap kt vt) (k1 : kt) (v1 : vt)
    (k2hash : Nat) (k2 : kt) (v2 : vt) : Heap kt vt × Nat :=
  let k1hash := hashValue hashf k1
  if 64 ≤ shift then
    (hp ++ [.collisionNode k1hash [(k1, v1), (k2, v2)]], hp.length)
  else
    let idx1 := (k1hash >>> shift) &&& 31
    let idx2 := (k2hash >>> shift) &&& 31
    if idx1 = idx2 then
      match hCreateNode hashf (shift + 5) hp k1 v1 k2hash k2 v2 with
      | (hp', c) => (hp' ++ [.bitmapNode (1 <<< idx1) [.child c]], hp'.length)
    else if idx1 < idx2 then
      (hp ++ [.bitmapNode ((1 <<< idx1) ||| (1 <<< idx2)) [.entry k1 v1, .entry k2 v2]], hp.length)
    else
      (hp ++ [.bitmapNode ((1 <<< idx1) ||| (1 <<< idx2)) [.entry k2 v2, .entry k1 v1]], hp.length)
termination_by 69 - shift

/-- Heap-level `BitmapNode.assoc`/`CollisionNode.assoc` (fuelled): fresh
nodes are appended, existing cells are never written. -/
def hAssoc [DecidableEq kt] [DecidableEq vt] (hashf : kt → Int) :
    Nat → Heap kt vt → Nat → Nat → Nat → kt → vt → Heap kt vt × HRes
  | 0, hp, _, _, _, _, _ => (hp, .fail)
  | fuel + 1, hp, a, shift, keyHash, key, val =>
    match hp[a]? with
    | none => (hp, .fail)
    | some (.collisionNode ch arr) =>
      (match collAssoc arr key val with
       | none => (hp, .same)
       | some arr' => (hp ++ [.collisionNode ch arr'], .addr hp.length))
    | some (.bitmapNode bm arr) =>
      let bitPos := 1 <<< ((keyHash >>> shift) &&& 31)
      let idx := popcount (bm &&& (bitPos - 1))
      if bm &&& bitPos ≠ 0 then
        match arr[idx]? with
        | none => (hp, .fail)
        | some (.child c) =>
          (match hAssoc hashf fuel hp c (shift + 5) keyHash key val with
           | (hp', .same) => (hp', .same)
           | (hp', .addr c') =>
             (hp' ++ [.bitmapNode bm (arr.set idx (.child c'))], .addr hp'.length)
           | (hp', _) => (hp', .fail))
        | some (.entry k v') =>
          if k = key then
            if v' = val then (hp, .same)
            else (hp ++ [.bitmapNode bm (arr.set idx (.entry k val))], .addr hp.length)
          else
            match hCreateNode hashf (shift + 5) hp k v' keyHash key val with
            | (hp', c) =>
              (hp' ++ [.bitmapNode bm (arr.set idx (.child c))], .addr hp'.length)
      else
        (hp ++ [.bitmapNode (bm ||| bitPos) (arr.take idx ++ [.entry key val] ++ arr.drop idx)],
          .addr hp.length)

/-- Heap-level `BitmapNode.dissoc`/`CollisionNode.dissoc` (fuelled). -/
def hDissoc [DecidableEq kt] (hashf : kt → Int) :
    Nat → Heap kt vt → Nat → Nat → Nat → kt → Heap kt vt × HRes
  | 0, hp, _, _, _, _ => (hp, .fail)
  | fuel + 1, hp, a, shift, keyHash, key =>
    match hp[a]? with
    | none => (hp, .fail)
    | some (.collisionNode ch arr) =>
      (match collDissoc arr key with
       | none => (hp, .same)
       | some [] => (hp, .empty)
       | some arr' => (hp ++ [.collisionNode ch arr'], .addr hp.length))
    | some (.bitmapNode bm arr) =>
      let bitPos := 1 <<< ((keyHash >>> shift) &&& 31)
      if bm &&& bitPos = 0 then (hp, .same)
      else
        let idx := popcount (bm &&& (bitPos - 1))
        match arr[idx]? with
        | none => (hp, .fail)
        | some (.child c) =>
          (match hDissoc hashf fuel hp c (shift + 5) keyHash key with
           | (hp', .same) => (hp', .same)
           | (hp', .empty) =>
             if popcount bm = 1 then (hp', .empty)
             else (hp' ++ [.bitmapNode (bm ^^^ bitPos) (arr.take idx ++ arr.drop (idx + 1))],
               .addr hp'.length)
           | (hp', .addr c') =>
             (hp' ++ [.bitmapNode bm (arr.set idx (.child c'))], .addr hp'.length)
           | (hp', .fail) => (hp', .fail))
        | some (.entry k _) =>
          if k = key then
            if popcount bm = 1 then (hp, .empty)
            else (hp ++ [.bitmapNode (bm ^^^ bitPos) (arr.take idx ++ arr.drop (idx + 1))],
              .addr hp.length)
          else (hp, .same)

/-- Identity hash on `Nat` keys, used for concrete instances. -/
def natHash : Nat → Int := fun n => (n : Int)

/-- A host type whose `hash` is the fixed constant 12345 (the colliding-keys
scenario of the spec). -/
def constHash : Nat → Int := fun _ => (12345 : Int)

/-- An all-zero hash: every pair of keys collides on every fragment. -/
def zeroHash : Nat → Int := fun _ => 0

/-- Two keys agreeing on hash bits 0–64 but with different full hashes. -/
def splitHash : Nat → Int := fun n => if n = 1 then 0 else ((2 ^ 65 : Nat) : Int)

/-- A host hash for the untyped model (`hash(None)` is some host constant). -/
def dExampleHash : Option Nat → Int := fun o => match o with | none => 0 | some n => (n : Int)

/-!
## The untyped slot representation

The Python arrays are untyped: the discriminator for a child slot is the
host value `None` in the key position, and the very same `None` is available
to callers as a key.  To examine that corner the node type is embedded a
second time at the representation level: keys are `Option kt` with `none`
standing for the host `None`, a key cell stores exactly what Python stores
(so an entry whose key is the host `None` is indistinguishable from a child
marker), and a value cell holds either a plain value or a node object.
`DRes.crash` marks the executions in which Python raises an unhandled
exception (`AttributeError` from dispatching a node method on a plain value,
or `IndexError` from an out-of-range packed index).
-/

mutual
/-- Untyped `BitmapNode`/`CollisionNode`: each array cell pair is
`(key cell, value cell)` exactly as in the Python lists. -/
inductive DNode (kt vt : Type) : Type where
  | bitmapNode (bitmap : Nat) (array : List (Option kt × DVal kt vt))
  | collisionNode (hsh : Nat) (array : List (Option kt × DVal kt vt))

/-- The contents of a Python value cell: a plain host value or a node. -/
inductive DVal (kt vt : Type) : Type where
  | val (v : vt)
  | node (n : DNode kt vt)
end

/-- Outcome of an untyped lookup: the returned cell, the `not_found`
sentinel, or an unhandled Python exception. -/
inductive DRes (kt vt : Type) : Type where
  | crash
  | notFound
  | found (v : DVal kt vt)

/-- The loop of `CollisionNode.get` on untyped cells. -/
def dCollGet [DecidableEq kt] :
    List (Option kt × DVal kt vt) → Option kt → Option (DVal kt vt)
  | [], _ => none
  | (k, v) :: rest, key => if k = key then some v else dCollGet rest key

mutual
/-- Untyped `BitmapNode.get` / `CollisionNode.get`: a cell whose key position
holds `None` is treated as a child and `get` is dispatched on its value cell,
crashing when that cell is a plain value. -/
def DNode.get [DecidableEq kt] : DNode kt vt → Nat → Nat → Option kt → DRes kt vt
  | .bitmapNode bm arr, shift, keyHash, key =>
    let bitPos := 1 <<< ((keyHash >>> shift) &&& 31)
    if bm &&& bitPos = 0 then .notFound
    else dSlotsGet arr (popcount (bm &&& (bitPos - 1))) shift keyHash key
  | .collisionNode _ arr, _, _, key =>
    match dCollGet arr key with
    | some v => .found v
    | none => .notFound
termination_by n => sizeOf n
decreasing_by all_goals (simp; try omega)

/-- Dispatch of the untyped `BitmapNode.get` on the cell pair at packed
index `idx`; walking off the end is Python's `IndexError`. -/
def dSlotsGet [DecidableEq kt] :
    List (Option kt × DVal kt vt) → Nat → Nat → Nat → Option kt → DRes kt vt
  | [], _, _, _, _ => .crash
  | (keyOrNode, valOrNone) :: _, 0, shift, keyHash, key =>
    if keyOrNode = none then
      match valOrNone with
      | .node c => c.get (shift + 5) keyHash key
      | .val _ => .crash
    else if keyOrNode = key then .found valOrNone
    else .notFound
  | _ :: rest, idx + 1, shift, keyHash, key => dSlotsGet rest idx shift keyHash key
termination_by arr => sizeOf arr
decreasing_by all_goals (simp; try omega)
end

/-- Outcome of an untyped `assoc`. -/
inductive DARes (kt vt : Type) : Type where
  | same
  | node (n : DNode kt vt)
  | crash

/-- Untyped `BitmapNode._create_node`. -/
def dCreateNode (hashf : Option kt → Int) (shift : Nat) (k1 : Option kt)
    (v1 : DVal kt vt) (k2hash : Nat) (k2 : Option kt) (v2 : vt) : DNode kt vt :=
  let k1hash := hashValue hashf k1
  if 64 ≤ shift then
    .collisionNode k1hash [(k1, v1), (k2, .val v2)]
  else
    let idx1 := (k1hash >>> shift) &&& 31
    let idx2 := (k2hash >>> shift) &&& 31
    if idx1 = idx2 then
      .bitmapNode (1 <<< idx1) [(none, .node (dCreateNode hashf (shift + 5) k1 v1 k2hash k2 v2))]
    else if idx1 < idx2 then
      .bitmapNode ((1 <<< idx1) ||| (1 <<< idx2)) [(k1, v1), (k2, .val v2)]
    else
      .bitmapNode ((1 <<< idx1) ||| (1 <<< idx2)) [(k2, .val v2), (k1, v1)]
termination_by 69 - shift

/-- The loop of `CollisionNode.assoc` on untyped cells (`none` = return
`self`).  The `is` check against the stored cell is true only when the cell
is the plain value being inserted. -/
def dCollAssoc [DecidableEq kt] [DecidableEq vt] :
    List (Option kt × DVal kt vt) → Option kt → vt → Option (List (Option kt × DVal kt vt))
  | [], key, v => some [(key, .val v)]
  | (k, v') :: rest, key, v =>
    if k = key then
      match v' with
      | .val w => if w = v then none else some ((k, .val v) :: rest)
      | .node _ => some ((k, .val v) :: rest)
    else
      (dCollAssoc rest key v).map (fun r => (k, v') :: r)

/-- Outcome of the occupied-slot branch of the untyped `BitmapNode.assoc`
on the slot list. -/
inductive DSlotsRes (kt vt : Type) : Type where
  | same
  | arr (a : List (Option kt × DVal kt vt))
  | crash

mutual
/-- Untyped `BitmapNode.assoc` / `CollisionNode.assoc`. -/
def DNode.assoc [DecidableEq kt] [DecidableEq vt] (hashf : Option kt → Int) :
    DNode kt vt → Nat → Nat → Option kt → vt → DARes kt vt
  | .bitmapNode bm arr, shift, keyHash, key, val =>
    let bitPos := 1 <<< ((keyHash >>> shift) &&& 31)
    let idx := popcount (bm &&& (bitPos - 1))
    if bm &&& bitPos ≠ 0 then
      match dSlotsAssoc hashf arr idx shift keyHash key val with
      | .same => .same
      | .arr arr' => .node (.bitmapNode bm arr')
      | .crash => .crash
    else
      .node (.bitmapNode (bm ||| bitPos) (arr.take idx ++ [(key, .val val)] ++ arr.drop idx))
  | .collisionNode ch arr, _, _, key, val =>
    match dCollAssoc arr key val with
    | none => .same
    | some arr' => .node (.collisionNode ch arr')
termination_by n => sizeOf n
decreasing_by all_goals (simp; try omega)

/-- The occupied-slot branch of the untyped `BitmapNode.assoc` on the cell
pair at packed index `idx`: a `None` key cell dispatches `assoc` on the
value cell (crashing when it is a plain value). -/
def dSlotsAssoc [DecidableEq kt] [DecidableEq vt] (hashf : Option kt → Int) :
    List (Option kt × DVal kt vt) → Nat → Nat → Nat → Option kt → vt → DSlotsRes kt vt
  | [], _, _, _, _, _ => .crash
  | (keyOrNode, valOrNone) :: rest, 0, shift, keyHash, key, val =>
    if keyOrNode = none then
      match valOrNone with
      | .node c =>
        (match c.assoc hashf (shift + 5) keyHash key val with
         | .same => .same
         | .node c' => .arr ((none, .node c') :: rest)
         | .crash => .crash)
      | .val _ => .crash
    else if keyOrNode = key then
      match valOrNone with
      | .val v' =>
        if v' = val then .same
        else .arr ((keyOrNode, .val val) :: rest)
      | .node _ => .arr ((keyOrNode, .val val) :: rest)
    else
      .arr ((none,
        .node (dCreateNode hashf (shift + 5) keyOrNode valOrNone keyHash key val)) :: rest)
  | s :: rest, idx + 1, shift, keyHash, key, val =>
    (match dSlotsAssoc hashf rest idx shift keyHash key val with
     | .same => .same
     | .arr r => .arr (s :: r)
     | .crash => .crash)
termination_by arr => sizeOf arr
decreasing_by all_goals (simp; try omega)
end

/-- `PersistentMap` over the untyped representation. -/
structure DMap (kt vt : Type) : Type where
  root : Option (DNode kt vt)
  count : Nat

/-- The empty untyped map. -/
def DMap.empty (kt vt : Type) : DMap kt vt := ⟨none, 0⟩

/-- Untyped `PersistentMap.get(key, _NOT_FOUND)`. -/
def DMap.lookup [DecidableEq kt] (hashf : Option kt → Int)
    (m : DMap kt vt) (key : Option kt) : DRes kt vt :=
  match m.root with
  | none => .notFound
  | some r => r.get 0 (hashValue hashf key) key

/-- Untyped `PersistentMap.assoc`; `none` models an operation that raises. -/
def DMap.assoc [DecidableEq kt] [DecidableEq vt] (hashf : Option kt → Int)
    (m : DMap kt vt) (key : Option kt) (val : vt) : Option (DMap kt vt) :=
  let keyHash := hashValue hashf key
  match m.root with
  | none =>
    match (DNode.bitmapNode 0 []).assoc hashf 0 keyHash key val with
    | .node n => some ⟨some n, 1⟩
    | .same => some ⟨some (DNode.bitmapNode 0 []), 1⟩
    | .crash => none
  | some r =>
    match r.get 0 keyHash key with
    | .crash => none
    | oldVal =>
      match r.assoc hashf 0 keyHash key val with
      | .same => some m
      | .node newRoot =>
        some ⟨some newRoot,
          match oldVal with
          | .found _ => m.count
          | _ => m.count + 1⟩
      | .crash => none


/-!
## Identity short-circuit: `assoc` of a stored value and `dissoc` of an
absent key return `self`
-/

mutual
/-- If `get` finds exactly the value being inserted, node-level `assoc`
takes the `return self` path. -/
theorem get_assoc_same [DecidableEq kt] [DecidableEq vt] (hashf : kt → Int)
    (n : Node kt vt) (shift keyHash : Nat) (key : kt) (v : vt)
    (h : n.get shift keyHash key = some v) :
    n.assoc hashf shift keyHash key v = .same := by
  match n with
  | .bitmapNode bm arr =>
    simp only [Node.get] at h
    simp only [Node.assoc]
    split at h
    · exact absurd h (by simp)
    · next hbit =>
      rw [if_pos hbit]
      rw [slots_get_assoc_same hashf arr _ shift keyHash key v h]
  | .collisionNode ch arr =>
    simp only [Node.get] at h
    simp only [Node.assoc]
    have hc : collAssoc arr key v = none := by
      induction arr with
      | nil => simp [collGet] at h
      | cons p rest ih =>
        match p with
        | (k, v') =>
          rw [collGet] at h
          rw [collAssoc]
          by_cases hk : k = key
          · rw [if_pos hk] at h ⊢
            simp at h
            simp [h]
          · rw [if_neg hk] at h ⊢
            rw [ih h]
            rfl
    rw [hc]
termination_by sizeOf n

/-- Slot-list version of `get_assoc_same`. -/
theorem slots_get_assoc_same [DecidableEq kt] [DecidableEq vt] (hashf : kt → Int)
    (arr : List (Slot kt vt)) (idx shift keyHash : Nat) (key : kt) (v : vt)
    (h : slotsGet arr idx shift keyHash key = some v) :
    slotsAssoc hashf arr idx shift keyHash key v = none := by
  match arr, idx with
  | [], _ => simp [slotsGet] at h
  | .child c :: rest, 0 =>
    rw [slotsGet] at h
    rw [slotsAssoc, get_assoc_same hashf c _ _ _ _ h]
  | .entry k v' :: rest, 0 =>
    rw [slotsGet] at h
    rw [slotsAssoc]
    split at h
    · next hk => simp at h; simp [hk, h]
    · simp at h
  | s :: rest, idx + 1 =>
    rw [slotsGet] at h
    rw [slotsAssoc, slots_get_assoc_same hashf rest idx shift keyHash key v h]
    rfl
termination_by sizeOf arr
end

mutual
/-- If `get` misses, node-level `dissoc` takes the `return self` path. -/
theorem get_none_dissoc_same [DecidableEq kt]
    (n : Node kt vt) (shift keyHash : Nat) (key : kt)
    (h : n.get shift keyHash key = none) :
    n.dissoc shift keyHash key = .same := by
  match n with
  | .bitmapNode bm arr =>
    simp only [Node.get] at h
    simp only [Node.dissoc]
    split at h
    · next hbit => rw [if_pos hbit]
    · next hbit =>
      rw [if_neg hbit]
      rw [slots_get_none_dissoc_same arr _ shift keyHash key h]
  | .collisionNode ch arr =>
    simp only [Node.get] at h
    simp only [Node.dissoc]
    have hc : collDissoc arr key = none := by
      induction arr with
      | nil => simp [collDissoc]
      | cons p rest ih =>
        match p with
        | (k, v') =>
          rw [collGet] at h
          rw [collDissoc]
          by_cases hk : k = key
          · rw [if_pos hk] at h; simp at h
          · rw [if_neg hk] at h ⊢
            rw [ih h]
            rfl
    rw [hc]
termination_by sizeOf n

/-- Slot-list version of `get_none_dissoc_same`. -/
theorem slots_get_none_dissoc_same [DecidableEq kt]
    (arr : List (Slot kt vt)) (idx shift keyHash : Nat) (key : kt)
    (h : slotsGet arr idx shift keyHash key = none) :
    slotsDissoc arr idx shift keyHash key = .same := by
  match arr, idx with
  | [], _ => rw [slotsDissoc]
  | .child c :: rest, 0 =>
    rw [slotsGet] at h
    rw [slotsDissoc, get_none_dissoc_same c _ _ _ h]
  | .entry k v' :: rest, 0 =>
    rw [slotsGet] at h
    rw [slotsDissoc]
    split at h
    · simp at h
    · next hk => rw [if_neg hk]
  | s :: rest, idx + 1 =>
    rw [slotsGet] at h
    rw [slotsDissoc, slots_get_none_dissoc_same rest idx shift keyHash key h]
termination_by sizeOf arr
end

/-- C6: `assoc(k, v)` on a map already associating `k` with (the identical
host value) `v` returns the very same handle: the node-level operation takes
the `return self` short circuit, so `PersistentMap.assoc` returns `self`.
Likewise `dissoc(k)` on a map whose lookup misses `k` returns `self`. -/
theorem C6_identity_short_circuit [DecidableEq kt] [DecidableEq vt] (hashf : kt → Int)
    (m : PersistentMap kt vt) (key : kt) (val : vt) :
    (m.lookup hashf key = some val → m.assoc hashf key val = m ∧
      (∀ r, m.root = some r →
        r.assoc hashf 0 (hashValue hashf key) key val = .same)) ∧
    (m.lookup hashf key = none → m.dissoc hashf key = m) := by
  constructor
  · intro hfound
    have hex : ∃ r, m.root = some r := by
      cases hm : m.root with
      | none => rw [PersistentMap.lookup, hm] at hfound; cases hfound
      | some r => exact ⟨r, rfl⟩
    obtain ⟨r, hm⟩ := hex
    rw [PersistentMap.lookup, hm] at hfound
    have hsame := get_assoc_same hashf r 0 (hashValue hashf key) key val hfound
    refine ⟨?_, ?_⟩
    · rw [PersistentMap.assoc, hm]
      simp only [hsame]
    · intro r' hr'
      rw [hm] at hr'
      injection hr' with h
      subst h
      exact hsame
  · intro hmiss
    cases hm : m.root with
    | none => rw [PersistentMap.dissoc, hm]
    | some r =>
      rw [PersistentMap.lookup, hm] at hmiss
      have hmiss' : r.get 0 (hashValue hashf key) key = none := hmiss
      rw [PersistentMap.dissoc, hm]
      simp [hmiss']

/-- Witness for C6 at a concrete map: `{3: 7}` with the identity hash. -/
theorem C6_identity_short_circuit_witness :
    (((PersistentMap.empty Nat Nat).assoc natHash 3 7).lookup natHash 3 = some 7 ∧
      ((PersistentMap.empty Nat Nat).assoc natHash 3 7).assoc natHash 3 7 =
        (PersistentMap.empty Nat Nat).assoc natHash 3 7) ∧
    (((PersistentMap.empty Nat Nat).assoc natHash 3 7).lookup natHash 4 = none ∧
      ((PersistentMap.empty Nat Nat).assoc natHash 3 7).dissoc natHash 4 =
        (PersistentMap.empty Nat Nat).assoc natHash 3 7) := by
  have h1 : ((PersistentMap.empty Nat Nat).assoc natHash 3 7).lookup natHash 3 = some 7 := by
    simp [PersistentMap.assoc, PersistentMap.empty, Node.assoc, hashValue, natHash, popcount,
      AssocRes.result, PersistentMap.lookup, Node.get, slotsGet,
      (by decide : (3 &&& 31 : Nat) = 3), (by decide : (1 <<< 3 : Nat) = 8),
      (by decide : (8 &&& 8 : Nat) = 8), (by decide : (8 &&& 7 : Nat) = 0)]
  have h2 : ((PersistentMap.empty Nat Nat).assoc natHash 3 7).lookup natHash 4 = none := by
    simp [PersistentMap.assoc, PersistentMap.empty, Node.assoc, hashValue, natHash, popcount,
      AssocRes.result, PersistentMap.lookup, Node.get, slotsGet,
      (by decide : (3 &&& 31 : Nat) = 3), (by decide : (4 &&& 31 : Nat) = 4),
      (by decide : (1 <<< 3 : Nat) = 8), (by decide : (1 <<< 4 : Nat) = 16),
      (by decide : (8 &&& 8 : Nat) = 8), (by decide : (8 &&& 16 : Nat) = 0)]
  exact ⟨⟨h1, ((C6_identity_short_circuit natHash _ 3 7).1 h1).1⟩,
    ⟨h2, (C6_identity_short_circuit natHash _ 4 7).2 h2⟩⟩

/-- `x &&& 31` (the `HASH_MASK` operation) is reduction modulo 32. -/
theorem and31 (x : Nat) : x &&& 31 = x % 32 := by
  have h := Nat.and_pow_two_sub_one_eq_mod x 5
  norm_num at h
  exact h

/-- C10: the slot discriminator is unsound for the host key `None`.
Python stores the entry for key `None` as the cell pair `(None, value)`,
which `get` then classifies as a child slot and dispatches `.get` on the
plain stored value: `PersistentMap().assoc(None, 5).get(None)` raises
`AttributeError` instead of returning 5, contradicting the claim (and the
docstring of `get`).  Concretely: inserting `None` succeeds and produces the
misclassified cell, and the subsequent lookup crashes. -/
theorem C10_none_key_crash :
    DMap.assoc dExampleHash (DMap.empty Nat Nat) none 5 =
      some ⟨some (DNode.bitmapNode 1 [(none, DVal.val 5)]), 1⟩ ∧
    DMap.lookup dExampleHash ⟨some (DNode.bitmapNode 1 [(none, DVal.val 5)]), 1⟩ none =
      DRes.crash := by
  constructor
  · simp [DMap.assoc, DMap.empty, DNode.assoc, hashValue, dExampleHash, popcount]
  · simp [DMap.lookup, DNode.get, dSlotsGet, hashValue, dExampleHash, popcount]

/-- C4 counterexample: `dissoc` does not hoist.  Insert keys 0 and 32
(identity hash: both have fragment 0 at shift 0, diverging at shift 5), then
remove 32.  The subtree that collapsed to the single remaining entry
`(0, 100)` stays wrapped in its own `BitmapNode` under the parent's child
slot — exactly the single-child indirection the claim says cannot occur
after a `dissoc`. -/
theorem C4_counterexample :
    ((((PersistentMap.empty Nat Nat).assoc natHash 0 100).assoc natHash 32 200).dissoc
        natHash 32).root =
      some (Node.bitmapNode 1 [Slot.child (Node.bitmapNode 1 [Slot.entry 0 100])]) ∧
    Node.noSingleEntryChild
      (Node.bitmapNode 1 [Slot.child (Node.bitmapNode 1 [Slot.entry 0 100])]) = false := by
  constructor
  · simp [PersistentMap.assoc, PersistentMap.empty, PersistentMap.dissoc, Node.assoc,
      Node.dissoc, slotsAssoc, slotsDissoc, slotsGet, Node.get, createNode,
      hashValue, natHash, popcount, AssocRes.result,
      (by decide : (32 &&& 31 : Nat) = 0), (by decide : (32 >>> 5 : Nat) = 1),
      (by decide : (1 &&& 31 : Nat) = 1), (by decide : (1 <<< 1 : Nat) = 2),
      (by decide : (1 ||| 2 : Nat) = 3), (by decide : (3 &&& 2 : Nat) = 2),
      (by decide : (3 &&& 1 : Nat) = 1), (by decide : (3 ^^^ 2 : Nat) = 1),
      (by decide : (0 &&& 31 : Nat) = 0)]
  · simp [Node.noSingleEntryChild, slotsNoSingleEntryChild, Node.isSingleEntry]

/-- C4 amended: what `BitmapNode.dissoc`/`CollisionNode.dissoc` actually do.
A node whose last entry is removed returns `None` and the parent deletes the
slot, propagating bottom-up until the map root becomes `nil`; but a node
that collapses to a single remaining entry is left in place (no hoisting —
see the counterexample), and a `CollisionNode` reduced to one pair remains a
one-pair `CollisionNode` (only a collision node emptied completely is
removed).  Shown on the two-key colliding map: removing one key leaves the
full 13-level chain ending in a one-pair collision node; removing the other
empties the chain and restores the empty map. -/
theorem C4_dissoc_no_hoisting :
    ((((PersistentMap.empty Nat Nat).assoc natHash 0 100).assoc natHash 32 200).dissoc
        natHash 32).root =
      some (Node.bitmapNode 1 [Slot.child (Node.bitmapNode 1 [Slot.entry 0 100])]) ∧
    ((((PersistentMap.empty Nat Nat).assoc zeroHash 1 10).assoc zeroHash 2 20).dissoc
        zeroHash 2).root =
      some (nestChain 13 (Node.collisionNode 0 [(1, 10)])) ∧
    (((((PersistentMap.empty Nat Nat).assoc zeroHash 1 10).assoc zeroHash 2 20).dissoc
        zeroHash 2).dissoc zeroHash 1) = PersistentMap.empty Nat Nat := by
  refine ⟨?_, ?_, ?_⟩
  · simp [PersistentMap.assoc, PersistentMap.empty, PersistentMap.dissoc, Node.assoc,
      Node.dissoc, slotsAssoc, slotsDissoc, slotsGet, Node.get, createNode,
      hashValue, natHash, popcount, AssocRes.result,
      (by decide : (32 &&& 31 : Nat) = 0), (by decide : (32 >>> 5 : Nat) = 1),
      (by decide : (1 &&& 31 : Nat) = 1), (by decide : (1 <<< 1 : Nat) = 2),
      (by decide : (1 ||| 2 : Nat) = 3), (by decide : (3 &&& 2 : Nat) = 2),
      (by decide : (3 &&& 1 : Nat) = 1), (by decide : (3 ^^^ 2 : Nat) = 1),
      (by decide : (0 &&& 31 : Nat) = 0)]
  · simp [PersistentMap.assoc, PersistentMap.empty, PersistentMap.dissoc, Node.assoc,
      Node.dissoc, slotsAssoc, slotsDissoc, slotsGet, Node.get, createNode, collGet,
      collAssoc, collDissoc, nestChain, hashValue, zeroHash, popcount, AssocRes.result]
  · simp [PersistentMap.assoc, PersistentMap.empty, PersistentMap.dissoc, Node.assoc,
      Node.dissoc, slotsAssoc, slotsDissoc, slotsGet, Node.get, createNode, collGet,
      collAssoc, collDissoc, nestChain, hashValue, zeroHash, popcount, AssocRes.result]

/-- C5 counterexample: the code cuts over to a `CollisionNode` at
`shift >= 64`, not at `shift + 5 >= 32`.  Two keys whose hashes agree on
bits 0–64 produce a 13-level chain of single-child `BitmapNode`s (depth 14,
not at most 7; in particular the node at shift 35 where the claim requires a
`CollisionNode` is still a `BitmapNode`), and because the keys' full hashes
differ (`0` versus `2 ^ 65`), the resulting `CollisionNode` holds keys with
two different hash values. -/
theorem C5_counterexample :
    (((PersistentMap.empty Nat Nat).assoc splitHash 1 10).assoc splitHash 2 20).root =
      some (nestChain 13 (Node.collisionNode 0 [(1, 10), (2, 20)])) ∧
    Node.depth (nestChain 13 (Node.collisionNode 0 [(1, 10), (2, 20)])) = 14 ∧
    hashValue splitHash 1 ≠ hashValue splitHash 2 := by
  refine ⟨?_, ?_, ?_⟩
  · simp [PersistentMap.assoc, PersistentMap.empty, Node.assoc, slotsAssoc, slotsGet,
      Node.get, createNode, nestChain, hashValue, splitHash, popcount, AssocRes.result,
      and31, Nat.shiftRight_eq_div_pow]
  · simp [nestChain, Node.depth, slotsDepth]
  · simp [hashValue, splitHash]

/-!
## Popcount and bitmap index arithmetic

The packed-array index of the slot for hash fragment `f` is
`popcount(bitmap & ((1 << f) - 1))`, i.e. `popcount (bm % 2 ^ f)`.  These
lemmas relate that index to bit insertion (`bm ||| 2 ^ f`) and bit clearing
(`bm ^^^ 2 ^ f`, which is what `bitmap & ~bit_pos` computes on a set bit).
-/

theorem popcount_zero : popcount 0 = 0 := by simp [popcount]

theorem popcount_rec (n : Nat) : popcount n = n % 2 + popcount (n / 2) := by
  by_cases h : n = 0
  · subst h; simp [popcount]
  · rw [popcount, if_neg h]

theorem popcount_split (f x : Nat) :
    popcount x = popcount (x % 2 ^ f) + popcount (x / 2 ^ f) := by
  induction f generalizing x with
  | zero => simp [popcount_zero, Nat.mod_one]
  | succ g ih =>
    have hx : x % 2 ^ (g + 1) = x % 2 + 2 * (x / 2 % 2 ^ g) := by
      conv_lhs => rw [Nat.pow_succ, Nat.mul_comm (2 ^ g) 2, Nat.mod_mul]
    have hdiv : x / 2 ^ (g + 1) = x / 2 / 2 ^ g := by
      rw [Nat.pow_succ, Nat.mul_comm (2 ^ g) 2, Nat.mul_comm 2 (2 ^ g)]
      rw [Nat.div_div_eq_div_mul, Nat.mul_comm (2 ^ g) 2]
    have hmod : popcount (x % 2 + 2 * (x / 2 % 2 ^ g)) =
        x % 2 + popcount (x / 2 % 2 ^ g) := by
      rw [popcount_rec (x % 2 + 2 * (x / 2 % 2 ^ g))]
      have h2 : (x % 2 + 2 * (x / 2 % 2 ^ g)) % 2 = x % 2 := by omega
      have h3 : (x % 2 + 2 * (x / 2 % 2 ^ g)) / 2 = x / 2 % 2 ^ g := by omega
      rw [h2, h3]
    rw [hx, hdiv, hmod, popcount_rec x, ih (x / 2)]
    omega

theorem popcount_one : popcount 1 = 1 := by simp [popcount]

theorem popcount_two_pow (f : Nat) : popcount (2 ^ f) = 1 := by
  induction f with
  | zero => simp [popcount]
  | succ g ih =>
    rw [popcount_rec]
    have h1 : 2 ^ (g + 1) % 2 = 0 := by
      simp [Nat.pow_succ]
    have h2 : 2 ^ (g + 1) / 2 = 2 ^ g := by
      rw [Nat.pow_succ]
      exact Nat.mul_div_cancel _ (by omega)
    rw [h1, h2, ih]

theorem mask_eq_mod (bm f : Nat) : bm &&& (1 <<< f - 1) = bm % 2 ^ f := by
  rw [Nat.one_shiftLeft, Nat.and_pow_two_sub_one_eq_mod]

theorem testBit_iff_and_ne (bm f : Nat) : bm &&& 1 <<< f ≠ 0 ↔ bm.testBit f := by
  rw [Nat.one_shiftLeft]
  have h : bm &&& 2 ^ f = if bm.testBit f then 2 ^ f else 0 := by
    apply Nat.eq_of_testBit_eq
    intro i
    by_cases hif : i = f
    · subst hif
      simp [Nat.testBit_and, Nat.testBit_two_pow_self]
      by_cases hb : bm.testBit i <;> simp [hb]
    · have h2 : (2 ^ f).testBit i = false := Nat.testBit_two_pow_of_ne (fun hh => hif hh.symm)
      by_cases hb : bm.testBit f <;> simp [hb, Nat.testBit_and, h2]
  rw [h]
  by_cases hb : bm.testBit f
  · simp [hb, (Nat.two_pow_pos f).ne']
  · simp [hb]

theorem popcount_mod_le (bm f : Nat) : popcount (bm % 2 ^ f) ≤ popcount bm := by
  rw [popcount_split f bm]
  omega

theorem popcount_div_pos {bm f : Nat} (h : bm.testBit f) : 0 < popcount (bm / 2 ^ f) := by
  rw [Nat.testBit_to_div_mod] at h
  rw [popcount_rec]
  simp at h
  omega

theorem popcount_mod_lt {bm f : Nat} (h : bm.testBit f) :
    popcount (bm % 2 ^ f) < popcount bm := by
  have := popcount_div_pos h
  rw [popcount_split f bm]
  omega

theorem popcount_pos {bm : Nat} (h : bm ≠ 0) : 0 < popcount bm := by
  induction bm using Nat.strong_induction_on with
  | _ n ih =>
    rw [popcount_rec]
    rcases Nat.lt_or_ge n 2 with h2 | h2
    · interval_cases n
      · omega
      · simp [popcount_zero]
    · have hd : n / 2 ≠ 0 := by omega
      have := ih (n / 2) (by omega) hd
      omega

theorem popcount_mod_mono {f g : Nat} (bm : Nat) (h : f ≤ g) :
    popcount (bm % 2 ^ f) ≤ popcount (bm % 2 ^ g) := by
  have hmm : bm % 2 ^ g % 2 ^ f = bm % 2 ^ f :=
    Nat.mod_mod_of_dvd bm (Nat.pow_dvd_pow 2 h)
  calc popcount (bm % 2 ^ f) = popcount (bm % 2 ^ g % 2 ^ f) := by rw [hmm]
    _ ≤ popcount (bm % 2 ^ g) := popcount_mod_le _ _

theorem popcount_mod_strict {bm f g : Nat} (hf : f < g) (h : bm.testBit f) :
    popcount (bm % 2 ^ f) < popcount (bm % 2 ^ g) := by
  have hmm : bm % 2 ^ g % 2 ^ f = bm % 2 ^ f :=
    Nat.mod_mod_of_dvd bm (Nat.pow_dvd_pow 2 (by omega))
  have ht : (bm % 2 ^ g).testBit f = true := by
    rw [Nat.testBit_mod_two_pow]
    simp [hf, h]
  calc popcount (bm % 2 ^ f) = popcount (bm % 2 ^ g % 2 ^ f) := by rw [hmm]
    _ < popcount (bm % 2 ^ g) := popcount_mod_lt ht

theorem or_div_pow (a b k : Nat) : (a ||| b) / 2 ^ k = a / 2 ^ k ||| b / 2 ^ k := by
  induction k generalizing a b with
  | zero => simp
  | succ g ih =>
    have hsplit : ∀ x : Nat, x / 2 ^ (g + 1) = x / 2 / 2 ^ g := by
      intro x
      rw [Nat.pow_succ, Nat.mul_comm, ← Nat.div_div_eq_div_mul]
    rw [hsplit, hsplit a, hsplit b, Nat.or_div_two, ih]

theorem xor_div_pow (a b k : Nat) : (a ^^^ b) / 2 ^ k = a / 2 ^ k ^^^ b / 2 ^ k := by
  induction k generalizing a b with
  | zero => simp
  | succ g ih =>
    have hsplit : ∀ x : Nat, x / 2 ^ (g + 1) = x / 2 / 2 ^ g := by
      intro x
      rw [Nat.pow_succ, Nat.mul_comm, ← Nat.div_div_eq_div_mul]
    rw [hsplit, hsplit a, hsplit b, Nat.xor_div_two, ih]

theorem or_mod_two_pow (a b k : Nat) : (a ||| b) % 2 ^ k = a % 2 ^ k ||| b % 2 ^ k := by
  rw [← Nat.and_pow_two_sub_one_eq_mod, ← Nat.and_pow_two_sub_one_eq_mod,
    ← Nat.and_pow_two_sub_one_eq_mod, Nat.and_distrib_right]

theorem xor_mod_two_pow (a b k : Nat) : (a ^^^ b) % 2 ^ k = a % 2 ^ k ^^^ b % 2 ^ k := by
  rw [← Nat.and_pow_two_sub_one_eq_mod, ← Nat.and_pow_two_sub_one_eq_mod,
    ← Nat.and_pow_two_sub_one_eq_mod, Nat.and_xor_distrib_right]

theorem popcount_or_one {y : Nat} (h : y % 2 = 0) : popcount (y ||| 1) = popcount y + 1 := by
  have hmod : (y ||| 1) % 2 = 1 := by
    rw [Nat.or_mod_two_eq_one]
    right; rfl
  have hdiv : (y ||| 1) / 2 = y / 2 := by
    rw [Nat.or_div_two]
    norm_num
  rw [popcount_rec (y ||| 1), hmod, hdiv, popcount_rec y, h]
  omega

theorem popcount_xor_one {y : Nat} (h : y % 2 = 1) : popcount (y ^^^ 1) = popcount y - 1 := by
  have hmod : (y ^^^ 1) % 2 = 0 := by
    have := Nat.xor_mod_two_eq_one (a := y) (b := 1)
    omega
  have hdiv : (y ^^^ 1) / 2 = y / 2 := by
    rw [Nat.xor_div_two]
    norm_num
  rw [popcount_rec (y ^^^ 1), hmod, hdiv, popcount_rec y, h]
  omega

theorem popcount_or_two_pow {bm f : Nat} (h : bm.testBit f = false) :
    popcount (bm ||| 2 ^ f) = popcount bm + 1 := by
  have hmod : (bm ||| 2 ^ f) % 2 ^ f = bm % 2 ^ f := by
    rw [or_mod_two_pow, Nat.mod_self, Nat.or_zero]
  have hdiv : (bm ||| 2 ^ f) / 2 ^ f = bm / 2 ^ f ||| 1 := by
    rw [or_div_pow, Nat.div_self (Nat.two_pow_pos f)]
  have heven : bm / 2 ^ f % 2 = 0 := by
    rw [Nat.testBit_to_div_mod] at h
    simpa using h
  rw [popcount_split f (bm ||| 2 ^ f), hmod, hdiv, popcount_or_one heven,
    popcount_split f bm]
  omega

theorem popcount_xor_two_pow {bm f : Nat} (h : bm.testBit f = true) :
    popcount (bm ^^^ 2 ^ f) = popcount bm - 1 := by
  have hmod : (bm ^^^ 2 ^ f) % 2 ^ f = bm % 2 ^ f := by
    rw [xor_mod_two_pow, Nat.mod_self, Nat.xor_zero]
  have hdiv : (bm ^^^ 2 ^ f) / 2 ^ f = bm / 2 ^ f ^^^ 1 := by
    rw [xor_div_pow, Nat.div_self (Nat.two_pow_pos f)]
  have hodd : bm / 2 ^ f % 2 = 1 := by
    rw [Nat.testBit_to_div_mod] at h
    simpa using h
  have hppos : 0 < popcount (bm / 2 ^ f) := by
    rw [popcount_rec]
    omega
  rw [popcount_split f (bm ^^^ 2 ^ f), hmod, hdiv, popcount_xor_one hodd,
    popcount_split f bm]
  omega

theorem two_pow_mod_two_pow {f g : Nat} : 2 ^ f % 2 ^ g = if f < g then 2 ^ f else 0 := by
  by_cases h : f < g
  · rw [if_pos h]
    exact Nat.mod_eq_of_lt (Nat.pow_lt_pow_right (by omega) h)
  · rw [if_neg h]
    exact Nat.mod_eq_zero_of_dvd (Nat.pow_dvd_pow 2 (by omega))

theorem popcount_or_mod {bm f : Nat} (g : Nat) (h : bm.testBit f = false) :
    popcount ((bm ||| 2 ^ f) % 2 ^ g) =
      popcount (bm % 2 ^ g) + (if f < g then 1 else 0) := by
  by_cases hfg : f < g
  · rw [if_pos hfg, or_mod_two_pow, two_pow_mod_two_pow, if_pos hfg]
    have hb : (bm % 2 ^ g).testBit f = false := by
      rw [Nat.testBit_mod_two_pow]
      simp [hfg, h]
    exact popcount_or_two_pow hb
  · rw [if_neg hfg, or_mod_two_pow, two_pow_mod_two_pow, if_neg hfg, Nat.or_zero]
    omega

theorem popcount_xor_mod {bm f : Nat} (g : Nat) (h : bm.testBit f = true) :
    popcount ((bm ^^^ 2 ^ f) % 2 ^ g) =
      popcount (bm % 2 ^ g) - (if f < g then 1 else 0) := by
  by_cases hfg : f < g
  · rw [if_pos hfg, xor_mod_two_pow, two_pow_mod_two_pow, if_pos hfg]
    have hb : (bm % 2 ^ g).testBit f = true := by
      rw [Nat.testBit_mod_two_pow]
      simp [hfg, h]
    exact popcount_xor_two_pow hb
  · rw [if_neg hfg, xor_mod_two_pow, two_pow_mod_two_pow, if_neg hfg, Nat.xor_zero]
    omega

theorem testBit_or_two_pow (bm f i : Nat) :
    (bm ||| 2 ^ f).testBit i = (bm.testBit i || decide (i = f)) := by
  rw [Nat.testBit_or]
  by_cases hif : i = f
  · subst hif; simp [Nat.testBit_two_pow_self]
  · simp [Nat.testBit_two_pow_of_ne (fun hh => hif hh.symm), hif]

theorem testBit_xor_two_pow (bm f i : Nat) :
    (bm ^^^ 2 ^ f).testBit i = if i = f then !bm.testBit f else bm.testBit i := by
  rw [Nat.testBit_xor]
  by_cases hif : i = f
  · subst hif; simp [Nat.testBit_two_pow_self]
  · simp [Nat.testBit_two_pow_of_ne (fun hh => hif hh.symm), hif]

/-- The inverse of the packed-index map: every position `i` below
`popcount x` is the index of a unique set bit `f`. -/
theorem exists_bit_of_lt_popcount {w x i : Nat} (hx : x < 2 ^ w) (hi : i < popcount x) :
    ∃ f, f < w ∧ x.testBit f = true ∧ popcount (x % 2 ^ f) = i := by
  induction w generalizing x i with
  | zero =>
    interval_cases x
    simp [popcount_zero] at hi
  | succ g ih =>
    have hsplit := popcount_split g x
    have hpow : 2 ^ (g + 1) = 2 * 2 ^ g := by rw [Nat.pow_succ]; ring
    have hdiv : x / 2 ^ g < 2 := Nat.div_lt_of_lt_mul (by omega)
    have hpd : popcount (x / 2 ^ g) = x / 2 ^ g := by
      generalize hgen : x / 2 ^ g = y at hdiv
      interval_cases y
      · rw [popcount_zero]
      · rw [popcount_one]
    by_cases hcase : i < popcount (x % 2 ^ g)
    · obtain ⟨f, hfw, hfb, hfp⟩ := ih (x := x % 2 ^ g) (Nat.mod_lt _ (Nat.two_pow_pos g)) hcase
      refine ⟨f, by omega, ?_, ?_⟩
      · rw [Nat.testBit_mod_two_pow] at hfb
        simp at hfb
        exact hfb.2
      · rw [← hfp, Nat.mod_mod_of_dvd x (Nat.pow_dvd_pow 2 (by omega))]
    · refine ⟨g, by omega, ?_, by omega⟩
      rw [Nat.testBit_to_div_mod]
      have hone : x / 2 ^ g = 1 := by omega
      simp [hone]

/-!
## The slot walks compute the Python packed-index accesses
-/

/-- `slotsGet` is the dispatch on `array[idx]`. -/
theorem slotsGet_eq [DecidableEq kt] (arr : List (Slot kt vt)) (idx shift keyHash : Nat)
    (key : kt) :
    slotsGet arr idx shift keyHash key =
      match arr[idx]? with
      | none => none
      | some (.child c) => c.get (shift + 5) keyHash key
      | some (.entry k v) => if k = key then some v else none := by
  induction arr generalizing idx with
  | nil => rw [slotsGet]; simp
  | cons s rest ih =>
    match idx, s with
    | 0, .child c => rw [slotsGet]; simp
    | 0, .entry k v => rw [slotsGet]; simp
    | idx + 1, s => rw [slotsGet, ih]; simp

/-- `slotsAssoc` is the `new_array[...] = ...` surgery on `array[idx]`. -/
theorem slotsAssoc_eq [DecidableEq kt] [DecidableEq vt] (hashf : kt → Int)
    (arr : List (Slot kt vt)) (idx shift keyHash : Nat) (key : kt) (val : vt) :
    slotsAssoc hashf arr idx shift keyHash key val =
      match arr[idx]? with
      | none => none
      | some (.child c) =>
        (match c.assoc hashf (shift + 5) keyHash key val with
         | .same => none
         | .node c' => some (arr.set idx (.child c')))
      | some (.entry k v') =>
        if k = key then
          if v' = val then none else some (arr.set idx (.entry k val))
        else
          some (arr.set idx (.child (createNode hashf (shift + 5) k v' keyHash key val))) := by
  induction arr generalizing idx with
  | nil => rw [slotsAssoc]; simp
  | cons s rest ih =>
    match idx, s with
    | 0, .child c =>
      rw [slotsAssoc]
      cases h : c.assoc hashf (shift + 5) keyHash key val <;> simp [h]
    | 0, .entry k v =>
      rw [slotsAssoc]
      by_cases hk : k = key <;> by_cases hv : v = val <;> simp [hk, hv]
    | idx + 1, s =>
      rw [slotsAssoc, ih]
      simp only [List.getElem?_cons_succ, List.set_cons_succ]
      cases h : rest[idx]? with
      | none => rfl
      | some s' =>
        cases s' with
        | child c => cases h2 : c.assoc hashf (shift + 5) keyHash key val <;> simp [h2]
        | entry k v => by_cases hk : k = key <;> by_cases hv : v = val <;> simp [hk, hv]

/-- `slotsDissoc` is the slot removal / child replacement on `array[idx]`. -/
theorem slotsDissoc_eq [DecidableEq kt] (arr : List (Slot kt vt))
    (idx shift keyHash : Nat) (key : kt) :
    slotsDissoc arr idx shift keyHash key =
      match arr[idx]? with
      | none => .same
      | some (.child c) =>
        (match c.dissoc (shift + 5) keyHash key with
         | .same => .same
         | .empty => .removed (arr.take idx ++ arr.drop (idx + 1))
         | .node c' => .replaced (arr.set idx (.child c')))
      | some (.entry k _) =>
        if k = key then .removed (arr.take idx ++ arr.drop (idx + 1)) else .same := by
  induction arr generalizing idx with
  | nil => rw [slotsDissoc]; simp
  | cons s rest ih =>
    match idx, s with
    | 0, .child c =>
      rw [slotsDissoc]
      cases h : c.dissoc (shift + 5) keyHash key <;> simp [h]
    | 0, .entry k v =>
      rw [slotsDissoc]
      by_cases hk : k = key <;> simp [hk]
    | idx + 1, s =>
      rw [slotsDissoc, ih]
      simp only [List.getElem?_cons_succ, List.set_cons_succ, List.take_succ_cons,
        List.drop_succ_cons, List.cons_append]
      cases h : rest[idx]? with
      | none => rfl
      | some s' =>
        cases s' with
        | child c => cases h2 : c.dissoc (shift + 5) keyHash key <;> simp [h2]
        | entry k v => by_cases hk : k = key <;> simp [hk]

/-!
## List surgery: indices of the packed array after insertion and removal
-/

theorem length_insert_slot (arr : List (Slot kt vt)) (idx : Nat) (s : Slot kt vt)
    (h : idx ≤ arr.length) :
    (arr.take idx ++ [s] ++ arr.drop idx).length = arr.length + 1 := by
  simp
  omega

theorem getElem_insert_self (arr : List (Slot kt vt)) (idx : Nat) (s : Slot kt vt)
    (h : idx ≤ arr.length) :
    (arr.take idx ++ [s] ++ arr.drop idx)[idx]? = some s := by
  rw [List.append_assoc,
    List.getElem?_append_right (by simp [Nat.min_eq_left h])]
  simp [Nat.min_eq_left h]

theorem getElem_insert_lt (arr : List (Slot kt vt)) (idx j : Nat) (s : Slot kt vt)
    (hidx : idx ≤ arr.length) (hj : j < idx) :
    (arr.take idx ++ [s] ++ arr.drop idx)[j]? = arr[j]? := by
  rw [List.append_assoc, List.getElem?_append_left (by simp [Nat.min_eq_left hidx]; omega)]
  exact List.getElem?_take_of_lt hj

theorem getElem_insert_ge (arr : List (Slot kt vt)) (idx j : Nat) (s : Slot kt vt)
    (hidx : idx ≤ arr.length) (hj : idx ≤ j) :
    (arr.take idx ++ [s] ++ arr.drop idx)[j + 1]? = arr[j]? := by
  rw [List.getElem?_append_right (by simp [Nat.min_eq_left hidx]; omega)]
  have hlen : (arr.take idx ++ [s]).length = idx + 1 := by simp [Nat.min_eq_left hidx]
  rw [hlen, List.getElem?_drop]
  congr 1
  omega

theorem length_remove_slot (arr : List (Slot kt vt)) (idx : Nat) (h : idx < arr.length) :
    (arr.take idx ++ arr.drop (idx + 1)).length = arr.length - 1 := by
  simp
  omega

theorem getElem_remove_lt (arr : List (Slot kt vt)) (idx j : Nat)
    (hidx : idx ≤ arr.length) (hj : j < idx) :
    (arr.take idx ++ arr.drop (idx + 1))[j]? = arr[j]? := by
  rw [List.getElem?_append_left (by simp [Nat.min_eq_left hidx]; omega)]
  exact List.getElem?_take_of_lt hj

theorem getElem_remove_ge (arr : List (Slot kt vt)) (idx j : Nat)
    (hidx : idx < arr.length) (hj : idx ≤ j) :
    (arr.take idx ++ arr.drop (idx + 1))[j]? = arr[j + 1]? := by
  rw [List.getElem?_append_right (by simp; omega)]
  rw [List.length_take, Nat.min_eq_left (by omega), List.getElem?_drop]
  congr 1
  omega

/-!
## Hash fragment arithmetic
-/

theorem frag_lt (h s : Nat) : (h >>> s) &&& 31 < 32 := by
  have := @Nat.and_le_right (h >>> s) 31
  omega

theorem frag_eq_div_mod (h s : Nat) : (h >>> s) &&& 31 = h / 2 ^ s % 32 := by
  rw [Nat.shiftRight_eq_div_pow, and31]

theorem mod_pow_add5 (h s : Nat) :
    h % 2 ^ (s + 5) = h % 2 ^ s + ((h >>> s) &&& 31) * 2 ^ s := by
  rw [frag_eq_div_mod, Nat.pow_add]
  rw [Nat.mod_mul]
  ring_nf

theorem decomp_frag {h s p f : Nat} (hp : p < 2 ^ s) (hf : f < 32)
    (heq : h % 2 ^ (s + 5) = p + f * 2 ^ s) :
    h % 2 ^ s = p ∧ (h >>> s) &&& 31 = f := by
  have h5 := mod_pow_add5 h s
  have hm : h % 2 ^ s < 2 ^ s := Nat.mod_lt _ (Nat.two_pow_pos s)
  have hkey : h % 2 ^ s + ((h >>> s) &&& 31) * 2 ^ s = p + f * 2 ^ s := by omega
  have hdm : (h % 2 ^ s + ((h >>> s) &&& 31) * 2 ^ s) % 2 ^ s = h % 2 ^ s := by
    rw [Nat.add_mul_mod_self_right]
    exact Nat.mod_eq_of_lt hm
  have hpm : (p + f * 2 ^ s) % 2 ^ s = p := by
    rw [Nat.add_mul_mod_self_right]
    exact Nat.mod_eq_of_lt hp
  have h1 : h % 2 ^ s = p := by rw [← hdm, hkey, hpm]
  refine ⟨h1, ?_⟩
  have := Nat.two_pow_pos s
  nlinarith [hkey, h1]

/-!
## Iteration decomposition
-/

theorem slotsToList_append (l1 l2 : List (Slot kt vt)) :
    slotsToList (l1 ++ l2) = slotsToList l1 ++ slotsToList l2 := by
  induction l1 with
  | nil => simp [slotsToList]
  | cons s rest ih =>
    cases s with
    | entry k v => rw [List.cons_append, slotsToList, slotsToList, ih]; rfl
    | child c => rw [List.cons_append, slotsToList, slotsToList, ih, List.append_assoc]

/-- Splitting iteration at slot `idx`. -/
theorem slotsToList_split (arr : List (Slot kt vt)) (idx : Nat) (s : Slot kt vt)
    (h : arr[idx]? = some s) :
    slotsToList arr =
      slotsToList (arr.take idx) ++ slotsToList [s] ++ slotsToList (arr.drop (idx + 1)) := by
  have hlt : idx < arr.length := by
    by_contra hge
    rw [List.getElem?_eq_none (by omega)] at h
    cases h
  have harr : arr = arr.take idx ++ [s] ++ arr.drop (idx + 1) := by
    conv_lhs => rw [← List.take_append_drop idx arr]
    rw [List.drop_eq_getElem_cons hlt]
    have : arr[idx] = s := by
      have := List.getElem?_eq_getElem hlt
      rw [this] at h
      injection h
    rw [this]
    simp
  conv_lhs => rw [harr]
  rw [slotsToList_append, slotsToList_append]

theorem set_decomp (arr : List (Slot kt vt)) (idx : Nat) (s s' : Slot kt vt)
    (h : arr[idx]? = some s) :
    arr.set idx s' = arr.take idx ++ [s'] ++ arr.drop (idx + 1) := by
  have hlt : idx < arr.length := by
    by_contra hge
    rw [List.getElem?_eq_none (by omega)] at h
    cases h
  rw [List.set_eq_take_cons_drop _ hlt]
  simp

/-!
## Well-formedness, lookup and size of the subtree built by `_create_node`
-/

theorem pref_lt {p f s : Nat} (hp : p < 2 ^ s) (hf : f < 32) :
    p + f * 2 ^ s < 2 ^ (s + 5) := by
  have h32 : (32 : Nat) = 2 ^ 5 := by norm_num
  have : 2 ^ (s + 5) = 2 ^ s * 2 ^ 5 := by rw [Nat.pow_add]
  nlinarith

theorem testBit_ne_zero {bm f : Nat} (h : bm.testBit f = true) : bm ≠ 0 := by
  intro h0
  subst h0
  simp at h

/-- Two distinct powers of two share no bits. -/
theorem two_pow_and_two_pow_ne {a b : Nat} (h : a ≠ b) : 2 ^ a &&& 2 ^ b = 0 := by
  apply Nat.eq_of_testBit_eq
  intro i
  rw [Nat.testBit_and, Nat.testBit_two_pow, Nat.testBit_two_pow, Nat.zero_testBit]
  by_cases ha : a = i <;> by_cases hb : b = i
  · exact absurd (ha.trans hb.symm) h
  all_goals simp [ha, hb]

/-- All properties of `_create_node` needed by `assoc`: the built subtree is
well formed, holds exactly the two pairs, and `get` retrieves them. -/
theorem createNode_props [DecidableEq kt] [DecidableEq vt] (hashf : kt → Int)
    (shift p : Nat) (k1 : kt) (v1 : vt) (k2 : kt) (v2 : vt)
    (hs65 : shift ≤ 65) (hs5 : shift % 5 = 0) (hp : p < 2 ^ shift)
    (h1 : hashValue hashf k1 % 2 ^ shift = p) (h2 : hashValue hashf k2 % 2 ^ shift = p)
    (hne : k1 ≠ k2) :
    NodeWF hashf (createNode hashf shift k1 v1 (hashValue hashf k2) k2 v2) shift p ∧
    (createNode hashf shift k1 v1 (hashValue hashf k2) k2 v2).toList.length = 2 ∧
    (∀ k' : kt, hashValue hashf k' % 2 ^ shift = p →
      (createNode hashf shift k1 v1 (hashValue hashf k2) k2 v2).get shift
          (hashValue hashf k') k' =
        if k' = k1 then some v1 else if k' = k2 then some v2 else none) := by
  rw [createNode]
  by_cases hc : 64 ≤ shift
  · rw [if_pos hc]
    have hs : shift = 65 := by omega
    subst hs
    refine ⟨NodeWF.collision rfl hp ?_ ?_ ?_, by simp [Node.toList], ?_⟩
    · intro q hq
      simp at hq
      rcases hq with h | h
      · subst h; exact h1
      · subst h; exact h2
    · simp [hne]
    · simp
    · intro k' hk'
      rw [Node.get]
      simp only [collGet]
      by_cases e1 : k1 = k'
      · simp [e1]
      · have e1' : ¬ k' = k1 := fun hh => e1 hh.symm
        by_cases e2 : k2 = k'
        · simp [e1, e1', e2]
        · have e2' : ¬ k' = k2 := fun hh => e2 hh.symm
          simp [e1, e1', e2, e2']
  · rw [if_neg hc]
    have hs60 : shift ≤ 60 := by omega
    set i1 := (hashValue hashf k1 >>> shift) &&& 31 with hi1
    set i2 := (hashValue hashf k2 >>> shift) &&& 31 with hi2
    have hi1lt : i1 < 32 := frag_lt _ _
    have hi2lt : i2 < 32 := frag_lt _ _
    have hmod1 : hashValue hashf k1 % 2 ^ (shift + 5) = p + i1 * 2 ^ shift := by
      rw [mod_pow_add5, h1]
    have hmod2 : hashValue hashf k2 % 2 ^ (shift + 5) = p + i2 * 2 ^ shift := by
      rw [mod_pow_add5, h2]
    have hfrag1 : ∀ k' : kt, k' = k1 → (hashValue hashf k' >>> shift) &&& 31 = i1 := by
      intro k' hk; rw [hk]
    have hfrag2 : ∀ k' : kt, k' = k2 → (hashValue hashf k' >>> shift) &&& 31 = i2 := by
      intro k' hk; rw [hk]
    by_cases heq : i1 = i2
    · rw [if_pos heq]
      obtain ⟨hwf, hlen, hget⟩ := createNode_props hashf (shift + 5) (p + i1 * 2 ^ shift)
        k1 v1 k2 v2 (by omega) (by omega) (pref_lt hp hi1lt) hmod1 (by rw [hmod2, heq]) hne
      refine ⟨?_, ?_, ?_⟩
      · rw [Nat.one_shiftLeft]
        refine NodeWF.bitmap hs60 hs5 hp (Nat.pow_lt_pow_right (by omega) hi1lt)
          (Nat.two_pow_pos i1).ne' (by simp [popcount_two_pow]) ?_
        intro f hf32 hfb
        rw [Nat.testBit_two_pow] at hfb
        have hif : i1 = f := of_decide_eq_true hfb
        subst hif
        simp only [Nat.mod_self, popcount_zero, List.getElem?_cons_zero]
        exact OptSlotWF.some (SlotWF.child hwf)
      · simp [Node.toList, slotsToList, hlen]
      · intro k' hk'
        rw [Node.get]
        simp only [Nat.one_shiftLeft, Nat.and_pow_two_sub_one_eq_mod]
        by_cases hf : (hashValue hashf k' >>> shift) &&& 31 = i1
        · rw [hf]
          rw [if_neg (by simp [Nat.and_self, (Nat.two_pow_pos i1).ne'])]
          simp only [Nat.mod_self, popcount_zero]
          rw [slotsGet]
          rw [hget k' (by rw [mod_pow_add5, hk', hf])]
        · rw [if_pos (two_pow_and_two_pow_ne (fun hh => hf hh.symm))]
          have hn1 : ¬ k' = k1 := fun hh => hf (hfrag1 k' hh)
          have hn2 : ¬ k' = k2 := fun hh => hf ((hfrag2 k' hh).trans heq.symm)
          simp [hn1, hn2]
    · rw [if_neg heq]
      have hand : 2 ^ i1 &&& 2 ^ i2 = 0 := two_pow_and_two_pow_ne heq
      have hb1 : (2 ^ i1).testBit i1 = true := Nat.testBit_two_pow_self
      have hb12 : (2 ^ i1).testBit i2 = false := Nat.testBit_two_pow_of_ne heq
      have hb21 : (2 ^ i2).testBit i1 = false :=
        Nat.testBit_two_pow_of_ne (fun hh => heq hh.symm)
      have hkey : ∀ f : Nat, (2 ^ i1 ||| 2 ^ i2).testBit f = true → f = i1 ∨ f = i2 := by
        intro f hf
        rw [Nat.testBit_or, Nat.testBit_two_pow, Nat.testBit_two_pow] at hf
        rcases Bool.or_eq_true_iff.mp hf with h | h
        · exact Or.inl (of_decide_eq_true h).symm
        · exact Or.inr (of_decide_eq_true h).symm
      have hpc : popcount (2 ^ i1 ||| 2 ^ i2) = 2 := by
        rw [popcount_or_two_pow hb12, popcount_two_pow]
      have hbmlt : 2 ^ i1 ||| 2 ^ i2 < 2 ^ 32 :=
        Nat.or_lt_two_pow (Nat.pow_lt_pow_right (by omega) hi1lt)
          (Nat.pow_lt_pow_right (by omega) hi2lt)
      have hbmne : (2 ^ i1 ||| 2 ^ i2 : Nat) ≠ 0 := by
        intro h0
        have := congrArg (Nat.testBit · i1) h0
        simp [Nat.testBit_or, hb1] at this
      have hmodi1 : (2 ^ i1 ||| 2 ^ i2) % 2 ^ i1 = if i2 < i1 then 2 ^ i2 else 0 := by
        rw [or_mod_two_pow, Nat.mod_self, Nat.zero_or, two_pow_mod_two_pow]
      have hmodi2 : (2 ^ i1 ||| 2 ^ i2) % 2 ^ i2 = if i1 < i2 then 2 ^ i1 else 0 := by
        rw [or_mod_two_pow, Nat.mod_self, Nat.or_zero, two_pow_mod_two_pow]
      have hgoal : ∀ e1 e2 : Slot kt vt,
          (e1 = .entry k1 v1 ∧ e2 = .entry k2 v2 ∧ i1 < i2) ∨
          (e1 = .entry k2 v2 ∧ e2 = .entry k1 v1 ∧ i2 < i1) →
          NodeWF hashf (.bitmapNode ((1 <<< i1) ||| (1 <<< i2)) [e1, e2]) shift p ∧
          (Node.bitmapNode ((1 <<< i1) ||| (1 <<< i2)) [e1, e2] : Node kt vt).toList.length
            = 2 ∧
          (∀ k' : kt, hashValue hashf k' % 2 ^ shift = p →
            (Node.bitmapNode ((1 <<< i1) ||| (1 <<< i2)) [e1, e2] : Node kt vt).get shift
                (hashValue hashf k') k' =
              if k' = k1 then some v1 else if k' = k2 then some v2 else none) := by
        intro e1 e2 hcase
        have hswf : SlotWF hashf (Slot.entry k1 v1 : Slot kt vt) (shift + 5)
            (p + i1 * 2 ^ shift) := SlotWF.entry hmod1
        have hswf2 : SlotWF hashf (Slot.entry k2 v2 : Slot kt vt) (shift + 5)
            (p + i2 * 2 ^ shift) := SlotWF.entry hmod2
        refine ⟨?_, by simp [Node.toList, slotsToList]; rcases hcase with ⟨ha, hb, _⟩ | ⟨ha, hb, _⟩ <;> subst ha <;> subst hb <;> simp [slotsToList], ?_⟩
        · rw [Nat.one_shiftLeft, Nat.one_shiftLeft]
          refine NodeWF.bitmap hs60 hs5 hp hbmlt hbmne (by simp [hpc]) ?_
          intro f hf32 hfb
          rcases hkey f hfb with hfi | hfi <;> subst hfi
          · rw [hmodi1]
            rcases hcase with ⟨ha, hb, hlt⟩ | ⟨ha, hb, hlt⟩
            · subst ha; subst hb
              rw [if_neg (by omega), popcount_zero]
              exact OptSlotWF.some hswf
            · subst ha; subst hb
              rw [if_pos hlt, popcount_two_pow]
              exact OptSlotWF.some hswf
          · rw [hmodi2]
            rcases hcase with ⟨ha, hb, hlt⟩ | ⟨ha, hb, hlt⟩
            · subst ha; subst hb
              rw [if_pos hlt, popcount_two_pow]
              exact OptSlotWF.some hswf2
            · subst ha; subst hb
              rw [if_neg (by omega), popcount_zero]
              exact OptSlotWF.some hswf2
        · intro k' hk'
          rw [Node.get]
          simp only [Nat.one_shiftLeft, Nat.and_pow_two_sub_one_eq_mod]
          by_cases hf1 : (hashValue hashf k' >>> shift) &&& 31 = i1
          · rw [hf1]
            rw [if_neg (by
              rw [Nat.and_distrib_right, Nat.and_self,
                two_pow_and_two_pow_ne (fun hh => heq hh.symm)]
              simp [(Nat.two_pow_pos i1).ne'])]
            rw [hmodi1]
            have hn2 : ¬ k' = k2 := fun hh => heq (((hfrag2 k' hh).symm.trans hf1).symm)
            rcases hcase with ⟨ha, hb, hlt⟩ | ⟨ha, hb, hlt⟩
            · subst ha; subst hb
              rw [if_neg (by omega), popcount_zero, slotsGet]
              by_cases e1 : k1 = k'
              · simp [e1]
              · have e1' : ¬ k' = k1 := fun hh => e1 hh.symm
                simp [e1, e1', hn2]
            · subst ha; subst hb
              rw [if_pos hlt, popcount_two_pow, slotsGet, slotsGet]
              by_cases e1 : k1 = k'
              · simp [e1]
              · have e1' : ¬ k' = k1 := fun hh => e1 hh.symm
                simp [e1, e1', hn2]
          · by_cases hf2 : (hashValue hashf k' >>> shift) &&& 31 = i2
            · rw [hf2]
              rw [if_neg (by
                rw [Nat.and_distrib_right, Nat.and_self, two_pow_and_two_pow_ne heq]
                simp [(Nat.two_pow_pos i2).ne'])]
              rw [hmodi2]
              have hn1 : ¬ k' = k1 := fun hh => hf1 (hfrag1 k' hh)
              rcases hcase with ⟨ha, hb, hlt⟩ | ⟨ha, hb, hlt⟩
              · subst ha; subst hb
                rw [if_pos hlt, popcount_two_pow, slotsGet, slotsGet]
                by_cases e2 : k2 = k'
                · simp [e2, hn1]
                · have e2' : ¬ k' = k2 := fun hh => e2 hh.symm
                  simp [e2, e2', hn1]
              · subst ha; subst hb
                rw [if_neg (by omega), popcount_zero, slotsGet]
                by_cases e2 : k2 = k'
                · simp [e2, hn1]
                · have e2' : ¬ k' = k2 := fun hh => e2 hh.symm
                  simp [e2, e2', hn1]
            · rw [if_pos (by
                rw [Nat.and_distrib_right, two_pow_and_two_pow_ne (fun hh => hf1 hh.symm),
                  two_pow_and_two_pow_ne (fun hh => hf2 hh.symm)]
                simp)]
              have hn1 : ¬ k' = k1 := fun hh => hf1 (hfrag1 k' hh)
              have hn2 : ¬ k' = k2 := fun hh => hf2 (hfrag2 k' hh)
              simp [hn1, hn2]
      rcases Nat.lt_or_ge i1 i2 with hlt | hge
      · rw [if_pos hlt]
        exact hgoal _ _ (Or.inl ⟨rfl, rfl, hlt⟩)
      · have hlt : i2 < i1 := by omega
        rw [if_neg (by omega)]
        exact hgoal _ _ (Or.inr ⟨rfl, rfl, hlt⟩)
termination_by 69 - shift

/-!
## Clean unfoldings of the node operations on a `BitmapNode`
-/

theorem testBit_iff_and_pow_ne (bm f : Nat) : bm &&& 2 ^ f ≠ 0 ↔ bm.testBit f := by
  rw [← Nat.one_shiftLeft]
  exact testBit_iff_and_ne bm f

theorem get_bitmap_eq [DecidableEq kt] (bm : Nat) (arr : List (Slot kt vt))
    (shift keyHash : Nat) (key : kt) :
    Node.get (.bitmapNode bm arr) shift keyHash key =
      if bm.testBit ((keyHash >>> shift) &&& 31) then
        slotsGet arr (popcount (bm % 2 ^ ((keyHash >>> shift) &&& 31))) shift keyHash key
      else none := by
  rw [Node.get]
  simp only [Nat.one_shiftLeft, Nat.and_pow_two_sub_one_eq_mod]
  by_cases hb : bm.testBit ((keyHash >>> shift) &&& 31)
  · rw [if_neg ((testBit_iff_and_pow_ne bm _).mpr hb), if_pos hb]
  · rw [if_pos (by
      by_contra hne
      exact hb ((testBit_iff_and_pow_ne bm _).mp hne)), if_neg hb]

theorem assoc_bitmap_eq [DecidableEq kt] [DecidableEq vt] (hashf : kt → Int)
    (bm : Nat) (arr : List (Slot kt vt)) (shift keyHash : Nat) (key : kt) (val : vt) :
    Node.assoc hashf (.bitmapNode bm arr) shift keyHash key val =
      if bm.testBit ((keyHash >>> shift) &&& 31) then
        (match slotsAssoc hashf arr (popcount (bm % 2 ^ ((keyHash >>> shift) &&& 31)))
            shift keyHash key val with
         | none => .same
         | some arr' => .node (.bitmapNode bm arr'))
      else
        .node (.bitmapNode (bm ||| 2 ^ ((keyHash >>> shift) &&& 31))
          (arr.take (popcount (bm % 2 ^ ((keyHash >>> shift) &&& 31))) ++ [.entry key val] ++
            arr.drop (popcount (bm % 2 ^ ((keyHash >>> shift) &&& 31))))) := by
  rw [Node.assoc]
  simp only [Nat.one_shiftLeft, Nat.and_pow_two_sub_one_eq_mod]
  by_cases hb : bm.testBit ((keyHash >>> shift) &&& 31)
  · rw [if_pos ((testBit_iff_and_pow_ne bm _).mpr hb), if_pos hb]
  · rw [if_neg (by
      intro hne
      exact hb ((testBit_iff_and_pow_ne bm _).mp hne)), if_neg hb]

theorem dissoc_bitmap_eq [DecidableEq kt] (bm : Nat) (arr : List (Slot kt vt))
    (shift keyHash : Nat) (key : kt) :
    Node.dissoc (.bitmapNode bm arr) shift keyHash key =
      if bm.testBit ((keyHash >>> shift) &&& 31) then
        (match slotsDissoc arr (popcount (bm % 2 ^ ((keyHash >>> shift) &&& 31)))
            shift keyHash key with
         | .same => .same
         | .removed arr' =>
           if popcount bm = 1 then .empty
           else .node (.bitmapNode (bm ^^^ 2 ^ ((keyHash >>> shift) &&& 31)) arr')
         | .replaced arr' => .node (.bitmapNode bm arr'))
      else .same := by
  rw [Node.dissoc]
  simp only [Nat.one_shiftLeft, Nat.and_pow_two_sub_one_eq_mod]
  by_cases hb : bm.testBit ((keyHash >>> shift) &&& 31)
  · rw [if_neg ((testBit_iff_and_pow_ne bm _).mpr hb), if_pos hb]
  · rw [if_pos (by
      by_contra hne
      exact hb ((testBit_iff_and_pow_ne bm _).mp hne)), if_neg hb]

/-!
## Rebuilding well-formedness after slot surgery
-/

theorem wf_set_slot [DecidableEq kt] [DecidableEq vt] {hashf : kt → Int}
    {bm : Nat} {arr : List (Slot kt vt)} {shift p : Nat} {f : Nat} {s' : Slot kt vt}
    (hwf : NodeWF hashf (.bitmapNode bm arr) shift p)
    (hf32 : f < 32) (hfb : bm.testBit f = true)
    (hs' : SlotWF hashf s' (shift + 5) (p + f * 2 ^ shift)) :
    NodeWF hashf (.bitmapNode bm (arr.set (popcount (bm % 2 ^ f)) s')) shift p := by
  cases hwf with
  | bitmap hs60 hs5 hp hbm32 hbm0 hlen hslots =>
    refine NodeWF.bitmap hs60 hs5 hp hbm32 hbm0 (by simp [hlen]) ?_
    intro g hg32 hgb
    by_cases hgf : g = f
    · subst hgf
      have hidx : popcount (bm % 2 ^ g) < arr.length := by
        rw [hlen]
        exact popcount_mod_lt hfb
      rw [List.getElem?_set_self hidx]
      exact OptSlotWF.some hs'
    · have hne : popcount (bm % 2 ^ f) ≠ popcount (bm % 2 ^ g) := by
        rcases Nat.lt_or_ge f g with hlt | hge
        · exact (popcount_mod_strict hlt hfb).ne
        · have hlt : g < f := by omega
          exact (popcount_mod_strict hlt hgb).ne'
      rw [List.getElem?_set_ne hne]
      exact hslots g hg32 hgb

theorem wf_insert_slot [DecidableEq kt] [DecidableEq vt] {hashf : kt → Int}
    {bm : Nat} {arr : List (Slot kt vt)} {shift p : Nat} {f : Nat} {s' : Slot kt vt}
    (hwf : NodeWF hashf (.bitmapNode bm arr) shift p)
    (hf32 : f < 32) (hfb : bm.testBit f = false)
    (hs' : SlotWF hashf s' (shift + 5) (p + f * 2 ^ shift)) :
    NodeWF hashf (.bitmapNode (bm ||| 2 ^ f)
      (arr.take (popcount (bm % 2 ^ f)) ++ [s'] ++ arr.drop (popcount (bm % 2 ^ f))))
      shift p := by
  cases hwf with
  | bitmap hs60 hs5 hp hbm32 hbm0 hlen hslots =>
    have hidxle : popcount (bm % 2 ^ f) ≤ arr.length := by
      rw [hlen]
      exact popcount_mod_le bm f
    have hbm'32 : bm ||| 2 ^ f < 2 ^ 32 :=
      Nat.or_lt_two_pow hbm32 (Nat.pow_lt_pow_right (by omega) hf32)
    have hbm'0 : (bm ||| 2 ^ f) ≠ 0 := by
      intro h0
      have := congrArg (Nat.testBit · f) h0
      simp [Nat.testBit_or] at this
    refine NodeWF.bitmap hs60 hs5 hp hbm'32 hbm'0 ?_ ?_
    · rw [length_insert_slot arr _ s' hidxle, hlen, popcount_or_two_pow hfb]
    · intro g hg32 hgb
      rw [testBit_or_two_pow] at hgb
      by_cases hgf : g = f
      · subst hgf
        rw [popcount_or_mod g hfb, if_neg (by omega), Nat.add_zero,
          getElem_insert_self arr _ s' hidxle]
        exact OptSlotWF.some hs'
      · have hgb' : bm.testBit g = true := by
          rcases Bool.or_eq_true_iff.mp hgb with h | h
          · exact h
          · exact absurd (of_decide_eq_true h) hgf
        rw [popcount_or_mod g hfb]
        rcases Nat.lt_or_ge f g with hlt | hge
        · rw [if_pos hlt]
          have hidxlt : popcount (bm % 2 ^ f) ≤ popcount (bm % 2 ^ g) :=
            popcount_mod_mono bm (by omega)
          rw [getElem_insert_ge arr _ _ s' hidxle hidxlt]
          exact hslots g hg32 hgb'
        · have hlt : g < f := by omega
          rw [if_neg (by omega), Nat.add_zero]
          have hidxlt : popcount (bm % 2 ^ g) < popcount (bm % 2 ^ f) :=
            popcount_mod_strict hlt hgb'
          rw [getElem_insert_lt arr _ _ s' hidxle hidxlt]
          exact hslots g hg32 hgb'

theorem wf_remove_slot [DecidableEq kt] [DecidableEq vt] {hashf : kt → Int}
    {bm : Nat} {arr : List (Slot kt vt)} {shift p : Nat} {f : Nat}
    (hwf : NodeWF hashf (.bitmapNode bm arr) shift p)
    (hf32 : f < 32) (hfb : bm.testBit f = true) (hpc : popcount bm ≠ 1) :
    NodeWF hashf (.bitmapNode (bm ^^^ 2 ^ f)
      (arr.take (popcount (bm % 2 ^ f)) ++ arr.drop (popcount (bm % 2 ^ f) + 1)))
      shift p := by
  cases hwf with
  | bitmap hs60 hs5 hp hbm32 hbm0 hlen hslots =>
    have hidxlt : popcount (bm % 2 ^ f) < arr.length := by
      rw [hlen]
      exact popcount_mod_lt hfb
    have hpc1 : 1 ≤ popcount bm := popcount_pos hbm0
    have hpcx : popcount (bm ^^^ 2 ^ f) = popcount bm - 1 := popcount_xor_two_pow hfb
    have hbm'32 : bm ^^^ 2 ^ f < 2 ^ 32 :=
      Nat.xor_lt_two_pow hbm32 (Nat.pow_lt_pow_right (by omega) hf32)
    have hbm'0 : (bm ^^^ 2 ^ f) ≠ 0 := by
      intro h0
      have : popcount (bm ^^^ 2 ^ f) = 0 := by rw [h0, popcount_zero]
      omega
    refine NodeWF.bitmap hs60 hs5 hp hbm'32 hbm'0 ?_ ?_
    · rw [length_remove_slot arr _ hidxlt, hlen, hpcx]
    · intro g hg32 hgb
      rw [testBit_xor_two_pow] at hgb
      by_cases hgf : g = f
      · rw [if_pos hgf, hfb] at hgb
        simp at hgb
      · rw [if_neg hgf] at hgb
        rw [popcount_xor_mod g hfb]
        rcases Nat.lt_or_ge f g with hlt | hge
        · rw [if_pos hlt]
          have hstrict : popcount (bm % 2 ^ f) < popcount (bm % 2 ^ g) :=
            popcount_mod_strict hlt hfb
          have hrw := getElem_remove_ge arr (popcount (bm % 2 ^ f))
            (popcount (bm % 2 ^ g) - 1) hidxlt (by omega)
          rw [(by omega : popcount (bm % 2 ^ g) - 1 + 1 = popcount (bm % 2 ^ g))] at hrw
          rw [hrw]
          exact hslots g hg32 hgb
        · have hlt : g < f := by omega
          rw [if_neg (by omega), Nat.sub_zero]
          have hstrict : popcount (bm % 2 ^ g) < popcount (bm % 2 ^ f) :=
            popcount_mod_strict hlt hgb
          rw [getElem_remove_lt arr _ _ (by omega) hstrict]
          exact hslots g hg32 hgb

/-!
## Size bookkeeping for slot surgery
-/

theorem toList_set_sum (arr : List (Slot kt vt)) (idx : Nat) (s s' : Slot kt vt)
    (h : arr[idx]? = some s) :
    (slotsToList (arr.set idx s')).length + (slotsToList [s]).length =
      (slotsToList arr).length + (slotsToList [s']).length := by
  rw [set_decomp arr idx s s' h, slotsToList_split arr idx s h,
    slotsToList_append, slotsToList_append]
  simp [Nat.add_comm, Nat.add_assoc, Nat.add_left_comm]

theorem toList_insert_len (arr : List (Slot kt vt)) (idx : Nat) (s' : Slot kt vt) :
    (slotsToList (arr.take idx ++ [s'] ++ arr.drop idx)).length =
      (slotsToList arr).length + (slotsToList [s']).length := by
  conv_rhs => rw [← List.take_append_drop idx arr]
  rw [slotsToList_append, slotsToList_append, slotsToList_append]
  simp [Nat.add_comm, Nat.add_assoc, Nat.add_left_comm]

theorem toList_remove_sum (arr : List (Slot kt vt)) (idx : Nat) (s : Slot kt vt)
    (h : arr[idx]? = some s) :
    (slotsToList (arr.take idx ++ arr.drop (idx + 1))).length + (slotsToList [s]).length =
      (slotsToList arr).length := by
  rw [slotsToList_split arr idx s h, slotsToList_append]
  simp [Nat.add_comm, Nat.add_assoc, Nat.add_left_comm]

/-!
## Collision-node scans
-/

theorem collGet_none_iff [DecidableEq kt] (arr : List (kt × vt)) (key : kt) :
    collGet arr key = none ↔ key ∉ arr.map Prod.fst := by
  induction arr with
  | nil => simp [collGet]
  | cons q rest ih =>
    match q with
    | (k, v) =>
      rw [collGet]
      by_cases hk : k = key
      · simp [hk]
      · have hk2 : ¬ key = k := fun hh => hk hh.symm
        simp [hk, ih, hk2]

theorem collAssoc_props [DecidableEq kt] [DecidableEq vt] (arr : List (kt × vt))
    (key : kt) (val : vt) :
    ∀ arr', collAssoc arr key val = some arr' →
      (arr'.map Prod.fst = if (collGet arr key).isSome then arr.map Prod.fst
        else arr.map Prod.fst ++ [key]) ∧
      arr'.length = arr.length + (if (collGet arr key).isSome then 0 else 1) ∧
      (∀ k', collGet arr' k' = if k' = key then some val else collGet arr k') := by
  induction arr with
  | nil =>
    intro arr' h
    rw [collAssoc] at h
    injection h with h
    subst h
    refine ⟨by simp [collGet], by simp [collGet], ?_⟩
    intro k'
    rw [collGet]
    by_cases hk : k' = key
    · simp [collGet, hk]
    · have hk2 : ¬ key = k' := fun hh => hk hh.symm
      simp [collGet, hk, hk2]
  | cons q rest ih =>
    intro arr' h
    match q with
    | (k, v) =>
      rw [collAssoc] at h
      by_cases hk : k = key
      · rw [if_pos hk] at h
        by_cases hv : v = val
        · rw [if_pos hv] at h
          cases h
        · rw [if_neg hv] at h
          injection h with h
          subst h
          rw [collGet, if_pos hk]
          refine ⟨by simp, by simp, ?_⟩
          intro k'
          rw [collGet, collGet]
          by_cases hk' : k = k'
          · have : k' = key := hk'.symm.trans hk
            simp [hk', this]
          · have : ¬ k' = key := fun hh => hk' (hk.trans hh.symm)
            simp [hk', this]
      · rw [if_neg hk] at h
        cases hca : collAssoc rest key val with
        | none => rw [hca] at h; cases h
        | some rest' =>
          rw [hca] at h
          injection h with h
          subst h
          obtain ⟨hkeys, hlen, hget⟩ := ih rest' hca
          rw [collGet, if_neg hk]
          refine ⟨?_, by simp [hlen]; omega, ?_⟩
          · by_cases hfound : (collGet rest key).isSome
            · rw [if_pos hfound] at hkeys ⊢
              simp [hkeys]
            · rw [if_neg hfound] at hkeys ⊢
              simp [hkeys]
          · intro k'
            rw [collGet, collGet]
            by_cases hk' : k = k'
            · have : ¬ k' = key := fun hh => hk (hk'.trans hh)
              simp [hk', this]
            · simp [hk', hget k']

/-- Everything `PersistentMap.assoc` needs from the node-level `assoc`: when
a fresh node comes back it is well formed, its pair count grew by one
exactly when the key was absent, and its `get` is the point update of the
old `get`. -/
theorem assoc_props [DecidableEq kt] [DecidableEq vt] (hashf : kt → Int)
    (n : Node kt vt) (shift p : Nat) (key : kt) (val : vt)
    (hwf : NodeWF hashf n shift p) (hk : hashValue hashf key % 2 ^ shift = p) :
    ∀ n', n.assoc hashf shift (hashValue hashf key) key val = .node n' →
      NodeWF hashf n' shift p ∧
      n'.toList.length = n.toList.length +
        (if (n.get shift (hashValue hashf key) key).isSome then 0 else 1) ∧
      (∀ k', hashValue hashf k' % 2 ^ shift = p →
        n'.get shift (hashValue hashf k') k' =
          if k' = key then some val else n.get shift (hashValue hashf k') k') := by
  cases n with
  | collisionNode ch arr =>
    intro n' hres
    rw [Node.assoc] at hres
    cases hca : collAssoc arr key val with
    | none => rw [hca] at hres; cases hres
    | some arr' =>
      rw [hca] at hres
      simp only [] at hres
      injection hres with hres
      subst hres
      obtain ⟨hkeys, hlen, hget⟩ := collAssoc_props arr key val arr' hca
      cases hwf with
      | collision hs65 hpre hkeyhash hnodup hne =>
        have hgetn : Node.get (.collisionNode ch arr) shift (hashValue hashf key) key =
            collGet arr key := by rw [Node.get]
        refine ⟨?_, ?_, ?_⟩
        · refine NodeWF.collision hs65 hpre ?_ ?_ ?_
          · intro q hq
            have hq1 : q.1 ∈ arr'.map Prod.fst := List.mem_map_of_mem _ hq
            rw [hkeys] at hq1
            by_cases hfound : (collGet arr key).isSome
            · rw [if_pos hfound] at hq1
              obtain ⟨q0, hq0, hq0eq⟩ := List.mem_map.mp hq1
              rw [← hq0eq]
              exact hkeyhash q0 hq0
            · rw [if_neg hfound] at hq1
              rcases List.mem_append.mp hq1 with hmem | hmem
              · obtain ⟨q0, hq0, hq0eq⟩ := List.mem_map.mp hmem
                rw [← hq0eq]
                exact hkeyhash q0 hq0
              · have : q.1 = key := by simpa using hmem
                rw [this, ← hs65]
                exact hk
          · rw [hkeys]
            by_cases hfound : (collGet arr key).isSome
            · rw [if_pos hfound]
              exact hnodup
            · rw [if_neg hfound]
              have hkey_not : key ∉ arr.map Prod.fst :=
                (collGet_none_iff arr key).mp (by
                  cases hcg : collGet arr key
                  · rfl
                  · rw [hcg] at hfound; simp at hfound)
              simp [List.nodup_append, hnodup, hkey_not]
          · intro h0
            subst h0
            simp only [List.length_nil] at hlen
            by_cases hfound : (collGet arr key).isSome
            · rw [if_pos hfound] at hlen
              exact hne (List.length_eq_zero.mp (by omega))
            · rw [if_neg hfound] at hlen
              omega
        · simp only [Node.toList, hgetn]
          exact hlen
        · intro k' hk'
          have hg1 : Node.get (.collisionNode ch arr') shift (hashValue hashf k') k' =
              collGet arr' k' := by rw [Node.get]
          have hg2 : Node.get (.collisionNode ch arr) shift (hashValue hashf k') k' =
              collGet arr k' := by rw [Node.get]
          rw [hg1, hg2, hget k']
  | bitmapNode bm arr =>
    intro n' hres
    rw [assoc_bitmap_eq] at hres
    have hfraglt : (hashValue hashf key >>> shift) &&& 31 < 32 := frag_lt _ _
    have hkey5 : hashValue hashf key % 2 ^ (shift + 5) =
        p + ((hashValue hashf key >>> shift) &&& 31) * 2 ^ shift := by
      rw [mod_pow_add5, hk]
    by_cases hb : bm.testBit ((hashValue hashf key >>> shift) &&& 31)
    · rw [if_pos hb] at hres
      cases hwf with
      | bitmap hs60 hs5 hp hbm32 hbm0 hlen hslots =>
        have hwfn : NodeWF hashf (.bitmapNode bm arr) shift p :=
          NodeWF.bitmap hs60 hs5 hp hbm32 hbm0 hlen hslots
        have hopt := hslots _ hfraglt hb
        have hidxlt : popcount (bm % 2 ^ ((hashValue hashf key >>> shift) &&& 31)) <
            arr.length := by
          rw [hlen]
          exact popcount_mod_lt hb
        rw [slotsAssoc_eq] at hres
        cases harr : arr[popcount (bm % 2 ^ ((hashValue hashf key >>> shift) &&& 31))]? with
        | none => rw [harr] at hopt; cases hopt
        | some s =>
          rw [harr] at hopt hres
          cases hopt with
          | some hswf =>
            have hgetn : Node.get (.bitmapNode bm arr) shift (hashValue hashf key) key =
                slotsGet arr (popcount (bm % 2 ^ ((hashValue hashf key >>> shift) &&& 31)))
                  shift (hashValue hashf key) key := by
              rw [get_bitmap_eq, if_pos hb]
            have hsg := slotsGet_eq arr
              (popcount (bm % 2 ^ ((hashValue hashf key >>> shift) &&& 31)))
              shift (hashValue hashf key) key
            rw [harr] at hsg
            cases hswf with
            | child hcwf =>
              rename_i c
              try simp only [] at hres
              have hsz : sizeOf c < sizeOf (Node.bitmapNode bm arr) := by
                have hmem := List.sizeOf_lt_of_mem (List.getElem?_mem harr)
                simp at hmem ⊢
                omega
              cases hca : c.assoc hashf (shift + 5) (hashValue hashf key) key val with
              | same => rw [hca] at hres; simp at hres
              | node c' =>
                rw [hca] at hres
                simp only [] at hres
                injection hres with hres
                subst hres
                obtain ⟨hcwf', hclen, hcget⟩ := assoc_props hashf c (shift + 5)
                  (p + ((hashValue hashf key >>> shift) &&& 31) * 2 ^ shift) key val
                  hcwf hkey5 c' hca
                have hgetc : Node.get (.bitmapNode bm arr) shift (hashValue hashf key) key =
                    c.get (shift + 5) (hashValue hashf key) key := by
                  rw [hgetn, hsg]
                refine ⟨wf_set_slot hwfn hfraglt hb (SlotWF.child hcwf'), ?_, ?_⟩
                · have hsum := toList_set_sum arr _ _ (Slot.child c') harr
                  simp only [Node.toList, slotsToList] at hsum ⊢
                  rw [hgetc]
                  simp [slotsToList] at hsum
                  omega
                · intro k' hk'
                  by_cases hf' : (hashValue hashf k' >>> shift) &&& 31 =
                      (hashValue hashf key >>> shift) &&& 31
                  · have hkey5' : hashValue hashf k' % 2 ^ (shift + 5) =
                        p + ((hashValue hashf key >>> shift) &&& 31) * 2 ^ shift := by
                      rw [mod_pow_add5, hk', hf']
                    rw [get_bitmap_eq, get_bitmap_eq, hf', if_pos hb, if_pos hb,
                      slotsGet_eq, slotsGet_eq, harr,
                      List.getElem?_set_self hidxlt]
                    simp only []
                    exact hcget k' hkey5'
                  · have hnk : ¬ k' = key := by
                      intro hkk
                      rw [hkk] at hf'
                      exact hf' rfl
                    rw [get_bitmap_eq, get_bitmap_eq, if_neg hnk]
                    by_cases hb' : bm.testBit ((hashValue hashf k' >>> shift) &&& 31)
                    · rw [if_pos hb', if_pos hb', slotsGet_eq, slotsGet_eq,
                        List.getElem?_set_ne ?hne]
                      case hne =>
                        rcases Nat.lt_or_ge ((hashValue hashf key >>> shift) &&& 31)
                            ((hashValue hashf k' >>> shift) &&& 31) with hlt | hge
                        · exact (popcount_mod_strict hlt hb).ne
                        · have hlt2 : (hashValue hashf k' >>> shift) &&& 31 <
                              (hashValue hashf key >>> shift) &&& 31 := by omega
                          exact (popcount_mod_strict hlt2 hb').ne'
                    · rw [if_neg hb', if_neg hb']
            | entry hk0 =>
              rename_i k0 v0
              try simp only [] at hres
              by_cases hk0key : k0 = key
              · rw [if_pos hk0key] at hres
                by_cases hv : v0 = val
                · rw [if_pos hv] at hres
                  cases hres
                · rw [if_neg hv] at hres
                  injection hres with hres
                  subst hres
                  subst hk0key
                  have hgetold : Node.get (.bitmapNode bm arr) shift
                      (hashValue hashf k0) k0 = some v0 := by
                    rw [hgetn, hsg]
                    simp
                  refine ⟨wf_set_slot hwfn hfraglt hb (SlotWF.entry hk0), ?_, ?_⟩
                  · have hsum := toList_set_sum arr _ _ (Slot.entry k0 val) harr
                    simp only [Node.toList] at hsum ⊢
                    rw [hgetold]
                    simp [slotsToList] at hsum
                    simp
                    omega
                  · intro k' hk'
                    by_cases hf' : (hashValue hashf k' >>> shift) &&& 31 =
                        (hashValue hashf k0 >>> shift) &&& 31
                    · rw [get_bitmap_eq, get_bitmap_eq, hf', if_pos hb, if_pos hb,
                        slotsGet_eq, slotsGet_eq, harr, List.getElem?_set_self hidxlt]
                      by_cases hk'key : k' = k0
                      · subst hk'key
                        simp
                      · have e1 : ¬ k0 = k' := fun hh => hk'key hh.symm
                        simp [e1, hk'key]
                    · have hnk : ¬ k' = k0 := by
                        intro hkk
                        rw [hkk] at hf'
                        exact hf' rfl
                      rw [get_bitmap_eq, get_bitmap_eq, if_neg hnk]
                      by_cases hb' : bm.testBit ((hashValue hashf k' >>> shift) &&& 31)
                      · rw [if_pos hb', if_pos hb', slotsGet_eq, slotsGet_eq,
                          List.getElem?_set_ne ?hne2]
                        case hne2 =>
                          rcases Nat.lt_or_ge ((hashValue hashf k0 >>> shift) &&& 31)
                              ((hashValue hashf k' >>> shift) &&& 31) with hlt | hge
                          · exact (popcount_mod_strict hlt hb).ne
                          · have hlt2 : (hashValue hashf k' >>> shift) &&& 31 <
                                (hashValue hashf k0 >>> shift) &&& 31 := by omega
                            exact (popcount_mod_strict hlt2 hb').ne'
                      · rw [if_neg hb', if_neg hb']
              · rw [if_neg hk0key] at hres
                injection hres with hres
                subst hres
                obtain ⟨hcwf, hclen2, hcget⟩ := createNode_props hashf (shift + 5)
                  (p + ((hashValue hashf key >>> shift) &&& 31) * 2 ^ shift)
                  k0 v0 key val (by omega) (by omega) (pref_lt hp hfraglt) hk0 hkey5 hk0key
                have hgetold : Node.get (.bitmapNode bm arr) shift
                    (hashValue hashf key) key = none := by
                  rw [hgetn, hsg]
                  exact if_neg hk0key
                refine ⟨wf_set_slot hwfn hfraglt hb (SlotWF.child hcwf), ?_, ?_⟩
                · have hsum := toList_set_sum arr _ _
                    (Slot.child (createNode hashf (shift + 5) k0 v0
                      (hashValue hashf key) key val)) harr
                  simp only [Node.toList] at hsum ⊢
                  rw [hgetold]
                  simp [slotsToList] at hsum
                  simp
                  omega
                · intro k' hk'
                  by_cases hf' : (hashValue hashf k' >>> shift) &&& 31 =
                      (hashValue hashf key >>> shift) &&& 31
                  · have hkey5' : hashValue hashf k' % 2 ^ (shift + 5) =
                        p + ((hashValue hashf key >>> shift) &&& 31) * 2 ^ shift := by
                      rw [mod_pow_add5, hk', hf']
                    rw [get_bitmap_eq, get_bitmap_eq, hf', if_pos hb, if_pos hb,
                      slotsGet_eq, slotsGet_eq, harr, List.getElem?_set_self hidxlt]
                    simp only []
                    rw [hcget k' hkey5']
                    by_cases hk'k0 : k' = k0
                    · subst hk'k0
                      simp [hk0key]
                    · by_cases hk'key : k' = key
                      · subst hk'key
                        have e3 : ¬ k' = k0 := hk'k0
                        simp [e3]
                      · have e2 : ¬ k0 = k' := fun hh => hk'k0 hh.symm
                        simp [hk'k0, hk'key, e2]
                  · have hnk : ¬ k' = key := by
                      intro hkk
                      rw [hkk] at hf'
                      exact hf' rfl
                    rw [get_bitmap_eq, get_bitmap_eq, if_neg hnk]
                    by_cases hb' : bm.testBit ((hashValue hashf k' >>> shift) &&& 31)
                    · rw [if_pos hb', if_pos hb', slotsGet_eq, slotsGet_eq,
                        List.getElem?_set_ne ?hne3]
                      case hne3 =>
                        rcases Nat.lt_or_ge ((hashValue hashf key >>> shift) &&& 31)
                            ((hashValue hashf k' >>> shift) &&& 31) with hlt | hge
                        · exact (popcount_mod_strict hlt hb).ne
                        · have hlt2 : (hashValue hashf k' >>> shift) &&& 31 <
                              (hashValue hashf key >>> shift) &&& 31 := by omega
                          exact (popcount_mod_strict hlt2 hb').ne'
                    · rw [if_neg hb', if_neg hb']
    · rw [if_neg hb] at hres
      injection hres with hres
      subst hres
      cases hwf with
      | bitmap hs60 hs5 hp hbm32 hbm0 hlen hslots =>
        have hwfn : NodeWF hashf (.bitmapNode bm arr) shift p :=
          NodeWF.bitmap hs60 hs5 hp hbm32 hbm0 hlen hslots
        have hgetold : Node.get (.bitmapNode bm arr) shift (hashValue hashf key) key =
            none := by
          rw [get_bitmap_eq, if_neg hb]
        refine ⟨?_, ?_, ?_⟩
        · have hsw : SlotWF hashf (Slot.entry key val) (shift + 5)
              (p + ((hashValue hashf key >>> shift) &&& 31) * 2 ^ shift) :=
            SlotWF.entry hkey5
          have := wf_insert_slot hwfn hfraglt
            (Bool.not_eq_true _ ▸ (by simpa using hb)) hsw
          exact this
        · rw [hgetold]
          simp only [Node.toList]
          rw [toList_insert_len]
          simp [slotsToList]
        · intro k' hk'
          by_cases hf' : (hashValue hashf k' >>> shift) &&& 31 =
              (hashValue hashf key >>> shift) &&& 31
          · rw [get_bitmap_eq, get_bitmap_eq, hf']
            rw [if_pos (by rw [testBit_or_two_pow]; simp), if_neg hb]
            rw [popcount_or_mod _ (by simpa using hb), if_neg (by omega), Nat.add_zero,
              slotsGet_eq, getElem_insert_self arr _ _ (by rw [hlen]; exact popcount_mod_le bm _)]
            simp only []
            by_cases hk'key : k' = key
            · rw [if_pos hk'key, if_pos hk'key.symm]
            · rw [if_neg hk'key, if_neg (fun hh => hk'key hh.symm)]
          · have hnk : ¬ k' = key := by
              intro hkk
              rw [hkk] at hf'
              exact hf' rfl
            rw [get_bitmap_eq, get_bitmap_eq, if_neg hnk]
            rw [testBit_or_two_pow]
            by_cases hb' : bm.testBit ((hashValue hashf k' >>> shift) &&& 31)
            · rw [if_pos (by simp [hb']), if_pos hb']
              rw [popcount_or_mod _ (by simpa using hb)]
              rcases Nat.lt_or_ge ((hashValue hashf key >>> shift) &&& 31)
                  ((hashValue hashf k' >>> shift) &&& 31) with hlt | hge
              · rw [if_pos hlt, slotsGet_eq, slotsGet_eq,
                  getElem_insert_ge arr _ _ _ (by rw [hlen]; exact popcount_mod_le bm _)
                    (popcount_mod_mono bm (by omega))]
              · rw [if_neg (by omega), Nat.add_zero, slotsGet_eq, slotsGet_eq,
                  getElem_insert_lt arr _ _ _ (by rw [hlen]; exact popcount_mod_le bm _)
                    (popcount_mod_strict (by omega) hb')]
            · rw [if_neg (by simp [hb', hf']), if_neg hb']
termination_by sizeOf n
decreasing_by simp_wf
              subst_vars
              assumption

/-- Under distinct keys, the collision scan finds exactly the stored pairs. -/
theorem collGet_mem_iff [DecidableEq kt] (arr : List (kt × vt)) (key : kt) (v : vt)
    (hnodup : (arr.map Prod.fst).Nodup) :
    collGet arr key = some v ↔ (key, v) ∈ arr := by
  induction arr with
  | nil => simp [collGet]
  | cons q rest ih =>
    match q with
    | (k, w) =>
      rw [collGet]
      simp only [List.map_cons, List.nodup_cons] at hnodup
      by_cases hk : k = key
      · subst hk
        simp only [if_pos rfl]
        constructor
        · intro h
          injection h with h
          subst h
          exact List.mem_cons_self _ _
        · intro h
          rcases List.mem_cons.mp h with h | h
          · injection h with h1 h2
            subst h2
            rfl
          · exact absurd (List.mem_map_of_mem Prod.fst h) hnodup.1
      · rw [if_neg hk]
        rw [ih hnodup.2]
        constructor
        · exact fun h => List.mem_cons_of_mem _ h
        · intro h
          rcases List.mem_cons.mp h with h | h
          · injection h with h1 h2
            exact absurd h1.symm hk
          · exact h

/-- Everything `dissoc` needs from the collision-node removal scan. -/
theorem collDissoc_props [DecidableEq kt] (arr : List (kt × vt)) (key : kt) :
    (collDissoc arr key = none ↔ collGet arr key = none) ∧
    (∀ arr', collDissoc arr key = some arr' →
      arr'.length + 1 = arr.length ∧
      arr'.Sublist arr ∧
      ((arr.map Prod.fst).Nodup →
        ∀ k', collGet arr' k' = if k' = key then none else collGet arr k')) := by
  induction arr with
  | nil =>
    refine ⟨by simp [collDissoc, collGet], ?_⟩
    intro arr' h
    rw [collDissoc] at h
    cases h
  | cons q rest ih =>
    match q with
    | (k, w) =>
      rw [collDissoc]
      by_cases hk : k = key
      · subst hk
        rw [if_pos rfl]
        refine ⟨by simp [collGet], ?_⟩
        intro arr' h
        injection h with h
        subst h
        refine ⟨by simp, List.sublist_cons_self _ _, ?_⟩
        intro hnodup k'
        simp only [List.map_cons, List.nodup_cons] at hnodup
        by_cases hk' : k' = k
        · rw [if_pos hk']
          cases hg : collGet rest k' with
          | none => rfl
          | some v =>
            have hmem := List.mem_map_of_mem Prod.fst
              ((collGet_mem_iff rest k' v hnodup.2).mp hg)
            rw [hk'] at hmem
            exact absurd hmem hnodup.1
        · rw [if_neg hk', collGet, if_neg (fun hh => hk' hh.symm)]
      · rw [if_neg hk]
        constructor
        · rw [collGet, if_neg hk]
          cases hcd : collDissoc rest key
          · simpa using (ih.1.mp hcd)
          · simp only [Option.map_some']
            constructor
            · intro h
              cases h
            · intro h
              have := ih.1.mpr h
              rw [hcd] at this
              cases this
        · intro arr' h
          cases hcd : collDissoc rest key with
          | none => rw [hcd] at h; cases h
          | some r =>
            rw [hcd] at h
            simp only [Option.map_some'] at h
            injection h with h
            subst h
            obtain ⟨hlen, hsub, hget⟩ := ih.2 r hcd
            refine ⟨by simp only [List.length_cons]; omega, ?_, ?_⟩
            · exact List.Sublist.cons₂ _ hsub
            intro hnodup k'
            simp only [List.map_cons, List.nodup_cons] at hnodup
            rw [collGet, collGet]
            by_cases hk' : k = k'
            · rw [if_pos hk', if_neg (by
                intro hh
                exact hk (hk'.trans hh)), if_pos hk']
            · rw [if_neg hk', if_neg hk']
              exact hget hnodup.2 k'

/-- `slotsToList` splits off its head slot. -/
theorem slotsToList_cons (s : Slot kt vt) (rest : List (Slot kt vt)) :
    slotsToList (s :: rest) = slotsToList [s] ++ slotsToList rest := by
  cases s <;> simp [slotsToList]

/-- Membership in the flattened pair list is membership in some slot. -/
theorem mem_slotsToList_iff (arr : List (Slot kt vt)) (q : kt × vt) :
    q ∈ slotsToList arr ↔
      ∃ (i : Nat) (s : Slot kt vt), arr[i]? = some s ∧ q ∈ slotsToList [s] := by
  induction arr with
  | nil =>
    simp only [slotsToList, List.not_mem_nil, false_iff]
    rintro ⟨i, s, hi, -⟩
    simp at hi
  | cons s rest ih =>
    rw [slotsToList_cons, List.mem_append, ih]
    constructor
    · rintro (h | ⟨i, s', hi, hmem⟩)
      · exact ⟨0, s, by simp, h⟩
      · exact ⟨i + 1, s', by simpa using hi, hmem⟩
    · rintro ⟨i, s', hi, hmem⟩
      cases i with
      | zero =>
        simp only [List.getElem?_cons_zero] at hi
        injection hi with hi
        subst hi
        exact Or.inl hmem
      | succ j =>
        simp only [List.getElem?_cons_succ] at hi
        exact Or.inr ⟨j, s', hi, hmem⟩

/-- A successful optional index read is in range. -/
theorem getElem_some_lt {al : Type} {l : List al} {i : Nat} {a : al}
    (h : l[i]? = some a) : i < l.length := by
  by_contra hge
  rw [List.getElem?_eq_none (by omega)] at h
  cases h

/-- Keys of a packed slot array are distinct when each slot's keys are
distinct and slots are separated by a per-index key property. -/
theorem nodup_slots_keys (arr : List (Slot kt vt)) (P : Nat → kt → Prop)
    (h1 : ∀ (i : Nat) (s : Slot kt vt), arr[i]? = some s →
      ((slotsToList [s]).map Prod.fst).Nodup)
    (h2 : ∀ (i : Nat) (s : Slot kt vt), arr[i]? = some s →
      ∀ q ∈ slotsToList [s], P i q.1)
    (h3 : ∀ i j k, i ≠ j → P i k → P j k → False) :
    ((slotsToList arr).map Prod.fst).Nodup := by
  induction arr generalizing P with
  | nil => simp [slotsToList]
  | cons s rest ih =>
    rw [slotsToList_cons, List.map_append, List.nodup_append]
    refine ⟨h1 0 s (by simp), ?_, ?_⟩
    · refine ih (fun i k => P (i + 1) k) ?_ ?_ ?_
      · intro i s' hi
        exact h1 (i + 1) s' (by simpa using hi)
      · intro i s' hi q hq
        exact h2 (i + 1) s' (by simpa using hi) q hq
      · intro i j k hij hpi hpj
        exact h3 (i + 1) (j + 1) k (by omega) hpi hpj
    · intro k hk hk2
      obtain ⟨q, hq, hq1⟩ := List.mem_map.mp hk
      obtain ⟨q', hq', hq1'⟩ := List.mem_map.mp hk2
      have hp0 : P 0 q.1 := h2 0 s (by simp) q hq
      obtain ⟨j, s', hj, hmem⟩ := (mem_slotsToList_iff rest q').mp hq'
      have hpj : P (j + 1) q'.1 := h2 (j + 1) s' (by simpa using hj) q' hmem
      rw [hq1'] at hpj
      rw [hq1] at hp0
      exact h3 0 (j + 1) k (by omega) hp0 hpj

/-- Structural facts about a well-formed node: stored keys carry the node's
hash prefix, stored keys are distinct, the node is nonempty, and `get`
finds exactly the stored pairs. -/
theorem wf_toList_props [DecidableEq kt] [DecidableEq vt] (hashf : kt → Int)
    (n : Node kt vt) (shift p : Nat) (hwf : NodeWF hashf n shift p) :
    (∀ q ∈ n.toList, hashValue hashf q.1 % 2 ^ shift = p) ∧
    (n.toList.map Prod.fst).Nodup ∧
    1 ≤ n.toList.length ∧
    (∀ key v, hashValue hashf key % 2 ^ shift = p →
      (n.get shift (hashValue hashf key) key = some v ↔ (key, v) ∈ n.toList)) := by
  cases n with
  | collisionNode ch arr =>
    cases hwf with
    | collision hs65 hpre hkeyhash hnodup hne =>
      subst hs65
      refine ⟨?_, ?_, ?_, ?_⟩
      · intro q hq
        exact hkeyhash q (by simpa [Node.toList] using hq)
      · simpa [Node.toList] using hnodup
      · simpa [Node.toList] using List.length_pos.mpr hne
      · intro key v hk
        have hg : Node.get (.collisionNode ch arr) 65 (hashValue hashf key) key =
            collGet arr key := by rw [Node.get]
        rw [hg]
        simpa [Node.toList] using collGet_mem_iff arr key v hnodup
  | bitmapNode bm arr =>
    cases hwf with
    | bitmap hs60 hs5 hp hbm32 hbm0 hlen hslots =>
      have hslot : ∀ f, f < 32 → bm.testBit f = true →
          ∀ s, arr[popcount (bm % 2 ^ f)]? = some s →
          (∀ q ∈ slotsToList [s],
            hashValue hashf q.1 % 2 ^ (shift + 5) = p + f * 2 ^ shift) ∧
          ((slotsToList [s]).map Prod.fst).Nodup ∧
          1 ≤ (slotsToList [s]).length ∧
          (∀ key v, hashValue hashf key % 2 ^ (shift + 5) = p + f * 2 ^ shift →
            (slotsGet [s] 0 shift (hashValue hashf key) key = some v ↔
              (key, v) ∈ slotsToList [s])) := by
        intro f hf32 hfb s harr
        have hopt := hslots f hf32 hfb
        rw [harr] at hopt
        cases hopt with
        | some hswf =>
          cases hswf with
          | entry hk0 =>
            rename_i k0 v0
            refine ⟨?_, by simp [slotsToList], by simp [slotsToList], ?_⟩
            · intro q hq
              simp [slotsToList] at hq
              rw [hq]
              exact hk0
            · intro key v hk
              rw [slotsGet_eq]
              simp only [List.getElem?_cons_zero]
              constructor
              · intro h
                by_cases hkey : k0 = key
                · rw [if_pos hkey] at h
                  injection h with h
                  subst h
                  simp [slotsToList, hkey]
                · rw [if_neg hkey] at h
                  cases h
              · intro h
                simp [slotsToList] at h
                rw [if_pos h.1.symm, h.2]
          | child hcwf =>
            rename_i c
            have hsz : sizeOf c < sizeOf (Node.bitmapNode bm arr) := by
              have hmem := List.sizeOf_lt_of_mem (List.getElem?_mem harr)
              simp at hmem ⊢
              omega
            obtain ⟨hh, hnd, hlen1, hget⟩ := wf_toList_props hashf c (shift + 5)
              (p + f * 2 ^ shift) hcwf
            refine ⟨?_, ?_, ?_, ?_⟩
            · intro q hq
              exact hh q (by simpa [slotsToList] using hq)
            · simpa [slotsToList] using hnd
            · simpa [slotsToList] using hlen1
            · intro key v hk
              rw [slotsGet_eq]
              simp only [List.getElem?_cons_zero]
              rw [hget key v hk]
              simp [slotsToList]
      have hex : ∀ (i : Nat), i < arr.length →
          ∃ f, f < 32 ∧ bm.testBit f = true ∧ popcount (bm % 2 ^ f) = i := by
        intro i hi
        rw [hlen] at hi
        exact exists_bit_of_lt_popcount hbm32 hi
      refine ⟨?_, ?_, ?_, ?_⟩
      · intro q hq
        have hq2 : q ∈ slotsToList arr := by simpa [Node.toList] using hq
        obtain ⟨i, s, hi, hmem⟩ := (mem_slotsToList_iff arr q).mp hq2
        obtain ⟨f, hf32, hfb, hpc⟩ := hex i (getElem_some_lt hi)
        rw [← hpc] at hi
        have h5 := (hslot f hf32 hfb s hi).1 q hmem
        exact (decomp_frag hp hf32 h5).1
      · have hmain : ((slotsToList arr).map Prod.fst).Nodup := by
          refine nodup_slots_keys arr
            (fun i k => ∃ f, f < 32 ∧ bm.testBit f = true ∧
              popcount (bm % 2 ^ f) = i ∧
              hashValue hashf k % 2 ^ (shift + 5) = p + f * 2 ^ shift) ?_ ?_ ?_
          · intro i s hi
            obtain ⟨f, hf32, hfb, hpc⟩ := hex i (getElem_some_lt hi)
            rw [← hpc] at hi
            exact (hslot f hf32 hfb s hi).2.1
          · intro i s hi q hq
            obtain ⟨f, hf32, hfb, hpc⟩ := hex i (getElem_some_lt hi)
            rw [← hpc] at hi
            exact ⟨f, hf32, hfb, hpc, (hslot f hf32 hfb s hi).1 q hq⟩
          · rintro i j k hij ⟨f, hf32, hfb, hpc, hhash⟩ ⟨g, hg32, hgb, hpc2, hhash2⟩
            have hfg : f = g := by
              have heq := hhash.symm.trans hhash2
              have h2 : f * 2 ^ shift = g * 2 ^ shift := by omega
              exact Nat.eq_of_mul_eq_mul_right (Nat.two_pow_pos shift) h2
            rw [hfg, hpc2] at hpc
            exact hij hpc.symm
        simpa [Node.toList] using hmain
      · cases arr with
        | nil =>
          have h0 : popcount bm = 0 := by simpa using hlen.symm
          have := popcount_pos hbm0
          omega
        | cons s rest =>
          obtain ⟨f, hf32, hfb, hpc⟩ := hex 0 (by simp)
          have hs := hslot f hf32 hfb s (by rw [hpc]; simp)
          have hlen1 := hs.2.2.1
          simp only [Node.toList]
          rw [slotsToList_cons]
          simp only [List.length_append]
          omega
      · intro key v hk
        have hkey5 : hashValue hashf key % 2 ^ (shift + 5) =
            p + ((hashValue hashf key >>> shift) &&& 31) * 2 ^ shift := by
          rw [mod_pow_add5, hk]
        have hfraglt : (hashValue hashf key >>> shift) &&& 31 < 32 := frag_lt _ _
        rw [get_bitmap_eq]
        simp only [Node.toList]
        constructor
        · intro hg
          by_cases hb : bm.testBit ((hashValue hashf key >>> shift) &&& 31)
          · rw [if_pos hb] at hg
            have hidx : popcount (bm % 2 ^ ((hashValue hashf key >>> shift) &&& 31)) <
                arr.length := by
              rw [hlen]
              exact popcount_mod_lt hb
            cases harr : arr[popcount (bm % 2 ^ ((hashValue hashf key >>> shift) &&& 31))]? with
            | none =>
              rw [List.getElem?_eq_getElem hidx] at harr
              cases harr
            | some s =>
              obtain ⟨hs1, hs2, hs3, hs4⟩ := hslot _ hfraglt hb s harr
              have hsg : slotsGet arr
                  (popcount (bm % 2 ^ ((hashValue hashf key >>> shift) &&& 31)))
                  shift (hashValue hashf key) key =
                  slotsGet [s] 0 shift (hashValue hashf key) key := by
                rw [slotsGet_eq, slotsGet_eq, harr]
                simp
              rw [hsg] at hg
              have hmem := (hs4 key v hkey5).mp hg
              exact (mem_slotsToList_iff arr (key, v)).mpr ⟨_, s, harr, hmem⟩
          · rw [if_neg hb] at hg
            cases hg
        · intro hmem0
          obtain ⟨i, s, hi, hmem⟩ := (mem_slotsToList_iff arr (key, v)).mp hmem0
          obtain ⟨f, hf32, hfb, hpc⟩ := hex i (getElem_some_lt hi)
          rw [← hpc] at hi
          obtain ⟨hs1, hs2, hs3, hs4⟩ := hslot f hf32 hfb s hi
          have h5 := hs1 (key, v) hmem
          have hfrag := (decomp_frag hp hf32 h5).2
          rw [hfrag, if_pos hfb]
          have hsg : slotsGet arr (popcount (bm % 2 ^ f)) shift
              (hashValue hashf key) key =
              slotsGet [s] 0 shift (hashValue hashf key) key := by
            rw [slotsGet_eq, slotsGet_eq, hi]
            simp
          rw [hsg]
          exact (hs4 key v (by rw [hkey5, hfrag])).mpr hmem
termination_by sizeOf n
decreasing_by simp_wf
              subst_vars
              assumption

/-- Everything `PersistentMap.dissoc` needs from the node-level `dissoc`:
`same` means the key is absent, `empty` means the node held exactly that
key, and a fresh node is well formed, one pair shorter, and its `get` is
the point deletion of the old `get`. -/
theorem dissoc_props [DecidableEq kt] [DecidableEq vt] (hashf : kt → Int)
    (n : Node kt vt) (shift p : Nat) (key : kt)
    (hwf : NodeWF hashf n shift p) (hk : hashValue hashf key % 2 ^ shift = p) :
    (n.dissoc shift (hashValue hashf key) key = .same →
       n.get shift (hashValue hashf key) key = none) ∧
    (n.dissoc shift (hashValue hashf key) key = .empty →
       n.toList.length = 1 ∧ (n.get shift (hashValue hashf key) key).isSome = true) ∧
    (∀ n', n.dissoc shift (hashValue hashf key) key = .node n' →
       NodeWF hashf n' shift p ∧
       n'.toList.length + 1 = n.toList.length ∧
       (n.get shift (hashValue hashf key) key).isSome = true ∧
       (∀ k', hashValue hashf k' % 2 ^ shift = p →
         n'.get shift (hashValue hashf k') k' =
           if k' = key then none else n.get shift (hashValue hashf k') k')) := by
  cases n with
  | collisionNode ch arr =>
    cases hwf with
    | collision hs65 hpre hkeyhash hnodup hne =>
      have hdis : Node.dissoc (.collisionNode ch arr) shift (hashValue hashf key) key =
          (match collDissoc arr key with
           | none => DissocRes.same
           | some [] => DissocRes.empty
           | some arr' => DissocRes.node (.collisionNode ch arr')) := by
        rw [Node.dissoc]
      have hg : Node.get (.collisionNode ch arr) shift (hashValue hashf key) key =
          collGet arr key := by rw [Node.get]
      obtain ⟨hiff, hsome⟩ := collDissoc_props arr key
      refine ⟨?_, ?_, ?_⟩
      · intro h
        rw [hdis] at h
        rw [hg]
        cases hcd : collDissoc arr key with
        | none => exact hiff.mp hcd
        | some arr2 =>
          rw [hcd] at h
          cases arr2 with
          | nil => cases h
          | cons a l => cases h
      · intro h
        rw [hdis] at h
        cases hcd : collDissoc arr key with
        | none => rw [hcd] at h; cases h
        | some arr2 =>
          rw [hcd] at h
          cases arr2 with
          | cons a l => cases h
          | nil =>
            obtain ⟨hlen, hsub, hget⟩ := hsome [] hcd
            constructor
            · have h1 : arr.length = 1 := by simpa using hlen.symm
              simpa [Node.toList] using h1
            · rw [hg]
              cases hcg : collGet arr key with
              | none =>
                have h2 := hiff.mpr hcg
                rw [hcd] at h2
                cases h2
              | some v => rfl
      · intro n' h
        rw [hdis] at h
        cases hcd : collDissoc arr key with
        | none => rw [hcd] at h; cases h
        | some arr2 =>
          rw [hcd] at h
          cases arr2 with
          | nil => cases h
          | cons a l =>
            injection h with h
            subst h
            obtain ⟨hlen, hsub, hget⟩ := hsome (a :: l) hcd
            refine ⟨?_, ?_, ?_, ?_⟩
            · refine NodeWF.collision hs65 hpre ?_ ?_ (by simp)
              · intro q hq
                exact hkeyhash q (hsub.subset hq)
              · exact hnodup.sublist (hsub.map Prod.fst)
            · simpa [Node.toList] using hlen
            · rw [hg]
              cases hcg : collGet arr key with
              | none =>
                have h2 := hiff.mpr hcg
                rw [hcd] at h2
                cases h2
              | some v => rfl
            · intro k' hk'
              have hg2 : Node.get (.collisionNode ch (a :: l)) shift
                  (hashValue hashf k') k' = collGet (a :: l) k' := by rw [Node.get]
              have hg3 : Node.get (.collisionNode ch arr) shift
                  (hashValue hashf k') k' = collGet arr k' := by rw [Node.get]
              rw [hg2, hg3]
              exact hget hnodup k'
  | bitmapNode bm arr =>
    cases hwf with
    | bitmap hs60 hs5 hp hbm32 hbm0 hlen hslots =>
      have hwfn : NodeWF hashf (.bitmapNode bm arr) shift p :=
        NodeWF.bitmap hs60 hs5 hp hbm32 hbm0 hlen hslots
      have hfraglt : ((hashValue hashf key >>> shift) &&& 31) < 32 := frag_lt _ _
      have hkey5 : hashValue hashf key % 2 ^ (shift + 5) =
          p + ((hashValue hashf key >>> shift) &&& 31) * 2 ^ shift := by
        rw [mod_pow_add5, hk]
      refine ⟨?_, ?_, ?_⟩
      · intro h
        rw [dissoc_bitmap_eq] at h
        rw [get_bitmap_eq]
        by_cases hb : bm.testBit ((hashValue hashf key >>> shift) &&& 31)
        · rw [if_pos hb] at h
          rw [if_pos hb]
          have hidx : popcount (bm % 2 ^ ((hashValue hashf key >>> shift) &&& 31)) < arr.length := by
            rw [hlen]
            exact popcount_mod_lt hb
          rw [slotsDissoc_eq] at h
          cases harr : arr[popcount (bm % 2 ^ ((hashValue hashf key >>> shift) &&& 31))]? with
          | none =>
            rw [List.getElem?_eq_getElem hidx] at harr
            cases harr
          | some s =>
            rw [harr] at h
            rw [slotsGet_eq, harr]
            have hopt := hslots _ hfraglt hb
            rw [harr] at hopt
            cases hopt with
            | some hswf =>
              cases hswf with
              | entry hk0 =>
                rename_i k0 v0
                simp only [] at h ⊢
                by_cases hkk : k0 = key
                · rw [if_pos hkk] at h
                  simp only [] at h
                  by_cases hpc : popcount bm = 1
                  · rw [if_pos hpc] at h
                    cases h
                  · rw [if_neg hpc] at h
                    cases h
                · rw [if_neg hkk]
              | child hcwf =>
                rename_i c
                have hsz : sizeOf c < sizeOf (Node.bitmapNode bm arr) := by
                  have hmem := List.sizeOf_lt_of_mem (List.getElem?_mem harr)
                  simp at hmem ⊢
                  omega
                simp only [] at h ⊢
                cases hcd : c.dissoc (shift + 5) (hashValue hashf key) key with
                | same =>
                  exact (dissoc_props hashf c (shift + 5) (p + ((hashValue hashf key >>> shift) &&& 31) * 2 ^ shift)
                    key hcwf hkey5).1 hcd
                | empty =>
                  rw [hcd] at h
                  simp only [] at h
                  by_cases hpc : popcount bm = 1
                  · rw [if_pos hpc] at h
                    cases h
                  · rw [if_neg hpc] at h
                    cases h
                | node c' =>
                  rw [hcd] at h
                  cases h
        · rw [if_neg hb] at h
          rw [if_neg hb]
      · intro h
        rw [dissoc_bitmap_eq] at h
        by_cases hb : bm.testBit ((hashValue hashf key >>> shift) &&& 31)
        · rw [if_pos hb] at h
          have hidx : popcount (bm % 2 ^ ((hashValue hashf key >>> shift) &&& 31)) < arr.length := by
            rw [hlen]
            exact popcount_mod_lt hb
          rw [slotsDissoc_eq] at h
          cases harr : arr[popcount (bm % 2 ^ ((hashValue hashf key >>> shift) &&& 31))]? with
          | none =>
            rw [List.getElem?_eq_getElem hidx] at harr
            cases harr
          | some s =>
            rw [harr] at h
            have hopt := hslots _ hfraglt hb
            rw [harr] at hopt
            have hsum := toList_remove_sum arr (popcount (bm % 2 ^ ((hashValue hashf key >>> shift) &&& 31))) s harr
            cases hopt with
            | some hswf =>
              cases hswf with
              | entry hk0 =>
                rename_i k0 v0
                simp only [] at h
                by_cases hkk : k0 = key
                · rw [if_pos hkk] at h
                  simp only [] at h
                  by_cases hpc : popcount bm = 1
                  · have hrem : (arr.take (popcount (bm % 2 ^ ((hashValue hashf key >>> shift) &&& 31))) ++ arr.drop (popcount (bm % 2 ^ ((hashValue hashf key >>> shift) &&& 31)) + 1)) = [] := by
                      have hl := length_remove_slot arr (popcount (bm % 2 ^ ((hashValue hashf key >>> shift) &&& 31))) hidx
                      rw [hlen, hpc] at hl
                      exact List.length_eq_zero.mp (by omega)
                    constructor
                    · rw [hrem] at hsum
                      simp only [Node.toList]
                      simp [slotsToList] at hsum
                      omega
                    · rw [get_bitmap_eq, if_pos hb, slotsGet_eq, harr]
                      simp [hkk]
                  · rw [if_neg hpc] at h
                    cases h
                · rw [if_neg hkk] at h
                  cases h
              | child hcwf =>
                rename_i c
                have hsz : sizeOf c < sizeOf (Node.bitmapNode bm arr) := by
                  have hmem := List.sizeOf_lt_of_mem (List.getElem?_mem harr)
                  simp at hmem ⊢
                  omega
                simp only [] at h
                cases hcd : c.dissoc (shift + 5) (hashValue hashf key) key with
                | same =>
                  rw [hcd] at h
                  cases h
                | empty =>
                  rw [hcd] at h
                  simp only [] at h
                  obtain ⟨hclen, hcsome⟩ := (dissoc_props hashf c (shift + 5)
                    (p + ((hashValue hashf key >>> shift) &&& 31) * 2 ^ shift) key hcwf hkey5).2.1 hcd
                  by_cases hpc : popcount bm = 1
                  · have hrem : (arr.take (popcount (bm % 2 ^ ((hashValue hashf key >>> shift) &&& 31))) ++ arr.drop (popcount (bm % 2 ^ ((hashValue hashf key >>> shift) &&& 31)) + 1)) = [] := by
                      have hl := length_remove_slot arr (popcount (bm % 2 ^ ((hashValue hashf key >>> shift) &&& 31))) hidx
                      rw [hlen, hpc] at hl
                      exact List.length_eq_zero.mp (by omega)
                    constructor
                    · rw [hrem] at hsum
                      simp only [Node.toList]
                      simp [slotsToList] at hsum
                      omega
                    · rw [get_bitmap_eq, if_pos hb, slotsGet_eq, harr]
                      simpa using hcsome
                  · rw [if_neg hpc] at h
                    cases h
                | node c' =>
                  rw [hcd] at h
                  cases h
        · rw [if_neg hb] at h
          cases h
      · intro n' h
        rw [dissoc_bitmap_eq] at h
        by_cases hb : bm.testBit ((hashValue hashf key >>> shift) &&& 31)
        swap
        · rw [if_neg hb] at h
          cases h
        rw [if_pos hb] at h
        have hidx : popcount (bm % 2 ^ ((hashValue hashf key >>> shift) &&& 31)) < arr.length := by
          rw [hlen]
          exact popcount_mod_lt hb
        rw [slotsDissoc_eq] at h
        cases harr : arr[popcount (bm % 2 ^ ((hashValue hashf key >>> shift) &&& 31))]? with
        | none =>
          rw [List.getElem?_eq_getElem hidx] at harr
          cases harr
        | some s =>
          rw [harr] at h
          have hopt := hslots _ hfraglt hb
          rw [harr] at hopt
          have hsum := toList_remove_sum arr (popcount (bm % 2 ^ ((hashValue hashf key >>> shift) &&& 31))) s harr
          cases hopt with
          | some hswf =>
            cases hswf with
            | entry hk0 =>
              rename_i k0 v0
              simp only [] at h
              by_cases hkk : k0 = key
              · rw [if_pos hkk] at h
                simp only [] at h
                by_cases hpc : popcount bm = 1
                · rw [if_pos hpc] at h
                  cases h
                · rw [if_neg hpc] at h
                  injection h with h
                  subst h
                  refine ⟨wf_remove_slot hwfn hfraglt hb hpc, ?_, ?_, ?_⟩
                  · simp only [Node.toList]
                    simp [slotsToList] at hsum
                    omega
                  · rw [get_bitmap_eq, if_pos hb, slotsGet_eq, harr]
                    simp [hkk]
                  · intro k' hk'
                    by_cases hf' : ((hashValue hashf k' >>> shift) &&& 31) = ((hashValue hashf key >>> shift) &&& 31)
                    · rw [get_bitmap_eq, get_bitmap_eq, hf',
                        if_neg (by rw [testBit_xor_two_pow]; simp [hb]),
                        if_pos hb, slotsGet_eq, harr]
                      simp only []
                      by_cases hk'key : k' = key
                      · rw [if_pos hk'key]
                      · rw [if_neg hk'key,
                          if_neg (by rw [hkk]; exact fun hh => hk'key hh.symm)]
                    · have hnk : ¬ k' = key := by
                        intro hkk2
                        rw [hkk2] at hf'
                        exact hf' rfl
                      rw [get_bitmap_eq, get_bitmap_eq, if_neg hnk]
                      have htb : (bm ^^^ 2 ^ ((hashValue hashf key >>> shift) &&& 31)).testBit ((hashValue hashf k' >>> shift) &&& 31) =
                          bm.testBit ((hashValue hashf k' >>> shift) &&& 31) := by
                        rw [testBit_xor_two_pow, if_neg hf']
                      rw [htb]
                      by_cases hb' : bm.testBit ((hashValue hashf k' >>> shift) &&& 31)
                      · rw [if_pos hb', if_pos hb', popcount_xor_mod _ hb]
                        rcases Nat.lt_or_ge ((hashValue hashf key >>> shift) &&& 31) ((hashValue hashf k' >>> shift) &&& 31) with hlt | hge
                        · rw [if_pos hlt, slotsGet_eq, slotsGet_eq]
                          have hstrict : popcount (bm % 2 ^ ((hashValue hashf key >>> shift) &&& 31)) < popcount (bm % 2 ^ ((hashValue hashf k' >>> shift) &&& 31)) :=
                            popcount_mod_strict hlt hb
                          have hrw := getElem_remove_ge arr (popcount (bm % 2 ^ ((hashValue hashf key >>> shift) &&& 31)))
                            (popcount (bm % 2 ^ ((hashValue hashf k' >>> shift) &&& 31)) - 1) hidx (by omega)
                          rw [(by omega : popcount (bm % 2 ^ ((hashValue hashf k' >>> shift) &&& 31)) - 1 + 1 =
                            popcount (bm % 2 ^ ((hashValue hashf k' >>> shift) &&& 31)))] at hrw
                          rw [hrw]
                        · have hlt2 : ((hashValue hashf k' >>> shift) &&& 31) < ((hashValue hashf key >>> shift) &&& 31) := by omega
                          rw [if_neg (by omega), Nat.sub_zero, slotsGet_eq, slotsGet_eq,
                            getElem_remove_lt arr _ _ (by omega)
                              (popcount_mod_strict hlt2 hb')]
                      · rw [if_neg hb', if_neg hb']
              · rw [if_neg hkk] at h
                cases h
            | child hcwf =>
              rename_i c
              have hsz : sizeOf c < sizeOf (Node.bitmapNode bm arr) := by
                have hmem := List.sizeOf_lt_of_mem (List.getElem?_mem harr)
                simp at hmem ⊢
                omega
              simp only [] at h
              cases hcd : c.dissoc (shift + 5) (hashValue hashf key) key with
              | same =>
                rw [hcd] at h
                cases h
              | empty =>
                rw [hcd] at h
                simp only [] at h
                obtain ⟨hclen, hcsome⟩ := (dissoc_props hashf c (shift + 5)
                  (p + ((hashValue hashf key >>> shift) &&& 31) * 2 ^ shift) key hcwf hkey5).2.1 hcd
                by_cases hpc : popcount bm = 1
                · rw [if_pos hpc] at h
                  cases h
                · rw [if_neg hpc] at h
                  injection h with h
                  subst h
                  obtain ⟨hch, hcnd, hclen1, hcgetiff⟩ :=
                    wf_toList_props hashf c (shift + 5) (p + ((hashValue hashf key >>> shift) &&& 31) * 2 ^ shift) hcwf
                  obtain ⟨vk, hvk⟩ := Option.isSome_iff_exists.mp hcsome
                  have hnone : ∀ k', ¬ k' = key →
                      hashValue hashf k' % 2 ^ (shift + 5) = p + ((hashValue hashf key >>> shift) &&& 31) * 2 ^ shift →
                      c.get (shift + 5) (hashValue hashf k') k' = none := by
                    intro k' hnk hk'5
                    cases hcg : c.get (shift + 5) (hashValue hashf k') k' with
                    | none => rfl
                    | some v' =>
                      have hmem1 := (hcgetiff k' v' hk'5).mp hcg
                      have hmem2 := (hcgetiff key vk hkey5).mp hvk
                      obtain ⟨a, ha⟩ := List.length_eq_one.mp hclen
                      rw [ha] at hmem1 hmem2
                      simp only [List.mem_singleton] at hmem1 hmem2
                      have hfst : k' = key := by
                        have h12 := hmem1.trans hmem2.symm
                        exact congrArg Prod.fst h12
                      exact absurd hfst hnk
                  refine ⟨wf_remove_slot hwfn hfraglt hb hpc, ?_, ?_, ?_⟩
                  · simp only [Node.toList]
                    simp [slotsToList] at hsum
                    omega
                  · rw [get_bitmap_eq, if_pos hb, slotsGet_eq, harr]
                    simpa using hcsome
                  · intro k' hk'
                    by_cases hf' : ((hashValue hashf k' >>> shift) &&& 31) = ((hashValue hashf key >>> shift) &&& 31)
                    · rw [get_bitmap_eq, get_bitmap_eq, hf',
                        if_neg (by rw [testBit_xor_two_pow]; simp [hb]),
                        if_pos hb, slotsGet_eq, harr]
                      simp only []
                      by_cases hk'key : k' = key
                      · rw [if_pos hk'key]
                      · rw [if_neg hk'key,
                          hnone k' hk'key (by rw [mod_pow_add5, hk', hf'])]
                    · have hnk : ¬ k' = key := by
                        intro hkk2
                        rw [hkk2] at hf'
                        exact hf' rfl
                      rw [get_bitmap_eq, get_bitmap_eq, if_neg hnk]
                      have htb : (bm ^^^ 2 ^ ((hashValue hashf key >>> shift) &&& 31)).testBit ((hashValue hashf k' >>> shift) &&& 31) =
                          bm.testBit ((hashValue hashf k' >>> shift) &&& 31) := by
                        rw [testBit_xor_two_pow, if_neg hf']
                      rw [htb]
                      by_cases hb' : bm.testBit ((hashValue hashf k' >>> shift) &&& 31)
                      · rw [if_pos hb', if_pos hb', popcount_xor_mod _ hb]
                        rcases Nat.lt_or_ge ((hashValue hashf key >>> shift) &&& 31) ((hashValue hashf k' >>> shift) &&& 31) with hlt | hge
                        · rw [if_pos hlt, slotsGet_eq, slotsGet_eq]
                          have hstrict : popcount (bm % 2 ^ ((hashValue hashf key >>> shift) &&& 31)) < popcount (bm % 2 ^ ((hashValue hashf k' >>> shift) &&& 31)) :=
                            popcount_mod_strict hlt hb
                          have hrw := getElem_remove_ge arr (popcount (bm % 2 ^ ((hashValue hashf key >>> shift) &&& 31)))
                            (popcount (bm % 2 ^ ((hashValue hashf k' >>> shift) &&& 31)) - 1) hidx (by omega)
                          rw [(by omega : popcount (bm % 2 ^ ((hashValue hashf k' >>> shift) &&& 31)) - 1 + 1 =
                            popcount (bm % 2 ^ ((hashValue hashf k' >>> shift) &&& 31)))] at hrw
                          rw [hrw]
                        · have hlt2 : ((hashValue hashf k' >>> shift) &&& 31) < ((hashValue hashf key >>> shift) &&& 31) := by omega
                          rw [if_neg (by omega), Nat.sub_zero, slotsGet_eq, slotsGet_eq,
                            getElem_remove_lt arr _ _ (by omega)
                              (popcount_mod_strict hlt2 hb')]
                      · rw [if_neg hb', if_neg hb']
              | node c' =>
                rw [hcd] at h
                simp only [] at h
                injection h with h
                subst h
                obtain ⟨hcwf', hclen, hcsome, hcget⟩ := (dissoc_props hashf c
                  (shift + 5) (p + ((hashValue hashf key >>> shift) &&& 31) * 2 ^ shift) key hcwf hkey5).2.2 c' hcd
                refine ⟨wf_set_slot hwfn hfraglt hb (SlotWF.child hcwf'), ?_, ?_, ?_⟩
                · have hsum2 := toList_set_sum arr (popcount (bm % 2 ^ ((hashValue hashf key >>> shift) &&& 31))) (.child c) (.child c') harr
                  simp only [Node.toList]
                  simp [slotsToList] at hsum2
                  omega
                · rw [get_bitmap_eq, if_pos hb, slotsGet_eq, harr]
                  simpa using hcsome
                · intro k' hk'
                  by_cases hf' : ((hashValue hashf k' >>> shift) &&& 31) = ((hashValue hashf key >>> shift) &&& 31)
                  · rw [get_bitmap_eq, get_bitmap_eq, hf', if_pos hb, if_pos hb,
                      slotsGet_eq, slotsGet_eq, harr, List.getElem?_set_self hidx]
                    simp only []
                    exact hcget k' (by rw [mod_pow_add5, hk', hf'])
                  · have hnk : ¬ k' = key := by
                      intro hkk2
                      rw [hkk2] at hf'
                      exact hf' rfl
                    rw [get_bitmap_eq, get_bitmap_eq, if_neg hnk]
                    by_cases hb' : bm.testBit ((hashValue hashf k' >>> shift) &&& 31)
                    · rw [if_pos hb', if_pos hb', slotsGet_eq, slotsGet_eq,
                        List.getElem?_set_ne ?hnei]
                      case hnei =>
                        rcases Nat.lt_or_ge ((hashValue hashf key >>> shift) &&& 31) ((hashValue hashf k' >>> shift) &&& 31) with hlt | hge
                        · exact (popcount_mod_strict hlt hb).ne
                        · have hlt2 : ((hashValue hashf k' >>> shift) &&& 31) < ((hashValue hashf key >>> shift) &&& 31) := by omega
                          exact (popcount_mod_strict hlt2 hb').ne'
                    · rw [if_neg hb', if_neg hb']
termination_by sizeOf n
decreasing_by all_goals (simp_wf; subst_vars; assumption)

/-- When the collision-scan insert short-circuits, the pair was already
stored with that exact value. -/
theorem collAssoc_none_get [DecidableEq kt] [DecidableEq vt]
    (arr : List (kt × vt)) (key : kt) (val : vt)
    (h : collAssoc arr key val = none) : collGet arr key = some val := by
  induction arr with
  | nil => rw [collAssoc] at h; cases h
  | cons q rest ih =>
    match q with
    | (k, w) =>
      rw [collAssoc] at h
      rw [collGet]
      by_cases hk : k = key
      · rw [if_pos hk] at h
        rw [if_pos hk]
        by_cases hw : w = val
        · rw [hw]
        · rw [if_neg hw] at h
          cases h
      · rw [if_neg hk] at h
        rw [if_neg hk]
        cases hca : collAssoc rest key val with
        | none => exact ih hca
        | some r =>
          rw [hca] at h
          cases h

/-- On a well-formed node, `assoc` answers `return self` only when the
exact pair is already stored. -/
theorem assoc_same_get [DecidableEq kt] [DecidableEq vt] (hashf : kt → Int)
    (n : Node kt vt) (shift p : Nat) (key : kt) (val : vt)
    (hwf : NodeWF hashf n shift p) (hk : hashValue hashf key % 2 ^ shift = p)
    (h : n.assoc hashf shift (hashValue hashf key) key val = .same) :
    n.get shift (hashValue hashf key) key = some val := by
  cases n with
  | collisionNode ch arr =>
    rw [Node.assoc] at h
    have hg : Node.get (.collisionNode ch arr) shift (hashValue hashf key) key =
        collGet arr key := by rw [Node.get]
    rw [hg]
    cases hca : collAssoc arr key val with
    | none => exact collAssoc_none_get arr key val hca
    | some arr2 =>
      rw [hca] at h
      cases h
  | bitmapNode bm arr =>
    cases hwf with
    | bitmap hs60 hs5 hp hbm32 hbm0 hlen hslots =>
      have hfraglt : ((hashValue hashf key >>> shift) &&& 31) < 32 := frag_lt _ _
      have hkey5 : hashValue hashf key % 2 ^ (shift + 5) =
          p + ((hashValue hashf key >>> shift) &&& 31) * 2 ^ shift := by
        rw [mod_pow_add5, hk]
      rw [assoc_bitmap_eq] at h
      rw [get_bitmap_eq]
      by_cases hb : bm.testBit ((hashValue hashf key >>> shift) &&& 31)
      · rw [if_pos hb] at h
        rw [if_pos hb]
        have hidx : popcount (bm % 2 ^ ((hashValue hashf key >>> shift) &&& 31)) < arr.length := by
          rw [hlen]
          exact popcount_mod_lt hb
        rw [slotsAssoc_eq] at h
        cases harr : arr[popcount (bm % 2 ^ ((hashValue hashf key >>> shift) &&& 31))]? with
        | none =>
          rw [List.getElem?_eq_getElem hidx] at harr
          cases harr
        | some s =>
          rw [harr] at h
          rw [slotsGet_eq, harr]
          have hopt := hslots _ hfraglt hb
          rw [harr] at hopt
          cases hopt with
          | some hswf =>
            cases hswf with
            | entry hk0 =>
              rename_i k0 v0
              simp only [] at h ⊢
              by_cases hkk : k0 = key
              · rw [if_pos hkk] at h
                rw [if_pos hkk]
                by_cases hv : v0 = val
                · rw [hv]
                · rw [if_neg hv] at h
                  cases h
              · rw [if_neg hkk] at h
                cases h
            | child hcwf =>
              rename_i c
              have hsz : sizeOf c < sizeOf (Node.bitmapNode bm arr) := by
                have hmem := List.sizeOf_lt_of_mem (List.getElem?_mem harr)
                simp at hmem ⊢
                omega
              simp only [] at h ⊢
              cases hca : c.assoc hashf (shift + 5) (hashValue hashf key) key val with
              | same =>
                exact assoc_same_get hashf c (shift + 5) (p + ((hashValue hashf key >>> shift) &&& 31) * 2 ^ shift)
                  key val hcwf hkey5 hca
              | node c' =>
                rw [hca] at h
                cases h
      · rw [if_neg hb] at h
        cases h
termination_by sizeOf n
decreasing_by simp_wf
              subst_vars
              assumption

/-- The root built by `assoc` on the empty map: shape and well-formedness. -/
theorem empty_root_props [DecidableEq kt] [DecidableEq vt] (hashf : kt → Int)
    (key : kt) (val : vt) :
    (Node.bitmapNode 0 ([] : List (Slot kt vt))).assoc hashf 0
        (hashValue hashf key) key val =
      .node (.bitmapNode (2 ^ ((hashValue hashf key >>> 0) &&& 31))
        [.entry key val]) ∧
    NodeWF hashf (.bitmapNode (2 ^ ((hashValue hashf key >>> 0) &&& 31))
      ([.entry key val] : List (Slot kt vt))) 0 0 := by
  constructor
  · rw [assoc_bitmap_eq]
    rw [if_neg (by simp [Nat.zero_testBit])]
    simp [popcount_zero]
  · have hf32 : ((hashValue hashf key >>> 0) &&& 31) < 32 := frag_lt _ _
    refine NodeWF.bitmap (by omega) (by omega) (by simp)
      (Nat.pow_lt_pow_right (by omega) hf32)
      (Nat.two_pow_pos _).ne' ?_ ?_
    · rw [popcount_two_pow]
      simp
    · intro g hg32 hgb
      have hgf : g = ((hashValue hashf key >>> 0) &&& 31) := by
        by_contra hne
        rw [Nat.testBit_two_pow_of_ne (fun hh => hne hh.symm)] at hgb
        cases hgb
      subst hgf
      rw [Nat.mod_self, popcount_zero]
      simp only [List.getElem?_cons_zero]
      refine OptSlotWF.some (SlotWF.entry ?_)
      rw [mod_pow_add5]
      simp [Nat.mod_one]

/-- Map-level lookup finds exactly the pairs listed by iteration. -/
theorem lookup_toList_iff [DecidableEq kt] [DecidableEq vt] (hashf : kt → Int)
    (m : PersistentMap kt vt) (hwf : MapWF hashf m) (k : kt) (v : vt) :
    m.lookup hashf k = some v ↔ (k, v) ∈ m.toList := by
  have hwf2 := hwf
  rw [MapWF] at hwf2
  cases hroot : m.root with
  | none =>
    rw [PersistentMap.lookup, PersistentMap.toList, hroot]
    simp
  | some r =>
    rw [PersistentMap.lookup, PersistentMap.toList, hroot]
    rw [hroot] at hwf2
    simp only [] at hwf2
    obtain ⟨hnwf, hcount⟩ := hwf2
    obtain ⟨hh, hnd, hlen1, hiff⟩ := wf_toList_props hashf r 0 0 hnwf
    simpa using hiff k v (by simp [Nat.mod_one])

/-- Everything map-level reasoning needs from `PersistentMap.assoc`:
well-formedness is preserved, `_count` moves by the no-op/new-key delta,
and lookup becomes the point update of the old lookup. -/
theorem assoc_map_props [DecidableEq kt] [DecidableEq vt] (hashf : kt → Int)
    (m : PersistentMap kt vt) (key : kt) (val : vt) (hwf : MapWF hashf m) :
    MapWF hashf (m.assoc hashf key val) ∧
    (m.assoc hashf key val).count =
      m.count + (if (m.lookup hashf key).isSome then 0 else 1) ∧
    (∀ k', (m.assoc hashf key val).lookup hashf k' =
      if k' = key then some val else m.lookup hashf k') := by
  have hwf2 := hwf
  rw [MapWF] at hwf2
  have hk0 : ∀ k0 : kt, hashValue hashf k0 % 2 ^ 0 = 0 := by
    intro k0
    simp [Nat.mod_one]
  cases hroot : m.root with
  | none =>
    rw [hroot] at hwf2
    simp only [] at hwf2
    obtain ⟨heq, hnwf⟩ := empty_root_props hashf key val
    have hassoc : m.assoc hashf key val =
        ⟨some (.bitmapNode (2 ^ ((hashValue hashf key >>> 0) &&& 31))
          [.entry key val]), 1⟩ := by
      rw [PersistentMap.assoc, hroot]
      simp only []
      rw [heq]
      rfl
    have hlk : m.lookup hashf key = none := by
      rw [PersistentMap.lookup, hroot]
    obtain ⟨hh, hnd, hlen1, hiff⟩ := wf_toList_props hashf _ 0 0 hnwf
    rw [hassoc]
    refine ⟨?_, ?_, ?_⟩
    · rw [MapWF]
      simp only []
      exact ⟨hnwf, by simp [Node.toList, slotsToList]⟩
    · rw [hlk, hwf2]
      simp
    · intro k'
      have hlk' : PersistentMap.lookup hashf
          ⟨some (.bitmapNode (2 ^ ((hashValue hashf key >>> 0) &&& 31))
            [.entry key val]), 1⟩ k' =
          Node.get (.bitmapNode (2 ^ ((hashValue hashf key >>> 0) &&& 31))
            [.entry key val]) 0 (hashValue hashf k') k' := by
        rw [PersistentMap.lookup]
      rw [hlk']
      have hlkm : m.lookup hashf k' = none := by
        rw [PersistentMap.lookup, hroot]
      rw [hlkm]
      by_cases hk' : k' = key
      · rw [if_pos hk', hk']
        exact (hiff key val (hk0 key)).mpr (by simp [Node.toList, slotsToList])
      · rw [if_neg hk']
        cases hg : Node.get (.bitmapNode (2 ^ ((hashValue hashf key >>> 0) &&& 31))
            [.entry key val]) 0 (hashValue hashf k') k' with
        | none => rfl
        | some v' =>
          have hmem := (hiff k' v' (hk0 k')).mp hg
          simp [Node.toList, slotsToList] at hmem
          exact absurd hmem.1 hk'
  | some r =>
    rw [hroot] at hwf2
    simp only [] at hwf2
    obtain ⟨hnwf, hcount⟩ := hwf2
    have hlk : m.lookup hashf key = r.get 0 (hashValue hashf key) key := by
      rw [PersistentMap.lookup, hroot]
    cases hca : r.assoc hashf 0 (hashValue hashf key) key val with
    | same =>
      have hassoc : m.assoc hashf key val = m := by
        rw [PersistentMap.assoc, hroot]
        simp only []
        rw [hca]
      have hsome : r.get 0 (hashValue hashf key) key = some val :=
        assoc_same_get hashf r 0 0 key val hnwf (hk0 key) hca
      rw [hassoc]
      refine ⟨hwf, ?_, ?_⟩
      · rw [hlk, hsome]
        simp
      · intro k'
        by_cases hk' : k' = key
        · rw [if_pos hk', hk']
          rw [hlk]
          exact hsome
        · rw [if_neg hk']
    | node n' =>
      obtain ⟨hnwf', hlen', hget'⟩ :=
        assoc_props hashf r 0 0 key val hnwf (hk0 key) n' hca
      have hassoc : m.assoc hashf key val =
          ⟨some n', if (r.get 0 (hashValue hashf key) key).isSome
            then m.count else m.count + 1⟩ := by
        rw [PersistentMap.assoc, hroot]
        simp only []
        rw [hca]
      rw [hassoc]
      refine ⟨?_, ?_, ?_⟩
      · rw [MapWF]
        simp only []
        refine ⟨hnwf', ?_⟩
        by_cases hs : (r.get 0 (hashValue hashf key) key).isSome
        · rw [if_pos hs]
          rw [if_pos hs] at hlen'
          omega
        · rw [if_neg hs]
          rw [if_neg hs] at hlen'
          omega
      · rw [hlk]
        by_cases hs : (r.get 0 (hashValue hashf key) key).isSome
        · rw [if_pos hs, if_pos hs]
          simp
        · rw [if_neg hs, if_neg hs]
      · intro k'
        have hlk' : PersistentMap.lookup hashf
            ⟨some n', if (r.get 0 (hashValue hashf key) key).isSome
              then m.count else m.count + 1⟩ k' =
            n'.get 0 (hashValue hashf k') k' := by
          rw [PersistentMap.lookup]
        have hlkm : m.lookup hashf k' = r.get 0 (hashValue hashf k') k' := by
          rw [PersistentMap.lookup, hroot]
        rw [hlk', hlkm]
        exact hget' k' (hk0 k')

/-- Everything map-level reasoning needs from `PersistentMap.dissoc`. -/
theorem dissoc_map_props [DecidableEq kt] [DecidableEq vt] (hashf : kt → Int)
    (m : PersistentMap kt vt) (key : kt) (hwf : MapWF hashf m) :
    MapWF hashf (m.dissoc hashf key) ∧
    (m.dissoc hashf key).count =
      m.count - (if (m.lookup hashf key).isSome then 1 else 0) ∧
    (∀ k', (m.dissoc hashf key).lookup hashf k' =
      if k' = key then none else m.lookup hashf k') := by
  have hwf2 := hwf
  rw [MapWF] at hwf2
  have hk0 : ∀ k0 : kt, hashValue hashf k0 % 2 ^ 0 = 0 := by
    intro k0
    simp [Nat.mod_one]
  cases hroot : m.root with
  | none =>
    have hdis : m.dissoc hashf key = m := by
      rw [PersistentMap.dissoc, hroot]
    have hlk : ∀ k0, m.lookup hashf k0 = none := by
      intro k0
      rw [PersistentMap.lookup, hroot]
    rw [hdis]
    refine ⟨hwf, ?_, ?_⟩
    · rw [hlk key]
      simp
    · intro k'
      by_cases hk' : k' = key
      · rw [if_pos hk', hk', hlk key]
      · rw [if_neg hk']
  | some r =>
    rw [hroot] at hwf2
    simp only [] at hwf2
    obtain ⟨hnwf, hcount⟩ := hwf2
    have hlk : m.lookup hashf key = r.get 0 (hashValue hashf key) key := by
      rw [PersistentMap.lookup, hroot]
    by_cases hs : (r.get 0 (hashValue hashf key) key).isSome
    · cases hcd : r.dissoc 0 (hashValue hashf key) key with
      | same =>
        have hnone := (dissoc_props hashf r 0 0 key hnwf (hk0 key)).1 hcd
        rw [hnone] at hs
        simp at hs
      | empty =>
        obtain ⟨hlen1, -⟩ := (dissoc_props hashf r 0 0 key hnwf (hk0 key)).2.1 hcd
        have hdis : m.dissoc hashf key = ⟨none, m.count - 1⟩ := by
          rw [PersistentMap.dissoc, hroot]
          simp only []
          rw [if_pos hs, hcd]
        obtain ⟨hh, hnd, hlen0, hiff⟩ := wf_toList_props hashf r 0 0 hnwf
        obtain ⟨vk, hvk⟩ := Option.isSome_iff_exists.mp hs
        rw [hdis]
        refine ⟨?_, ?_, ?_⟩
        · rw [MapWF]
          simp only []
          omega
        · rw [hlk]
          rw [if_pos hs]
        · intro k'
          have hlk0 : PersistentMap.lookup hashf
              (⟨none, m.count - 1⟩ : PersistentMap kt vt) k' = none := by
            rw [PersistentMap.lookup]
          rw [hlk0]
          by_cases hk' : k' = key
          · rw [if_pos hk']
          · rw [if_neg hk']
            have hlkm : m.lookup hashf k' = r.get 0 (hashValue hashf k') k' := by
              rw [PersistentMap.lookup, hroot]
            rw [hlkm]
            cases hg : r.get 0 (hashValue hashf k') k' with
            | none => rfl
            | some v' =>
              have hmem1 := (hiff k' v' (hk0 k')).mp hg
              have hmem2 := (hiff key vk (hk0 key)).mp hvk
              obtain ⟨a, ha⟩ := List.length_eq_one.mp hlen1
              rw [ha] at hmem1 hmem2
              simp only [List.mem_singleton] at hmem1 hmem2
              have hfst : k' = key := congrArg Prod.fst (hmem1.trans hmem2.symm)
              exact absurd hfst hk'
      | node n' =>
        obtain ⟨hnwf', hlen', hsome', hget'⟩ :=
          (dissoc_props hashf r 0 0 key hnwf (hk0 key)).2.2 n' hcd
        have hdis : m.dissoc hashf key = ⟨some n', m.count - 1⟩ := by
          rw [PersistentMap.dissoc, hroot]
          simp only []
          rw [if_pos hs, hcd]
        rw [hdis]
        refine ⟨?_, ?_, ?_⟩
        · rw [MapWF]
          simp only []
          exact ⟨hnwf', by omega⟩
        · rw [hlk, if_pos hs]
        · intro k'
          have hlk' : PersistentMap.lookup hashf
              ⟨some n', m.count - 1⟩ k' = n'.get 0 (hashValue hashf k') k' := by
            rw [PersistentMap.lookup]
          have hlkm : m.lookup hashf k' = r.get 0 (hashValue hashf k') k' := by
            rw [PersistentMap.lookup, hroot]
          rw [hlk', hlkm]
          exact hget' k' (hk0 k')
    · have hdis : m.dissoc hashf key = m := by
        rw [PersistentMap.dissoc, hroot]
        simp only []
        rw [if_neg hs]
      have hnone : m.lookup hashf key = none := by
        rw [hlk]
        exact Option.not_isSome_iff_eq_none.mp hs
      rw [hdis]
      refine ⟨hwf, ?_, ?_⟩
      · rw [hnone]
        simp
      · intro k'
        by_cases hk' : k' = key
        · rw [if_pos hk', hk', hnone]
        · rw [if_neg hk']

/-- Every reachable map satisfies the invariant. -/
theorem reachable_MapWF [DecidableEq kt] [DecidableEq vt] (hashf : kt → Int)
    (m : PersistentMap kt vt) (hr : Reachable hashf m) : MapWF hashf m := by
  induction hr with
  | empty => rw [MapWF, PersistentMap.empty]
  | assoc key val hm ih => exact (assoc_map_props hashf _ key val ih).1
  | dissoc key hm ih => exact (dissoc_map_props hashf _ key ih).1

/-- C1: for every reachable map, every key and value, lookup after `assoc`
finds the inserted value (`get(assoc(m,k,v), k) == v`), whatever the hash
function, including hashes that collide with existing keys. -/
theorem C1_get_after_assoc [DecidableEq kt] [DecidableEq vt] (hashf : kt → Int)
    (m : PersistentMap kt vt) (hr : Reachable hashf m) (key : kt) (val : vt)
    (dflt : vt) :
    (m.assoc hashf key val).lookup hashf key = some val ∧
    (m.assoc hashf key val).get hashf key dflt = val := by
  have h := (assoc_map_props hashf m key val (reachable_MapWF hashf m hr)).2.2 key
  rw [if_pos rfl] at h
  exact ⟨h, by rw [PersistentMap.get, h]; rfl⟩

theorem C1_get_after_assoc_witness :
    ((PersistentMap.empty Nat Nat).assoc natHash 1 2).lookup natHash 1 = some 2 ∧
    ((PersistentMap.empty Nat Nat).assoc natHash 1 2).get natHash 1 0 = 2 :=
  C1_get_after_assoc natHash (PersistentMap.empty Nat Nat) Reachable.empty 1 2 0

/-- C3: on every reachable map `_count` equals the number of stored pairs,
stored keys are distinct (so it is the number of distinct keys reachable
from the root), the root is `None` exactly when the count is 0, and each
operation moves `len` by +1 (new-key assoc), −1 (present-key dissoc) or 0
(no-op). -/
theorem C3_count_invariant [DecidableEq kt] [DecidableEq vt] (hashf : kt → Int)
    (m : PersistentMap kt vt) (hr : Reachable hashf m) :
    (m.count = m.toList.length ∧ (m.toList.map Prod.fst).Nodup) ∧
    (m.root = none ↔ m.count = 0) ∧
    (∀ key val, (m.assoc hashf key val).count =
      m.count + (if (m.lookup hashf key).isSome then 0 else 1)) ∧
    (∀ key, (m.dissoc hashf key).count =
      m.count - (if (m.lookup hashf key).isSome then 1 else 0)) := by
  have hwf := reachable_MapWF hashf m hr
  have hwf2 := hwf
  rw [MapWF] at hwf2
  refine ⟨?_, ?_, ?_, ?_⟩
  · cases hroot : m.root with
    | none =>
      rw [hroot] at hwf2
      simp only [] at hwf2
      rw [PersistentMap.toList, hroot]
      exact ⟨by simpa using hwf2, by simp⟩
    | some r =>
      rw [hroot] at hwf2
      simp only [] at hwf2
      obtain ⟨hnwf, hcount⟩ := hwf2
      obtain ⟨-, hnd, -, -⟩ := wf_toList_props hashf r 0 0 hnwf
      rw [PersistentMap.toList, hroot]
      exact ⟨hcount, hnd⟩
  · cases hroot : m.root with
    | none =>
      rw [hroot] at hwf2
      simp only [] at hwf2
      simp [hwf2]
    | some r =>
      rw [hroot] at hwf2
      simp only [] at hwf2
      obtain ⟨hnwf, hcount⟩ := hwf2
      obtain ⟨-, -, hlen1, -⟩ := wf_toList_props hashf r 0 0 hnwf
      constructor
      · intro hh
        cases hh
      · intro hcnt
        exfalso
        rw [hcount] at hcnt
        omega
  · intro key val
    exact (assoc_map_props hashf m key val hwf).2.1
  · intro key
    exact (dissoc_map_props hashf m key hwf).2.1

theorem C3_count_invariant_witness :
    ((PersistentMap.empty Nat Nat).count = (PersistentMap.empty Nat Nat).toList.length ∧
      ((PersistentMap.empty Nat Nat).toList.map Prod.fst).Nodup) ∧
    ((PersistentMap.empty Nat Nat).root = none ↔ (PersistentMap.empty Nat Nat).count = 0) ∧
    (∀ key val, ((PersistentMap.empty Nat Nat).assoc natHash key val).count =
      (PersistentMap.empty Nat Nat).count +
        (if ((PersistentMap.empty Nat Nat).lookup natHash key).isSome then 0 else 1)) ∧
    (∀ key, ((PersistentMap.empty Nat Nat).dissoc natHash key).count =
      (PersistentMap.empty Nat Nat).count -
        (if ((PersistentMap.empty Nat Nat).lookup natHash key).isSome then 1 else 0)) :=
  C3_count_invariant natHash (PersistentMap.empty Nat Nat) Reachable.empty

/-- C7: inserting an absent key and deleting it again gives a map equal to
the original under the `__eq__` of the code (same count, every pair of one
present in the other), even though the tree shape may differ. -/
theorem C7_dissoc_assoc_identity [DecidableEq kt] [DecidableEq vt] (hashf : kt → Int)
    (m : PersistentMap kt vt) (hr : Reachable hashf m) (key : kt) (val : vt)
    (habs : m.lookup hashf key = none) :
    ((m.assoc hashf key val).dissoc hashf key).mapEq hashf m = true := by
  have hwf := reachable_MapWF hashf m hr
  obtain ⟨hwf1, hacount, hachar⟩ := assoc_map_props hashf m key val hwf
  obtain ⟨hwf2, hdcount, hdchar⟩ :=
    dissoc_map_props hashf (m.assoc hashf key val) key hwf1
  have hl1 : (m.assoc hashf key val).lookup hashf key = some val := by
    have h := hachar key
    rw [if_pos rfl] at h
    exact h
  have hc2 : ((m.assoc hashf key val).dissoc hashf key).count = m.count := by
    rw [hdcount, hl1, hacount, habs]
    simp
  have hchar : ∀ k', ((m.assoc hashf key val).dissoc hashf key).lookup hashf k' =
      if k' = key then none else m.lookup hashf k' := by
    intro k'
    rw [hdchar k']
    by_cases hk' : k' = key
    · rw [if_pos hk', if_pos hk']
    · rw [if_neg hk', if_neg hk', hachar k', if_neg hk']
  rw [PersistentMap.mapEq, Bool.and_eq_true]
  constructor
  · simp [hc2]
  · rw [List.all_eq_true]
    intro p hp
    have hl2 : ((m.assoc hashf key val).dissoc hashf key).lookup hashf p.1 =
        some p.2 := (lookup_toList_iff hashf _ hwf2 p.1 p.2).mpr hp
    rw [hchar p.1] at hl2
    by_cases hk' : p.1 = key
    · rw [if_pos hk'] at hl2
      cases hl2
    · rw [if_neg hk'] at hl2
      simp [PersistentMap.contains, hl2]

theorem C7_dissoc_assoc_identity_witness :
    (((PersistentMap.empty Nat Nat).assoc natHash 1 2).dissoc natHash 1).mapEq
      natHash (PersistentMap.empty Nat Nat) = true :=
  C7_dissoc_assoc_identity natHash (PersistentMap.empty Nat Nat)
    Reachable.empty 1 2 rfl

/-- C9: `get(k, default)` returns the stored value exactly when `k` is
stored (a stored value is returned even if it equals the host `None`,
since the internal sentinel is distinct from every stored value) and the
default exactly when `k` is absent; `__getitem__` signals `KeyError`
(modelled as `none`) precisely for absent keys, and no lookup modifies the
map (lookups are pure functions of it). -/
theorem C9_get_default_getitem [DecidableEq kt] [DecidableEq vt] (hashf : kt → Int)
    (m : PersistentMap kt vt) (hr : Reachable hashf m) (key : kt) (dflt : vt) :
    (∀ v, (key, v) ∈ m.toList →
      m.get hashf key dflt = v ∧ m.getItem hashf key = some v) ∧
    (key ∉ m.toList.map Prod.fst →
      m.get hashf key dflt = dflt ∧ m.getItem hashf key = none) ∧
    (m.getItem hashf key = none ↔ key ∉ m.toList.map Prod.fst) := by
  have hwf := reachable_MapWF hashf m hr
  have hiff := lookup_toList_iff hashf m hwf
  have habs : m.lookup hashf key = none ↔ key ∉ m.toList.map Prod.fst := by
    constructor
    · intro hn hmemk
      obtain ⟨⟨a, b⟩, hq, hq1⟩ := List.mem_map.mp hmemk
      simp only [] at hq1
      rw [hq1] at hq
      have hcontra := (hiff key b).mpr hq
      rw [hn] at hcontra
      cases hcontra
    · intro hnk
      cases hl : m.lookup hashf key with
      | none => rfl
      | some v =>
        have hmem := (hiff key v).mp hl
        exact absurd (List.mem_map_of_mem Prod.fst hmem) hnk
  refine ⟨?_, ?_, ?_⟩
  · intro v hv
    have hl := (hiff key v).mpr hv
    constructor
    · rw [PersistentMap.get, hl]
      rfl
    · rw [PersistentMap.getItem, hl]
  · intro hnk
    have hl := habs.mpr hnk
    constructor
    · rw [PersistentMap.get, hl]
      rfl
    · rw [PersistentMap.getItem, hl]
  · rw [PersistentMap.getItem]
    exact habs

theorem C9_get_default_getitem_witness :
    (PersistentMap.empty Nat Nat).get natHash 1 0 = 0 ∧
    (PersistentMap.empty Nat Nat).getItem natHash 1 = none :=
  (C9_get_default_getitem natHash (PersistentMap.empty Nat Nat)
    Reachable.empty 1 0).2.1 (by simp [PersistentMap.toList, PersistentMap.empty])

/-- Folding `assoc` over a key list: reachability is preserved, lookup is
last-writer-wins, and fresh distinct keys each add one to the count. -/
theorem foldl_assoc_props [DecidableEq kt] [DecidableEq vt] (hashf : kt → Int)
    (keys : List kt) (f : kt → vt) (m0 : PersistentMap kt vt)
    (hr : Reachable hashf m0) :
    Reachable hashf (keys.foldl (fun acc k => acc.assoc hashf k (f k)) m0) ∧
    (∀ k', (keys.foldl (fun acc k => acc.assoc hashf k (f k)) m0).lookup hashf k' =
      if k' ∈ keys then some (f k') else m0.lookup hashf k') ∧
    (keys.Nodup → (∀ k ∈ keys, m0.lookup hashf k = none) →
      (keys.foldl (fun acc k => acc.assoc hashf k (f k)) m0).count =
        m0.count + keys.length) := by
  induction keys generalizing m0 with
  | nil =>
    refine ⟨hr, ?_, ?_⟩
    · intro k'
      rw [List.foldl_nil, if_neg (List.not_mem_nil k')]
    · intro h1 h2
      rw [List.foldl_nil]
      simp
  | cons k ks ih =>
    have hr1 : Reachable hashf (m0.assoc hashf k (f k)) :=
      Reachable.assoc k (f k) hr
    obtain ⟨hrec, hlook, hcnt⟩ := ih (m0.assoc hashf k (f k)) hr1
    have hachar :=
      (assoc_map_props hashf m0 k (f k) (reachable_MapWF hashf m0 hr)).2.2
    refine ⟨?_, ?_, ?_⟩
    · rw [List.foldl_cons]
      exact hrec
    · intro k'
      rw [List.foldl_cons, hlook k']
      by_cases hks : k' ∈ ks
      · rw [if_pos hks, if_pos (List.mem_cons_of_mem _ hks)]
      · rw [if_neg hks, hachar k']
        by_cases hk : k' = k
        · rw [hk, if_pos rfl, if_pos (List.mem_cons_self _ _)]
        · rw [if_neg hk, if_neg (by
            intro hmem
            rcases List.mem_cons.mp hmem with h | h
            · exact hk h
            · exact hks h)]
    · intro hnd hnew
      rw [List.foldl_cons]
      rw [List.nodup_cons] at hnd
      have hcnt2 := hcnt hnd.2 (by
        intro k2 hk2
        rw [hachar k2, if_neg (by
          intro he
          rw [he] at hk2
          exact hnd.1 hk2)]
        exact hnew k2 (List.mem_cons_of_mem _ hk2))
      rw [hcnt2]
      have hdelta :=
        (assoc_map_props hashf m0 k (f k) (reachable_MapWF hashf m0 hr)).2.1
      rw [hdelta, hnew k (List.mem_cons_self _ _)]
      simp
      omega

/-- C8: with a hash function that is a fixed constant every key collides;
inserting distinct keys `k` with values `f k` into the empty map gives
count = number of keys with each key bound to its own value, and deleting
any one key afterwards drops the count by one, removes exactly that key,
and leaves every other binding intact. -/
theorem C8_constant_hash_buckets [DecidableEq kt] [DecidableEq vt] (c : Int)
    (keys : List kt) (f : kt → vt) (hnd : keys.Nodup) :
    ((keys.foldl (fun acc k => acc.assoc (fun _ => c) k (f k))
        (PersistentMap.empty kt vt)).count = keys.length ∧
      (∀ k ∈ keys,
        (keys.foldl (fun acc k2 => acc.assoc (fun _ => c) k2 (f k2))
          (PersistentMap.empty kt vt)).lookup (fun _ => c) k = some (f k))) ∧
    (∀ k0 ∈ keys,
      ((keys.foldl (fun acc k2 => acc.assoc (fun _ => c) k2 (f k2))
          (PersistentMap.empty kt vt)).dissoc (fun _ => c) k0).count =
        keys.length - 1 ∧
      ((keys.foldl (fun acc k2 => acc.assoc (fun _ => c) k2 (f k2))
          (PersistentMap.empty kt vt)).dissoc (fun _ => c) k0).lookup
        (fun _ => c) k0 = none ∧
      (∀ k ∈ keys, k ≠ k0 →
        ((keys.foldl (fun acc k2 => acc.assoc (fun _ => c) k2 (f k2))
            (PersistentMap.empty kt vt)).dissoc (fun _ => c) k0).lookup
          (fun _ => c) k = some (f k))) := by
  have hemp : ∀ k' : kt,
      (PersistentMap.empty kt vt).lookup (fun _ => c) k' = none := by
    intro k'
    rw [PersistentMap.lookup]
    rfl
  obtain ⟨hrec, hlook, hcnt⟩ :=
    foldl_assoc_props (fun _ => c) keys f (PersistentMap.empty kt vt)
      Reachable.empty
  have hcount := hcnt hnd (fun k _ => hemp k)
  have hlookmem : ∀ k ∈ keys,
      (keys.foldl (fun acc k2 => acc.assoc (fun _ => c) k2 (f k2))
        (PersistentMap.empty kt vt)).lookup (fun _ => c) k = some (f k) := by
    intro k hkmem
    rw [hlook k, if_pos hkmem]
  refine ⟨⟨by rw [hcount]; simp [PersistentMap.empty], hlookmem⟩, ?_⟩
  intro k0 hk0
  obtain ⟨hdwf, hdcount, hdchar⟩ :=
    dissoc_map_props (fun _ => c) _ k0
      (reachable_MapWF (fun _ => c) _ hrec)
  have hl0 := hlookmem k0 hk0
  refine ⟨?_, ?_, ?_⟩
  · rw [hdcount, hl0, hcount]
    simp [PersistentMap.empty]
  · rw [hdchar k0, if_pos rfl]
  · intro k hkmem hkne
    rw [hdchar k, if_neg hkne]
    exact hlookmem k hkmem

theorem C8_constant_hash_buckets_witness :
    ((([1, 2, 3] : List Nat).foldl
        (fun acc k => acc.assoc (fun _ => (12345 : Int)) k (k + 10))
        (PersistentMap.empty Nat Nat)).count = ([1, 2, 3] : List Nat).length ∧
      (∀ k ∈ ([1, 2, 3] : List Nat),
        (([1, 2, 3] : List Nat).foldl
          (fun acc k2 => acc.assoc (fun _ => (12345 : Int)) k2 (k2 + 10))
          (PersistentMap.empty Nat Nat)).lookup (fun _ => (12345 : Int)) k =
          some (k + 10))) ∧
    (∀ k0 ∈ ([1, 2, 3] : List Nat),
      ((([1, 2, 3] : List Nat).foldl
          (fun acc k2 => acc.assoc (fun _ => (12345 : Int)) k2 (k2 + 10))
          (PersistentMap.empty Nat Nat)).dissoc (fun _ => (12345 : Int)) k0).count =
        ([1, 2, 3] : List Nat).length - 1 ∧
      ((([1, 2, 3] : List Nat).foldl
          (fun acc k2 => acc.assoc (fun _ => (12345 : Int)) k2 (k2 + 10))
          (PersistentMap.empty Nat Nat)).dissoc (fun _ => (12345 : Int)) k0).lookup
        (fun _ => (12345 : Int)) k0 = none ∧
      (∀ k ∈ ([1, 2, 3] : List Nat), k ≠ k0 →
        ((([1, 2, 3] : List Nat).foldl
            (fun acc k2 => acc.assoc (fun _ => (12345 : Int)) k2 (k2 + 10))
            (PersistentMap.empty Nat Nat)).dissoc (fun _ => (12345 : Int)) k0).lookup
          (fun _ => (12345 : Int)) k = some (k + 10))) :=
  C8_constant_hash_buckets (12345 : Int) [1, 2, 3] (fun k => k + 10) (by decide)

/-- The slot-list collision invariant follows from per-child invariants. -/
theorem slotsCollInv_of_children (hashf : kt → Int) (arr : List (Slot kt vt))
    (shift : Nat)
    (h : ∀ c, Slot.child c ∈ arr → collInv hashf c (shift + 5) = true) :
    slotsCollInv hashf arr shift = true := by
  induction arr with
  | nil => rw [slotsCollInv]
  | cons s rest ih =>
    cases s with
    | entry k v =>
      rw [slotsCollInv]
      exact ih (fun c hc => h c (List.mem_cons_of_mem _ hc))
    | child c =>
      rw [slotsCollInv, Bool.and_eq_true]
      exact ⟨h c (List.mem_cons_self _ _),
        ih (fun c2 hc => h c2 (List.mem_cons_of_mem _ hc))⟩

/-- Slot-list depth is bounded by any bound on the children. -/
theorem slotsDepth_le (arr : List (Slot kt vt)) (d : Nat)
    (h : ∀ c, Slot.child c ∈ arr → Node.depth c ≤ d) :
    slotsDepth arr ≤ d := by
  induction arr with
  | nil =>
    rw [slotsDepth]
    omega
  | cons s rest ih =>
    cases s with
    | entry k v =>
      rw [slotsDepth]
      exact ih (fun c hc => h c (List.mem_cons_of_mem _ hc))
    | child c =>
      rw [slotsDepth]
      exact Nat.max_le.mpr ⟨h c (List.mem_cons_self _ _),
        ih (fun c2 hc => h c2 (List.mem_cons_of_mem _ hc))⟩

/-- Well-formed nodes satisfy the collision-placement invariant: every
collision node sits at shift 65 with all keys agreeing on 65 hash bits. -/
theorem wf_collInv [DecidableEq kt] [DecidableEq vt] (hashf : kt → Int)
    (n : Node kt vt) (shift p : Nat) (hwf : NodeWF hashf n shift p) :
    collInv hashf n shift = true := by
  cases n with
  | collisionNode ch arr =>
    cases hwf with
    | collision hs65 hpre hkeyhash hnodup hne =>
      subst hs65
      rw [collInv, Bool.and_eq_true]
      constructor
      · rfl
      · rw [List.all_eq_true]
        intro q hq
        rw [List.all_eq_true]
        intro q2 hq2
        rw [beq_iff_eq, hkeyhash q hq, hkeyhash q2 hq2]
  | bitmapNode bm arr =>
    cases hwf with
    | bitmap hs60 hs5 hp hbm32 hbm0 hlen hslots =>
      rw [collInv]
      refine slotsCollInv_of_children hashf arr shift ?_
      intro ch hmem
      obtain ⟨i, hi⟩ := List.getElem?_of_mem hmem
      have hilt : i < arr.length := getElem_some_lt hi
      rw [hlen] at hilt
      obtain ⟨f, hf32, hfb, hpc⟩ := exists_bit_of_lt_popcount hbm32 hilt
      rw [← hpc] at hi
      have hopt := hslots f hf32 hfb
      rw [hi] at hopt
      cases hopt with
      | some hswf =>
        cases hswf with
        | child hcwf =>
          have hsz : sizeOf ch < sizeOf (Node.bitmapNode bm arr) := by
            have hm2 := List.sizeOf_lt_of_mem hmem
            simp at hm2 ⊢
            omega
          exact wf_collInv hashf ch (shift + 5) _ hcwf
termination_by sizeOf n
decreasing_by simp_wf
              subst_vars
              assumption

/-- Well-formed nodes have depth at most `14 - shift / 5`. -/
theorem wf_depth [DecidableEq kt] [DecidableEq vt] (hashf : kt → Int)
    (n : Node kt vt) (shift p : Nat) (hwf : NodeWF hashf n shift p) :
    n.depth ≤ 14 - shift / 5 := by
  cases n with
  | collisionNode ch arr =>
    cases hwf with
    | collision hs65 hpre hkeyhash hnodup hne =>
      subst hs65
      rw [Node.depth]
  | bitmapNode bm arr =>
    cases hwf with
    | bitmap hs60 hs5 hp hbm32 hbm0 hlen hslots =>
      rw [Node.depth]
      have hchild : ∀ c, Slot.child c ∈ arr →
          Node.depth c ≤ 14 - (shift + 5) / 5 := by
        intro ch hmem
        obtain ⟨i, hi⟩ := List.getElem?_of_mem hmem
        have hilt : i < arr.length := getElem_some_lt hi
        rw [hlen] at hilt
        obtain ⟨f, hf32, hfb, hpc⟩ := exists_bit_of_lt_popcount hbm32 hilt
        rw [← hpc] at hi
        have hopt := hslots f hf32 hfb
        rw [hi] at hopt
        cases hopt with
        | some hswf =>
          cases hswf with
          | child hcwf =>
            have hsz : sizeOf ch < sizeOf (Node.bitmapNode bm arr) := by
              have hm2 := List.sizeOf_lt_of_mem hmem
              simp at hm2 ⊢
              omega
            exact wf_depth hashf ch (shift + 5) _ hcwf
      have hs := slotsDepth_le arr (14 - (shift + 5) / 5) hchild
      omega
termination_by sizeOf n
decreasing_by simp_wf
              subst_vars
              assumption

/-- C5 (amended): in every reachable map, collision nodes exist only at
shift 65 — that is, once all 13 usable 5-bit fragments of the (unbounded)
hash are consumed, not at `shift + 5 ≥ 32` — all keys of a collision node
share their 65 low hash bits, and the tree depth is at most 14 levels
rather than 7. -/
theorem C5_collision_placement [DecidableEq kt] [DecidableEq vt]
    (hashf : kt → Int) (m : PersistentMap kt vt) (hr : Reachable hashf m)
    (r : Node kt vt) (hroot : m.root = some r) :
    collInv hashf r 0 = true ∧ r.depth ≤ 14 := by
  have hwf := reachable_MapWF hashf m hr
  rw [MapWF, hroot] at hwf
  simp only [] at hwf
  exact ⟨wf_collInv hashf r 0 0 hwf.1, by simpa using wf_depth hashf r 0 0 hwf.1⟩

theorem C5_collision_placement_witness :
    collInv natHash (Node.bitmapNode 2 [Slot.entry 1 2]) 0 = true ∧
    Node.depth (Node.bitmapNode 2 [Slot.entry 1 2]) ≤ 14 :=
  C5_collision_placement natHash
    ((PersistentMap.empty Nat Nat).assoc natHash 1 2)
    (Reachable.assoc 1 2 Reachable.empty)
    (Node.bitmapNode 2 [Slot.entry 1 2])
    (by
      have h := (empty_root_props natHash (1 : Nat) (2 : Nat)).1
      have he : ((hashValue natHash 1 >>> 0) &&& 31) = 1 := by decide
      rw [he] at h
      rw [PersistentMap.assoc]
      simp only [PersistentMap.empty]
      rw [h]
      rfl)

/-- `_create_node` only allocates: the output heap extends the input. -/
theorem hCreateNode_extends (hashf : kt → Int) (shift : Nat) (hp : Heap kt vt)
    (k1 : kt) (v1 : vt) (k2hash : Nat) (k2 : kt) (v2 : vt) :
    ∃ t, (hCreateNode hashf shift hp k1 v1 k2hash k2 v2).1 = hp ++ t := by
  rw [hCreateNode]
  by_cases h64 : 64 ≤ shift
  · rw [if_pos h64]
    exact ⟨_, rfl⟩
  · rw [if_neg h64]
    simp only []
    by_cases heq : ((hashValue hashf k1 >>> shift) &&& 31) =
        ((k2hash >>> shift) &&& 31)
    · rw [if_pos heq]
      obtain ⟨t, ht⟩ := hCreateNode_extends hashf (shift + 5) hp k1 v1 k2hash k2 v2
      rcases hcn : hCreateNode hashf (shift + 5) hp k1 v1 k2hash k2 v2 with ⟨hp2, c⟩
      rw [hcn] at ht
      simp only [] at ht
      rw [ht]
      exact ⟨t ++ [.bitmapNode (1 <<< ((hashValue hashf k1 >>> shift) &&& 31))
        [.child c]], by rw [List.append_assoc]⟩
    · rw [if_neg heq]
      by_cases hlt : ((hashValue hashf k1 >>> shift) &&& 31) <
          ((k2hash >>> shift) &&& 31)
      · rw [if_pos hlt]
        exact ⟨_, rfl⟩
      · rw [if_neg hlt]
        exact ⟨_, rfl⟩
termination_by 69 - shift
decreasing_by simp_wf
              omega

/-- Heap-level `assoc` only allocates. -/
theorem hAssoc_extends [DecidableEq kt] [DecidableEq vt] (hashf : kt → Int) :
    ∀ (fuel : Nat) (hp : Heap kt vt) (a shift keyHash : Nat) (key : kt) (val : vt),
    ∃ t, (hAssoc hashf fuel hp a shift keyHash key val).1 = hp ++ t := by
  intro fuel
  induction fuel with
  | zero =>
    intro hp a shift keyHash key val
    rw [hAssoc]
    exact ⟨[], by simp⟩
  | succ g ih =>
    intro hp a shift keyHash key val
    rw [hAssoc]
    cases hpa : hp[a]? with
    | none => exact ⟨[], by simp⟩
    | some node =>
      cases node with
      | collisionNode ch arr =>
        simp only []
        cases hca : collAssoc arr key val with
        | none => exact ⟨[], by simp⟩
        | some arr2 => exact ⟨_, rfl⟩
      | bitmapNode bm arr =>
        simp only []
        by_cases hbz : bm &&& (1 <<< ((keyHash >>> shift) &&& 31)) ≠ 0
        · rw [if_pos hbz]
          cases harr : arr[popcount (bm &&& ((1 <<< ((keyHash >>> shift) &&& 31)) - 1))]? with
          | none => exact ⟨[], by simp⟩
          | some s =>
            cases s with
            | child c =>
              simp only []
              obtain ⟨t, ht⟩ := ih hp c (shift + 5) keyHash key val
              rcases hres : hAssoc hashf g hp c (shift + 5) keyHash key val with ⟨hp2, r⟩
              rw [hres] at ht
              simp only [] at ht
              cases r with
              | same => exact ⟨t, ht⟩
              | empty => exact ⟨t, ht⟩
              | fail => exact ⟨t, ht⟩
              | addr c2 =>
                rw [ht]
                simp only []
                exact ⟨_, (List.append_assoc hp t _).symm.symm⟩
            | entry k v2 =>
              simp only []
              by_cases hk : k = key
              · rw [if_pos hk]
                by_cases hv : v2 = val
                · rw [if_pos hv]
                  exact ⟨[], by simp⟩
                · rw [if_neg hv]
                  exact ⟨_, rfl⟩
              · rw [if_neg hk]
                obtain ⟨t, ht⟩ := hCreateNode_extends hashf (shift + 5) hp k v2 keyHash key val
                rcases hcn : hCreateNode hashf (shift + 5) hp k v2 keyHash key val with ⟨hp2, c⟩
                rw [hcn] at ht
                simp only [] at ht
                rw [ht]
                simp only []
                exact ⟨_, (List.append_assoc hp t _).symm.symm⟩
        · rw [if_neg hbz]
          exact ⟨_, rfl⟩

/-- Heap-level `dissoc` only allocates. -/
theorem hDissoc_extends [DecidableEq kt] (hashf : kt → Int) :
    ∀ (fuel : Nat) (hp : Heap kt vt) (a shift keyHash : Nat) (key : kt),
    ∃ t, (hDissoc hashf fuel hp a shift keyHash key).1 = hp ++ t := by
  intro fuel
  induction fuel with
  | zero =>
    intro hp a shift keyHash key
    rw [hDissoc]
    exact ⟨[], by simp⟩
  | succ g ih =>
    intro hp a shift keyHash key
    rw [hDissoc]
    cases hpa : hp[a]? with
    | none => exact ⟨[], by simp⟩
    | some node =>
      cases node with
      | collisionNode ch arr =>
        simp only []
        cases hcd : collDissoc arr key with
        | none => exact ⟨[], by simp⟩
        | some arr2 =>
          cases arr2 with
          | nil => exact ⟨[], by simp⟩
          | cons q rest => exact ⟨_, rfl⟩
      | bitmapNode bm arr =>
        simp only []
        by_cases hbz : bm &&& (1 <<< ((keyHash >>> shift) &&& 31)) = 0
        · rw [if_pos hbz]
          exact ⟨[], by simp⟩
        · rw [if_neg hbz]
          cases harr : arr[popcount (bm &&& ((1 <<< ((keyHash >>> shift) &&& 31)) - 1))]? with
          | none => exact ⟨[], by simp⟩
          | some s =>
            cases s with
            | child c =>
              simp only []
              obtain ⟨t, ht⟩ := ih hp c (shift + 5) keyHash key
              rcases hres : hDissoc hashf g hp c (shift + 5) keyHash key with ⟨hp2, r⟩
              rw [hres] at ht
              simp only [] at ht
              cases r with
              | same => exact ⟨t, ht⟩
              | fail => exact ⟨t, ht⟩
              | empty =>
                rw [ht]
                simp only []
                by_cases hpc : popcount bm = 1
                · rw [if_pos hpc]
                  exact ⟨t, rfl⟩
                · rw [if_neg hpc]
                  exact ⟨_, (List.append_assoc hp t _).symm.symm⟩
              | addr c2 =>
                rw [ht]
                simp only []
                exact ⟨_, (List.append_assoc hp t _).symm.symm⟩
            | entry k v2 =>
              simp only []
              by_cases hk : k = key
              · rw [if_pos hk]
                by_cases hpc : popcount bm = 1
                · rw [if_pos hpc]
                  exact ⟨[], by simp⟩
                · rw [if_neg hpc]
                  exact ⟨_, rfl⟩
              · rw [if_neg hk]
                exact ⟨[], by simp⟩

/-- Reads of existing addresses are unaffected by allocation. -/
theorem hGet_append [DecidableEq kt] (hp t : Heap kt vt)
    (hcl : heapClosed hp = true) :
    ∀ (fuel a shift keyHash : Nat) (key : kt), a < hp.length →
      hGet fuel (hp ++ t) a shift keyHash key =
        hGet fuel hp a shift keyHash key := by
  intro fuel
  induction fuel with
  | zero =>
    intro a shift keyHash key ha
    rw [hGet, hGet]
  | succ g ih =>
    intro a shift keyHash key ha
    rw [hGet, hGet, List.getElem?_append_left ha]
    cases hpa : hp[a]? with
    | none => rfl
    | some node =>
      cases node with
      | collisionNode ch arr => rfl
      | bitmapNode bm arr =>
        simp only []
        by_cases hbz : bm &&& (1 <<< ((keyHash >>> shift) &&& 31)) = 0
        · rw [if_pos hbz, if_pos hbz]
        · rw [if_neg hbz, if_neg hbz]
          cases harr : arr[popcount (bm &&& ((1 <<< ((keyHash >>> shift) &&& 31)) - 1))]? with
          | none => rfl
          | some s =>
            cases s with
            | entry k v => rfl
            | child cc =>
              simp only []
              have hcb : HNode.closedBelow hp.length
                  (HNode.bitmapNode bm arr) = true := by
                rw [heapClosed, List.all_eq_true] at hcl
                exact hcl _ (List.getElem?_mem hpa)
              rw [HNode.closedBelow, List.all_eq_true] at hcb
              have hccb := hcb _ (List.getElem?_mem harr)
              simp only [] at hccb
              exact ih cc (shift + 5) keyHash key (of_decide_eq_true hccb)

/-- Iteration of a slot list is unaffected by allocation when its child
addresses already exist. -/
theorem hSlotsToList_append (hp t : Heap kt vt) (g : Nat)
    (hg : ∀ a, a < hp.length → hToList g (hp ++ t) a = hToList g hp a)
    (arr : List (HSlot kt vt))
    (hch : ∀ cc, HSlot.child cc ∈ arr → cc < hp.length) :
    hSlotsToList g (hp ++ t) arr = hSlotsToList g hp arr := by
  induction arr with
  | nil => rw [hSlotsToList, hSlotsToList]
  | cons s rest ih =>
    cases s with
    | entry k v =>
      rw [hSlotsToList, hSlotsToList,
        ih (fun cc hcc => hch cc (List.mem_cons_of_mem _ hcc))]
    | child cc =>
      rw [hSlotsToList, hSlotsToList,
        ih (fun cc2 hcc => hch cc2 (List.mem_cons_of_mem _ hcc)),
        hg cc (hch cc (List.mem_cons_self _ _))]

/-- Iteration from an existing address is unaffected by allocation. -/
theorem hToList_append (hp t : Heap kt vt) (hcl : heapClosed hp = true) :
    ∀ (fuel : Nat) (a : Nat), a < hp.length →
      hToList fuel (hp ++ t) a = hToList fuel hp a := by
  intro fuel
  induction fuel with
  | zero =>
    intro a ha
    rw [hToList, hToList]
  | succ g ih =>
    intro a ha
    rw [hToList, hToList, List.getElem?_append_left ha]
    cases hpa : hp[a]? with
    | none => rfl
    | some node =>
      cases node with
      | collisionNode ch arr => rfl
      | bitmapNode bm arr =>
        simp only []
        have hcb : HNode.closedBelow hp.length
            (HNode.bitmapNode bm arr) = true := by
          rw [heapClosed, List.all_eq_true] at hcl
          exact hcl _ (List.getElem?_mem hpa)
        rw [HNode.closedBelow, List.all_eq_true] at hcb
        refine hSlotsToList_append hp t g ih arr ?_
        intro cc hcc
        have hccb := hcb _ hcc
        simp only [] at hccb
        exact of_decide_eq_true hccb

/-- C2: in the allocation-explicit embedding, `assoc` and `dissoc` never
mutate the input heap: the result heap is the input heap plus freshly
allocated records, so every observation made through an existing node —
`get`, containment, `len`, iteration — repeats identically afterwards;
unreached siblings are shared by address. -/
theorem C2_no_mutation [DecidableEq kt] [DecidableEq vt] (hashf : kt → Int)
    (hp : Heap kt vt) (hcl : heapClosed hp = true)
    (fuel a shift keyHash : Nat) (key : kt) (val : vt) :
    (∃ t, (hAssoc hashf fuel hp a shift keyHash key val).1 = hp ++ t) ∧
    (∃ t, (hDissoc hashf fuel hp a shift keyHash key).1 = hp ++ t) ∧
    (∀ b, b < hp.length → ∀ (fuel2 shift2 keyHash2 : Nat) (key2 : kt),
      hGet fuel2 (hAssoc hashf fuel hp a shift keyHash key val).1 b
          shift2 keyHash2 key2 = hGet fuel2 hp b shift2 keyHash2 key2 ∧
      hToList fuel2 (hAssoc hashf fuel hp a shift keyHash key val).1 b =
        hToList fuel2 hp b ∧
      hGet fuel2 (hDissoc hashf fuel hp a shift keyHash key).1 b
          shift2 keyHash2 key2 = hGet fuel2 hp b shift2 keyHash2 key2 ∧
      hToList fuel2 (hDissoc hashf fuel hp a shift keyHash key).1 b =
        hToList fuel2 hp b) := by
  obtain ⟨t1, h1⟩ := hAssoc_extends hashf fuel hp a shift keyHash key val
  obtain ⟨t2, h2⟩ := hDissoc_extends hashf fuel hp a shift keyHash key
  refine ⟨⟨t1, h1⟩, ⟨t2, h2⟩, ?_⟩
  intro b hb fuel2 shift2 keyHash2 key2
  rw [h1, h2]
  exact ⟨hGet_append hp t1 hcl fuel2 b shift2 keyHash2 key2 hb,
    hToList_append hp t1 hcl fuel2 b hb,
    hGet_append hp t2 hcl fuel2 b shift2 keyHash2 key2 hb,
    hToList_append hp t2 hcl fuel2 b hb⟩

theorem C2_no_mutation_witness :
    (∃ t, (hAssoc natHash 5 [HNode.bitmapNode 2 [HSlot.entry 1 2]]
      0 0 3 3 4).1 = [HNode.bitmapNode 2 [HSlot.entry 1 2]] ++ t) ∧
    (∃ t, (hDissoc natHash 5 [HNode.bitmapNode 2 [HSlot.entry 1 2]]
      0 0 3 3).1 = [HNode.bitmapNode 2 [HSlot.entry 1 2]] ++ t) ∧
    (∀ b, b < ([HNode.bitmapNode 2 [HSlot.entry 1 2]] : Heap Nat Nat).length →
      ∀ (fuel2 shift2 keyHash2 : Nat) (key2 : Nat),
      hGet fuel2 (hAssoc natHash 5 [HNode.bitmapNode 2 [HSlot.entry 1 2]]
          0 0 3 3 4).1 b shift2 keyHash2 key2 =
        hGet fuel2 [HNode.bitmapNode 2 [HSlot.entry 1 2]] b shift2 keyHash2 key2 ∧
      hToList fuel2 (hAssoc natHash 5 [HNode.bitmapNode 2 [HSlot.entry 1 2]]
          0 0 3 3 4).1 b =
        hToList fuel2 [HNode.bitmapNode 2 [HSlot.entry 1 2]] b ∧
      hGet fuel2 (hDissoc natHash 5 [HNode.bitmapNode 2 [HSlot.entry 1 2]]
          0 0 3 3).1 b shift2 keyHash2 key2 =
        hGet fuel2 [HNode.bitmapNode 2 [HSlot.entry 1 2]] b shift2 keyHash2 key2 ∧
      hToList fuel2 (hDissoc natHash 5 [HNode.bitmapNode 2 [HSlot.entry 1 2]]
          0 0 3 3).1 b =
        hToList fuel2 [HNode.bitmapNode 2 [HSlot.entry 1 2]] b) :=
  C2_no_mutation natHash [HNode.bitmapNode 2 [HSlot.entry 1 2]]
    (by decide) 5 0 0 3 3 4

end PyPersist
